import Mathlib

/-! # GeneticAlgorithmPNG: the evolutionary engine of `genticalgorithmpng.cpp`

A shallow embedding of the program's core (`Pixel`, `Individual`, `GeneticAlgorithm`) and
theorems about it.

Conventions of the embedding.

* `unsigned char` is `Fin 256`; a store of an `int` into one goes through `toUChar`.
* `int` is `Int`: the counters of the program stay far inside the range of `int` (the loop of
  `run` increments `generation` only below `maxGenerations`); the conversion to `size_t` where
  the source compares or indexes with an `int` is explicit (`toSizeT`). The one sum that can
  leave the range, `(int)r + change` of `Pixel::mutate`, is reduced to 32 bits (`toInt32`).
* `double` is the rational value of the double: a quotient or a difference of doubles is
  rounded to the nearest double, ties to even (`roundDouble`). The accumulation of
  `calculateFitness` adds integers of at most 765 and is exact; NaN, infinities and subnormal
  numbers are not represented, and no value of the engine comes near them.
* `std::vector` is `List`. `operator[]` outside the bounds is undefined behaviour: the embedding
  then yields `none`, as it does where a library precondition is broken
  (`uniform_int_distribution(a, b)` with `b < a`).
* `std::mt19937` is a stream of raw draws with a position; each call of a distribution
  consumes one raw draw and maps it onto the range of the distribution.
* Console output and the writing of PNG files are left out.
-/

namespace GeneticAlgorithmPNG

/-! ## Machine conversions and the random source -/

/-- Conversion of an `int` to `unsigned char`: reduction modulo 256. -/
def toUChar (x : Int) : Fin 256 := ⟨(x % 256).toNat, by omega⟩

/-- Conversion of an `int` to `size_t` (64 bits): reduction modulo `2 ^ 64`. -/
def toSizeT (x : Int) : Nat := (x % 18446744073709551616).toNat

/-- Value of an `int` sum whose mathematical result is `x`: the 32-bit two's-complement value, so
a sum above `INT_MAX` wraps to a negative one (the standard leaves that overflow undefined; the
compiled program wraps). -/
def toInt32 (x : Int) : Int := (x + 2147483648) % 4294967296 - 2147483648

/-- Rounding of a rational to the nearest integer, ties to the even one. -/
def roundEven (m : ℚ) : ℤ :=
  if m - ⌊m⌋ < 1 / 2 then ⌊m⌋
  else if 1 / 2 < m - ⌊m⌋ then ⌊m⌋ + 1
  else if ⌊m⌋ % 2 = 0 then ⌊m⌋ else ⌊m⌋ + 1

/-- Rounding of a positive rational to 53 significant bits: with `2 ^ e ≤ q < 2 ^ (e + 1)` the
result is the multiple of `2 ^ (e - 52)` nearest to `q`, ties to even. -/
def roundPos (q : ℚ) : ℚ :=
  roundEven (q / 2 ^ (Int.log 2 q - 52)) * 2 ^ (Int.log 2 q - 52)

/-- Result of a `double` operation whose exact value is `q`: the nearest double, ties to even
(the default rounding of IEEE 754 binary64, exponent range not limited). -/
def roundDouble (q : ℚ) : ℚ :=
  if 0 < q then roundPos q else if q < 0 then -roundPos (-q) else 0

/-- State of the generator `std::mt19937`: the stream of raw draws it delivers and the number of
draws already consumed. -/
structure mt19937 where
  stream : Nat → Nat
  index : Nat

/-- One raw draw: the next element of the stream, and the generator advanced by one. -/
def mt19937.next (gen : mt19937) : Nat × mt19937 :=
  (gen.stream gen.index, { gen with index := gen.index + 1 })

/-- Call of `std::uniform_int_distribution<>(a, b)` on `gen`: a value of `[a, b]`. The library
requires `a ≤ b`; otherwise the behaviour is undefined (`none`). -/
def uniform_int_distribution (a b : Int) (gen : mt19937) : Option (Int × mt19937) :=
  if a ≤ b then
    some (a + ((gen.next.1 % (b - a + 1).toNat : Nat) : Int), gen.next.2)
  else none

/-- Call of `std::uniform_real_distribution<>(0.0, 1.0)` on `gen`: a value of `[0, 1)`. -/
def uniform_real_distribution (gen : mt19937) : ℚ × mt19937 :=
  (((gen.next.1 % 9007199254740992 : Nat) : ℚ) / 9007199254740992, gen.next.2)

/-! ## Pixel -/

/-- Pixel structure to store RGB values (`struct Pixel`). -/
structure Pixel where
  r : Fin 256
  g : Fin 256
  b : Fin 256
deriving DecidableEq, Repr

namespace Pixel

/-- The default constructor `Pixel()`: black. -/
def new : Pixel := ⟨0, 0, 0⟩

/-- Source `Pixel::difference`: the channels are promoted to `int` before the subtraction. -/
def difference (self other : Pixel) : Int :=
  |((self.r : Nat) : Int) - ((other.r : Nat) : Int)|
    + |((self.g : Nat) : Int) - ((other.g : Nat) : Int)|
    + |((self.b : Nat) : Int) - ((other.b : Nat) : Int)|

/-- Source `Pixel::mutate`: both distributions are built, a channel and a change are drawn, and
the chosen channel is set to the clamped sum; the sum `(int)r + change` is an `int`. -/
def mutate (self : Pixel) (gen : mt19937) (mutationStrength : Int) : Option (Pixel × mt19937) :=
  if -mutationStrength ≤ mutationStrength then do
    let (channel, gen) ← uniform_int_distribution 0 2 gen
    let (change, gen) ← uniform_int_distribution (-mutationStrength) mutationStrength gen
    match channel with
    | 0 =>
      pure ({ self with r := toUChar (max 0 (min 255 (toInt32 (((self.r : Nat) : Int) + change)))) },
        gen)
    | 1 =>
      pure ({ self with g := toUChar (max 0 (min 255 (toInt32 (((self.g : Nat) : Int) + change)))) },
        gen)
    | 2 =>
      pure ({ self with b := toUChar (max 0 (min 255 (toInt32 (((self.b : Nat) : Int) + change)))) },
        gen)
    | _ => pure (self, gen)
  else none

end Pixel

/-! ## Individual -/

/-- Individual (image) in the population (`struct Individual`). -/
structure Individual where
  pixels : List Pixel
  fitness : ℚ
deriving DecidableEq

namespace Individual

/-- The constructor `Individual()`: fitness `0.0` and `32 * 32` default pixels. -/
def new : Individual := ⟨List.replicate (32 * 32) Pixel.new, 0⟩

/-- Loop of `Individual::randomize` over the pixels, three draws of `[0, 255]` for each. -/
def randomizeLoop : List Pixel → mt19937 → Option (List Pixel × mt19937)
  | [], gen => some ([], gen)
  | _ :: rest, gen => do
    let (r, gen) ← uniform_int_distribution 0 255 gen
    let (g, gen) ← uniform_int_distribution 0 255 gen
    let (b, gen) ← uniform_int_distribution 0 255 gen
    let (rest, gen) ← randomizeLoop rest gen
    pure (⟨toUChar r, toUChar g, toUChar b⟩ :: rest, gen)

/-- Source `Individual::randomize`. -/
def randomize (self : Individual) (gen : mt19937) : Option (Individual × mt19937) := do
  let (pixels, gen) ← randomizeLoop self.pixels gen
  pure ({ self with pixels := pixels }, gen)

/-- Source `Individual::calculateFitness`: the loop runs over `i < pixels.size()` and reads
`pixels[i]` and `target[i]`; the maximal difference is the constant `32 * 32 * 255 * 3`; the
quotient and the subtraction of the last line are operations on `double`. -/
def calculateFitness (self : Individual) (target : List Pixel) : Option Individual := do
  let maxPossibleDiff : ℚ := 32 * 32 * 255 * 3
  let totalDiff ← (List.range self.pixels.length).foldlM
    (fun (totalDiff : ℚ) (i : Nat) => do
      let p ← self.pixels[i]?
      let t ← target[i]?
      pure (totalDiff + ((p.difference t : Int) : ℚ)))
    (0 : ℚ)
  pure { self with fitness := roundDouble (1 - roundDouble (totalDiff / maxPossibleDiff)) }

/-- Assignment `child.pixels[i] = p`; undefined outside the bounds. -/
def setPixel (child : Individual) (i : Nat) (p : Pixel) : Option Individual :=
  if i < child.pixels.length then some { child with pixels := child.pixels.set i p } else none

/-- Case 0 of `crossover` (uniform): for every position of the child one draw of `[0, 1]` decides
which parent the pixel is copied from. -/
def crossoverUniform (parent1 parent2 child : Individual) (gen : mt19937) :
    Option (Individual × mt19937) :=
  (List.range child.pixels.length).foldlM
    (fun (st : Individual × mt19937) (i : Nat) => do
      let (choice, gen) ← uniform_int_distribution 0 1 st.2
      if choice = 0 then
        let p ← parent1.pixels[i]?
        let child ← st.1.setPixel i p
        pure (child, gen)
      else
        let p ← parent2.pixels[i]?
        let child ← st.1.setPixel i p
        pure (child, gen))
    (child, gen)

/-- The two loops of case 1 of `crossover` (single point): positions below `splitPoint` are
copied from `parent1`, positions from `splitPoint` up to the size of the child from `parent2`. -/
def crossoverSinglePoint (parent1 parent2 child : Individual) (splitPoint : Nat) :
    Option Individual := do
  let child ← (List.range splitPoint).foldlM
    (fun (child : Individual) (i : Nat) => do
      let p ← parent1.pixels[i]?
      child.setPixel i p)
    child
  (List.range' splitPoint (child.pixels.length - splitPoint)).foldlM
    (fun (child : Individual) (i : Nat) => do
      let p ← parent2.pixels[i]?
      child.setPixel i p)
    child

/-- Case 2 of `crossover` (average): every channel is the `int` quotient of the sum of the
parents by 2, stored back into an `unsigned char`. -/
def crossoverAverage (parent1 parent2 child : Individual) : Option Individual :=
  (List.range child.pixels.length).foldlM
    (fun (child : Individual) (i : Nat) => do
      let p1 ← parent1.pixels[i]?
      let p2 ← parent2.pixels[i]?
      child.setPixel i
        ⟨toUChar ((((p1.r : Nat) : Int) + ((p2.r : Nat) : Int)) / 2),
         toUChar ((((p1.g : Nat) : Int) + ((p2.g : Nat) : Int)) / 2),
         toUChar ((((p1.b : Nat) : Int) + ((p2.b : Nat) : Int)) / 2)⟩)
    child

/-- Source `Individual::crossover`: the child starts as `Individual()`, one of three methods is
drawn; the split point of case 1 is drawn from `[0, child.pixels.size() - 1]`. -/
def crossover (parent1 parent2 : Individual) (gen : mt19937) : Option (Individual × mt19937) := do
  let child : Individual := Individual.new
  let (method, gen) ← uniform_int_distribution 0 2 gen
  match method with
  | 0 => crossoverUniform parent1 parent2 child gen
  | 1 => do
    let (split, gen) ← uniform_int_distribution 0 ((child.pixels.length : Int) - 1) gen
    let child ← crossoverSinglePoint parent1 parent2 child (toSizeT split)
    pure (child, gen)
  | 2 => do
    let child ← crossoverAverage parent1 parent2 child
    pure (child, gen)
  | _ => pure (child, gen)

/-- Loop of `Individual::mutate` over the pixels: one probability draw for each pixel, and
`Pixel::mutate` where the draw is below the rate. -/
def mutateLoop (mutationRate : ℚ) (mutationStrength : Int) :
    List Pixel → mt19937 → Option (List Pixel × mt19937)
  | [], gen => some ([], gen)
  | pixel :: rest, gen =>
    if (uniform_real_distribution gen).1 < mutationRate then do
      let (pixel, gen) ← pixel.mutate (uniform_real_distribution gen).2 mutationStrength
      let (rest, gen) ← mutateLoop mutationRate mutationStrength rest gen
      pure (pixel :: rest, gen)
    else do
      let (rest, gen) ←
        mutateLoop mutationRate mutationStrength rest (uniform_real_distribution gen).2
      pure (pixel :: rest, gen)

/-- Source `Individual::mutate`. -/
def mutate (self : Individual) (gen : mt19937) (mutationRate : ℚ) (mutationStrength : Int) :
    Option (Individual × mt19937) := do
  let (pixels, gen) ← mutateLoop mutationRate mutationStrength self.pixels gen
  pure ({ self with pixels := pixels }, gen)

/-- Assignment `rgb[i] = v`; undefined outside the bounds. -/
def setByte (rgb : List (Fin 256)) (i : Nat) (v : Fin 256) : Option (List (Fin 256)) :=
  if i < rgb.length then some (rgb.set i v) else none

/-- Source `Individual::toRGBArray`: a vector of `32 * 32 * 3` zero bytes, filled with the three
channels of every pixel in turn. -/
def toRGBArray (self : Individual) : Option (List (Fin 256)) :=
  (List.range self.pixels.length).foldlM
    (fun (rgb : List (Fin 256)) (i : Nat) => do
      let p ← self.pixels[i]?
      let rgb ← setByte rgb (i * 3) p.r
      let rgb ← setByte rgb (i * 3 + 1) p.g
      setByte rgb (i * 3 + 2) p.b)
    (List.replicate (32 * 32 * 3) 0)

end Individual

/-! ## The sort of `<algorithm>` -/

/-- Insertion of `a` before the first element that `comp` puts after it. -/
def orderedInsert {α : Type} (comp : α → α → Bool) (a : α) : List α → List α
  | [] => [a]
  | b :: l => if comp a b then a :: b :: l else b :: orderedInsert comp a l

/-- Library function `std::sort(first, last, comp)`, as an insertion sort. The theorems below use
only that the result is a permutation of the input and is ordered by `comp`. -/
def sort {α : Type} (comp : α → α → Bool) (l : List α) : List α :=
  l.foldr (orderedInsert comp) []

/-! ## GeneticAlgorithm -/

/-- Private members of `class GeneticAlgorithm`. -/
structure GeneticAlgorithm where
  population : List Individual
  targetImage : List Pixel
  gen : mt19937
  populationSize : Int
  mutationRate : ℚ
  mutationStrength : Int
  crossoverRate : ℚ
  generation : Int
  targetName : String

/-- The two state-changing methods that `run` calls, for the record of its calls. -/
inductive Call where
  | evaluateFitness
  | createNewGeneration
deriving DecidableEq, Repr

namespace GeneticAlgorithm

/-- Loop of `initializePopulation`: every individual is randomized in turn. -/
def initializeLoop : List Individual → mt19937 → Option (List Individual × mt19937)
  | [], gen => some ([], gen)
  | individual :: rest, gen => do
    let (individual, gen) ← individual.randomize gen
    let (rest, gen) ← initializeLoop rest gen
    pure (individual :: rest, gen)

/-- Source `GeneticAlgorithm::initializePopulation`: `resize(populationSize)` converts the size to
`size_t` and fills with `Individual()`. A negative `populationSize` converts to a size above
`max_size()`, for which `resize` throws `std::length_error`: no engine is built (`none`). -/
def initializePopulation (s : GeneticAlgorithm) : Option GeneticAlgorithm :=
  if s.populationSize < 0 then none
  else do
    let population := List.replicate (toSizeT s.populationSize) Individual.new
    let (population, gen) ← initializeLoop population s.gen
    pure { s with population := population, gen := gen }

/-- The constructor of `GeneticAlgorithm`; `seed` stands for the generator after
`gen.seed(time(nullptr))`. -/
def new (popSize : Int) (mutRate : ℚ) (mutStrength : Int) (crossRate : ℚ) (seed : mt19937) :
    Option GeneticAlgorithm :=
  initializePopulation
    { population := [], targetImage := List.replicate (32 * 32) Pixel.new, gen := seed,
      populationSize := popSize, mutationRate := mutRate, mutationStrength := mutStrength,
      crossoverRate := crossRate, generation := 0, targetName := "" }

/-- Source `GeneticAlgorithm::evaluateFitness`: every individual is evaluated against the target,
then the population is sorted with the comparison `a.fitness > b.fitness`. -/
def evaluateFitness (s : GeneticAlgorithm) : Option GeneticAlgorithm := do
  let population ← s.population.mapM (fun individual => individual.calculateFitness s.targetImage)
  pure { s with population := sort (fun a b => decide (a.fitness > b.fitness)) population }

/-- Source `GeneticAlgorithm::selectParent`: tournament of size 3 over indices drawn from
`[0, populationSize - 1]`; a contender replaces the best only when strictly fitter. -/
def selectParent (s : GeneticAlgorithm) : Option (Individual × mt19937) := do
  let tournamentSize : Nat := 3
  let (first, gen) ← uniform_int_distribution 0 (s.populationSize - 1) s.gen
  let best ← s.population[toSizeT first]?
  (List.range' 1 (tournamentSize - 1)).foldlM
    (fun (st : Individual × mt19937) (_ : Nat) => do
      let (index, gen) ← uniform_int_distribution 0 (s.populationSize - 1) st.2
      let contender ← s.population[toSizeT index]?
      if contender.fitness > st.1.fitness then pure (contender, gen) else pure (st.1, gen))
    (best, gen)

/-- Body of the loop of `createNewGeneration`: one new member, by crossover of two selected
parents or as the copy of one selected parent, mutated in both cases. -/
def reproduce (s : GeneticAlgorithm) : Option (Individual × mt19937) :=
  if (uniform_real_distribution s.gen).1 < s.crossoverRate then do
    let (parent1, gen) ← selectParent { s with gen := (uniform_real_distribution s.gen).2 }
    let (parent2, gen) ← selectParent { s with gen := gen }
    let (child, gen) ← Individual.crossover parent1 parent2 gen
    child.mutate gen s.mutationRate s.mutationStrength
  else do
    let (parent, gen) ← selectParent { s with gen := (uniform_real_distribution s.gen).2 }
    let child := parent
    child.mutate gen s.mutationRate s.mutationStrength

/-- Loop `while (newPopulation.size() < populationSize)` of `createNewGeneration`; the comparison
is made in `size_t`. -/
def createLoop (s : GeneticAlgorithm) (newPopulation : List Individual) :
    Option (List Individual × mt19937) :=
  if newPopulation.length < toSizeT s.populationSize then
    match reproduce s with
    | none => none
    | some (child, gen) => createLoop { s with gen := gen } (newPopulation ++ [child])
  else some (newPopulation, s.gen)
termination_by toSizeT s.populationSize - newPopulation.length
decreasing_by
  simp only [List.length_append, List.length_singleton]
  omega

/-- Source `GeneticAlgorithm::createNewGeneration`: the best individual is kept, the rest is
reproduced, the population is replaced and the generation counter incremented. -/
def createNewGeneration (s : GeneticAlgorithm) : Option GeneticAlgorithm := do
  let elite ← s.population[0]?
  let (newPopulation, gen) ← createLoop s [elite]
  pure { s with population := newPopulation, gen := gen, generation := s.generation + 1 }

/-- Loop of `run`: while `generation < maxGenerations && population[0].fitness < targetFitness`,
one `createNewGeneration` and one `evaluateFitness`. The fuel bounds the iterations of the
embedding; the calls are recorded in order. -/
def runLoop (maxGenerations : Int) (targetFitness : ℚ) :
    Nat → GeneticAlgorithm → Option (GeneticAlgorithm × List Call)
  | fuel, s =>
    if s.generation < maxGenerations then
      match s.population[0]? with
      | none => none
      | some best =>
        if best.fitness < targetFitness then
          match fuel with
          | 0 => none
          | fuel + 1 => do
            let s ← createNewGeneration s
            let s ← evaluateFitness s
            let (s, calls) ← runLoop maxGenerations targetFitness fuel s
            pure (s, Call.createNewGeneration :: Call.evaluateFitness :: calls)
        else some (s, [])
    else some (s, [])

/-- Source `GeneticAlgorithm::run`: the first `evaluateFitness`, the read of `population[0]` for
the report of generation 0, then the loop. The fuel `maxGenerations - generation` covers every
iteration the loop can make. -/
def run (s : GeneticAlgorithm) (maxGenerations : Int) (targetFitness : ℚ) :
    Option (GeneticAlgorithm × List Call) := do
  let s ← evaluateFitness s
  let _ ← s.population[0]?
  let (s, calls) ← runLoop maxGenerations targetFitness (maxGenerations - s.generation).toNat s
  pure (s, Call.evaluateFitness :: calls)

end GeneticAlgorithm

/-! ## Closed forms used in the statements -/

/-- Sum of the pixel differences over the first `n` positions of `pixels` and `target`. -/
def sumDiff (pixels target : List Pixel) (n : Nat) : ℚ :=
  ∑ i ∈ Finset.range n,
    (((pixels.getD i Pixel.new).difference (target.getD i Pixel.new) : Int) : ℚ)

/-- Fitness that `calculateFitness` assigns to a pixel sequence, in closed form. -/
def fitnessOf (pixels target : List Pixel) : ℚ :=
  roundDouble (1 - roundDouble (sumDiff pixels target pixels.length / 783360))

/-- The calls of `n` iterations of the loop of `run`, in order. -/
def loopCalls : Nat → List Call
  | 0 => []
  | n + 1 => Call.createNewGeneration :: Call.evaluateFitness :: loopCalls n

/-! ## The class invariant and sample values -/

/-- Class invariant of `GeneticAlgorithm`, established by the constructor: the population has
`populationSize` members, `populationSize` is a value of type `int`, and every individual and
the target have `32 * 32` pixels. -/
def GeneticAlgorithm.wf (s : GeneticAlgorithm) : Prop :=
  (s.population.length : Int) = s.populationSize ∧ s.populationSize ≤ 2147483647
    ∧ (∀ c ∈ s.population, c.pixels.length = 1024) ∧ s.targetImage.length = 1024

/-- Precondition under which one generation step is defined: the class invariant, at least one
member, and a mutation strength that `Pixel::mutate` accepts whenever mutation can happen. -/
def GeneticAlgorithm.ready (s : GeneticAlgorithm) : Prop :=
  s.wf ∧ 1 ≤ s.populationSize ∧ (s.mutationRate ≤ 0 ∨ 0 ≤ s.mutationStrength)

/-- State right after `evaluateFitness`: every fitness is the fitness of the member's own pixels
against the target, and the population is in descending order of fitness. -/
def GeneticAlgorithm.evaluated (s : GeneticAlgorithm) : Prop :=
  (∀ c ∈ s.population, c.fitness = fitnessOf c.pixels s.targetImage)
    ∧ s.population.Pairwise (fun a b => a.fitness ≥ b.fitness)

/-- An all-black image of `32 * 32` pixels. -/
def blackImage : List Pixel := List.replicate (32 * 32) Pixel.new

/-- An all-white image of `32 * 32` pixels. -/
def whiteImage : List Pixel := List.replicate (32 * 32) ⟨255, 255, 255⟩

/-- The all-black image with the red channel of its first pixel set to 1. -/
def oneOffImage : List Pixel := ⟨1, 0, 0⟩ :: List.replicate 1023 Pixel.new

/-- A generator whose raw draws are `0, 1, 2, ...`. -/
def countingGen : mt19937 := ⟨fun n => n, 0⟩

/-- An engine of two individuals (white, black) with the black image as target and the
parameters of `main` other than the population size. -/
def sampleEngine : GeneticAlgorithm :=
  { population := [⟨whiteImage, 0⟩, ⟨blackImage, 0⟩], targetImage := blackImage,
    gen := countingGen, populationSize := 2, mutationRate := 3 / 100, mutationStrength := 25,
    crossoverRate := 6 / 10, generation := 0, targetName := "" }

/-- An engine of ten grey individuals of increasing brightness, with the all-black target and
both rates zero. -/
def scenarioEngine : GeneticAlgorithm :=
  { population := (List.range 10).map fun k =>
      (⟨List.replicate (32 * 32) ⟨toUChar k, toUChar k, toUChar k⟩, 0⟩ : Individual),
    targetImage := blackImage, gen := countingGen, populationSize := 10, mutationRate := 0,
    mutationStrength := 25, crossoverRate := 0, generation := 0, targetName := "" }

/-! ## Rounding to the nearest double -/

theorem roundEven_floor_le (m : ℚ) : ⌊m⌋ ≤ roundEven m := by
  unfold roundEven
  split
  · exact le_refl _
  · split
    · omega
    · split <;> omega

theorem roundEven_le_floor_succ (m : ℚ) : roundEven m ≤ ⌊m⌋ + 1 := by
  unfold roundEven
  split
  · omega
  · split
    · exact le_refl _
    · split <;> omega

theorem roundEven_error (m : ℚ) : |(roundEven m : ℚ) - m| ≤ 1 / 2 := by
  have h1 := Int.floor_le m
  have h2 := Int.lt_floor_add_one m
  unfold roundEven
  rw [abs_le]
  split
  · constructor <;> linarith
  · split
    · push_cast
      constructor <;> linarith
    · rename_i h3 h4
      split
      · constructor <;> linarith
      · push_cast
        constructor <;> linarith

theorem roundEven_eq (m : ℚ) (k : ℤ) (h : |m - k| < 1 / 2) : roundEven m = k := by
  rw [abs_lt] at h
  by_cases hk : (k : ℚ) ≤ m
  · have hf : ⌊m⌋ = k := Int.floor_eq_iff.mpr ⟨hk, by linarith⟩
    unfold roundEven
    rw [hf, if_pos (by linarith)]
  · have hf : ⌊m⌋ = k - 1 := Int.floor_eq_iff.mpr ⟨by push_cast; linarith, by push_cast; linarith⟩
    unfold roundEven
    rw [hf, if_neg (by push_cast; linarith), if_pos (by push_cast; linarith)]
    omega

theorem two_zpow_pos (e : ℤ) : (0 : ℚ) < 2 ^ e := zpow_pos (by norm_num) e

theorem zpow_log_le (q : ℚ) (hq : 0 < q) : (2 : ℚ) ^ Int.log 2 q ≤ q := by
  have := Int.zpow_log_le_self (b := 2) (by norm_num) hq
  simpa using this

theorem lt_zpow_log_succ (q : ℚ) : q < (2 : ℚ) ^ (Int.log 2 q + 1) := by
  have := Int.lt_zpow_succ_log_self (b := 2) (by norm_num) q
  simpa using this

theorem log_eq_of_bounds (q : ℚ) (e : ℤ) (h1 : (2 : ℚ) ^ e ≤ q) (h2 : q < (2 : ℚ) ^ (e + 1)) :
    Int.log 2 q = e := by
  have hq : 0 < q := lt_of_lt_of_le (two_zpow_pos e) h1
  apply le_antisymm
  · have : Int.log 2 q < e + 1 := by
      rw [← Int.lt_zpow_iff_log_lt (by norm_num) hq]
      simpa using h2
    omega
  · rw [← Int.zpow_le_iff_le_log (by norm_num) hq]
    simpa using h1

theorem mantissa_bounds (q : ℚ) (hq : 0 < q) :
    (2 : ℚ) ^ (52 : ℤ) ≤ q / 2 ^ (Int.log 2 q - 52)
      ∧ q / 2 ^ (Int.log 2 q - 52) < (2 : ℚ) ^ (53 : ℤ) := by
  have hu := two_zpow_pos (Int.log 2 q - 52)
  have h1 := zpow_log_le q hq
  have h2 := lt_zpow_log_succ q
  constructor
  · rw [le_div_iff₀ hu, ← zpow_add₀ (by norm_num)]
    have : (52 : ℤ) + (Int.log 2 q - 52) = Int.log 2 q := by ring
    rw [this]
    exact h1
  · rw [div_lt_iff₀ hu, ← zpow_add₀ (by norm_num)]
    have : (53 : ℤ) + (Int.log 2 q - 52) = Int.log 2 q + 1 := by ring
    rw [this]
    exact h2

theorem roundPos_ge (q : ℚ) (hq : 0 < q) : (2 : ℚ) ^ Int.log 2 q ≤ roundPos q := by
  have hu := two_zpow_pos (Int.log 2 q - 52)
  have hm := (mantissa_bounds q hq).1
  have hf : (4503599627370496 : ℤ) ≤ ⌊q / 2 ^ (Int.log 2 q - 52)⌋ := by
    rw [Int.le_floor]
    norm_num at hm ⊢
    exact hm
  have hk : (4503599627370496 : ℤ) ≤ roundEven (q / 2 ^ (Int.log 2 q - 52)) :=
    le_trans hf (roundEven_floor_le _)
  have hk' : (2 : ℚ) ^ (52 : ℤ) ≤ (roundEven (q / 2 ^ (Int.log 2 q - 52)) : ℚ) := by
    have : ((4503599627370496 : ℤ) : ℚ) ≤ (roundEven (q / 2 ^ (Int.log 2 q - 52)) : ℚ) :=
      Int.cast_le.mpr hk
    norm_num at this ⊢
    exact this
  have e : (2 : ℚ) ^ Int.log 2 q = 2 ^ (52 : ℤ) * 2 ^ (Int.log 2 q - 52) := by
    rw [← zpow_add₀ (by norm_num)]
    congr 1
    ring
  unfold roundPos
  rw [e]
  exact mul_le_mul_of_nonneg_right hk' (le_of_lt hu)

theorem roundPos_le (q : ℚ) (hq : 0 < q) : roundPos q ≤ (2 : ℚ) ^ (Int.log 2 q + 1) := by
  have hu := two_zpow_pos (Int.log 2 q - 52)
  have hm := (mantissa_bounds q hq).2
  have hf : ⌊q / 2 ^ (Int.log 2 q - 52)⌋ < (9007199254740992 : ℤ) := by
    rw [Int.floor_lt]
    norm_num at hm ⊢
    exact hm
  have hk : roundEven (q / 2 ^ (Int.log 2 q - 52)) ≤ (9007199254740992 : ℤ) := by
    have := roundEven_le_floor_succ (q / 2 ^ (Int.log 2 q - 52))
    omega
  have hk' : (roundEven (q / 2 ^ (Int.log 2 q - 52)) : ℚ) ≤ (2 : ℚ) ^ (53 : ℤ) := by
    have : (roundEven (q / 2 ^ (Int.log 2 q - 52)) : ℚ) ≤ ((9007199254740992 : ℤ) : ℚ) :=
      Int.cast_le.mpr hk
    norm_num at this ⊢
    exact this
  have e : (2 : ℚ) ^ (Int.log 2 q + 1) = 2 ^ (53 : ℤ) * 2 ^ (Int.log 2 q - 52) := by
    rw [← zpow_add₀ (by norm_num)]
    congr 1
    ring
  unfold roundPos
  rw [e]
  exact mul_le_mul_of_nonneg_right hk' (le_of_lt hu)

theorem roundPos_error (q : ℚ) : |roundPos q - q| ≤ (2 : ℚ) ^ (Int.log 2 q - 52) / 2 := by
  have hu := two_zpow_pos (Int.log 2 q - 52)
  have hk := roundEven_error (q / 2 ^ (Int.log 2 q - 52))
  have e : roundPos q - q
      = ((roundEven (q / 2 ^ (Int.log 2 q - 52)) : ℚ) - q / 2 ^ (Int.log 2 q - 52))
        * 2 ^ (Int.log 2 q - 52) := by
    unfold roundPos
    field_simp
  rw [e, abs_mul, abs_of_pos hu]
  calc |(roundEven (q / 2 ^ (Int.log 2 q - 52)) : ℚ) - q / 2 ^ (Int.log 2 q - 52)|
        * 2 ^ (Int.log 2 q - 52)
      ≤ 1 / 2 * 2 ^ (Int.log 2 q - 52) := mul_le_mul_of_nonneg_right hk (le_of_lt hu)
    _ = (2 : ℚ) ^ (Int.log 2 q - 52) / 2 := by ring

theorem roundPos_eq (q : ℚ) (e k : ℤ) (h1 : (2 : ℚ) ^ e ≤ q) (h2 : q < (2 : ℚ) ^ (e + 1))
    (hk : |q / 2 ^ (e - 52) - k| < 1 / 2) : roundPos q = k * 2 ^ (e - 52) := by
  unfold roundPos
  rw [log_eq_of_bounds q e h1 h2, roundEven_eq _ k hk]

theorem roundDouble_zero : roundDouble 0 = 0 := by
  unfold roundDouble
  rw [if_neg (lt_irrefl _), if_neg (lt_irrefl _)]

theorem roundDouble_of_pos (q : ℚ) (hq : 0 < q) : roundDouble q = roundPos q := by
  unfold roundDouble
  rw [if_pos hq]

theorem roundPos_pos (q : ℚ) (hq : 0 < q) : 0 < roundPos q :=
  lt_of_lt_of_le (two_zpow_pos _) (roundPos_ge q hq)

theorem roundDouble_nonneg (q : ℚ) (hq : 0 ≤ q) : 0 ≤ roundDouble q := by
  rcases eq_or_lt_of_le hq with h | h
  · rw [← h, roundDouble_zero]
  · rw [roundDouble_of_pos q h]
    exact le_of_lt (roundPos_pos q h)

theorem roundDouble_nonpos (q : ℚ) (hq : q ≤ 0) : roundDouble q ≤ 0 := by
  rcases eq_or_lt_of_le hq with h | h
  · rw [h, roundDouble_zero]
  · unfold roundDouble
    rw [if_neg (not_lt.mpr hq), if_pos h]
    have := roundPos_pos (-q) (by linarith)
    linarith

theorem roundDouble_eq (q : ℚ) (e k : ℤ) (h1 : (2 : ℚ) ^ e ≤ q) (h2 : q < (2 : ℚ) ^ (e + 1))
    (hk : |q / 2 ^ (e - 52) - k| < 1 / 2) : roundDouble q = k * 2 ^ (e - 52) := by
  rw [roundDouble_of_pos q (lt_of_lt_of_le (two_zpow_pos e) h1), roundPos_eq q e k h1 h2 hk]

theorem roundDouble_one : roundDouble 1 = 1 := by
  rw [roundDouble_eq 1 0 4503599627370496 (by norm_num) (by norm_num) (by norm_num)]
  norm_num

theorem roundDouble_ge_zpow (q : ℚ) (a : ℤ) (h : (2 : ℚ) ^ a ≤ q) : (2 : ℚ) ^ a ≤ roundDouble q := by
  have hq : 0 < q := lt_of_lt_of_le (two_zpow_pos a) h
  have ha : a ≤ Int.log 2 q := by
    rw [← Int.zpow_le_iff_le_log (by norm_num) hq]
    simpa using h
  rw [roundDouble_of_pos q hq]
  exact le_trans (zpow_le_zpow_right₀ (by norm_num) ha) (roundPos_ge q hq)

theorem log_neg_of_lt_one (q : ℚ) (hq : 0 < q) (h : q < 1) : Int.log 2 q ≤ -1 := by
  have : Int.log 2 q < 0 := by
    rw [← Int.lt_zpow_iff_log_lt (by norm_num) hq]
    simpa using h
  omega

theorem roundDouble_le_one (q : ℚ) (h : q ≤ 1) : roundDouble q ≤ 1 := by
  rcases le_or_lt q 0 with h0 | h0
  · exact le_trans (roundDouble_nonpos q h0) zero_le_one
  · rcases eq_or_lt_of_le h with h1 | h1
    · rw [h1, roundDouble_one]
    · rw [roundDouble_of_pos q h0]
      have hl := log_neg_of_lt_one q h0 h1
      calc roundPos q ≤ (2 : ℚ) ^ (Int.log 2 q + 1) := roundPos_le q h0
        _ ≤ (2 : ℚ) ^ (0 : ℤ) := zpow_le_zpow_right₀ (by norm_num) (by omega)
        _ = 1 := by norm_num

theorem roundDouble_error (q : ℚ) (h0 : 0 ≤ q) (h1 : q ≤ 1) :
    |roundDouble q - q| ≤ 1 / 18014398509481984 := by
  rcases eq_or_lt_of_le h0 with h | h
  · rw [← h, roundDouble_zero]
    norm_num
  · rcases eq_or_lt_of_le h1 with h' | h'
    · rw [h', roundDouble_one]
      norm_num
    · rw [roundDouble_of_pos q h]
      have hl := log_neg_of_lt_one q h h'
      calc |roundPos q - q| ≤ (2 : ℚ) ^ (Int.log 2 q - 52) / 2 := roundPos_error q
        _ ≤ (2 : ℚ) ^ (-53 : ℤ) / 2 := by
            apply div_le_div_of_nonneg_right _ (by norm_num)
            exact zpow_le_zpow_right₀ (by norm_num) (by omega)
        _ = 1 / 18014398509481984 := by norm_num

theorem roundDouble_lt_one (q : ℚ) (h : q ≤ 1 - 1 / 1048576) : roundDouble q < 1 := by
  rcases le_or_lt q 0 with h0 | h0
  · exact lt_of_le_of_lt (roundDouble_nonpos q h0) zero_lt_one
  · have herr := roundDouble_error q (le_of_lt h0) (by linarith)
    rw [abs_le] at herr
    have : roundDouble q ≤ q + 1 / 18014398509481984 := by linarith
    linarith

/-! ## Pixel differences and the fitness formula -/

theorem Pixel.difference_nonneg (a b : Pixel) : 0 ≤ a.difference b := by
  unfold Pixel.difference
  positivity

theorem Pixel.difference_le (a b : Pixel) : a.difference b ≤ 765 := by
  unfold Pixel.difference
  have h1 := a.r.isLt
  have h2 := a.g.isLt
  have h3 := a.b.isLt
  have h4 := b.r.isLt
  have h5 := b.g.isLt
  have h6 := b.b.isLt
  simp only [abs_le, abs]
  omega

theorem Pixel.difference_eq_zero_iff (a b : Pixel) : a.difference b = 0 ↔ a = b := by
  constructor
  · intro h
    unfold Pixel.difference at h
    have h1 := abs_nonneg (((a.r : Nat) : Int) - ((b.r : Nat) : Int))
    have h2 := abs_nonneg (((a.g : Nat) : Int) - ((b.g : Nat) : Int))
    have h3 := abs_nonneg (((a.b : Nat) : Int) - ((b.b : Nat) : Int))
    have e1 : |((a.r : Nat) : Int) - ((b.r : Nat) : Int)| = 0 := by omega
    have e2 : |((a.g : Nat) : Int) - ((b.g : Nat) : Int)| = 0 := by omega
    have e3 : |((a.b : Nat) : Int) - ((b.b : Nat) : Int)| = 0 := by omega
    rw [abs_eq_zero, sub_eq_zero] at e1 e2 e3
    cases a
    cases b
    simp only [Pixel.mk.injEq]
    exact ⟨Fin.ext (by exact_mod_cast e1), Fin.ext (by exact_mod_cast e2),
      Fin.ext (by exact_mod_cast e3)⟩
  · rintro rfl
    simp [Pixel.difference]

theorem foldlM_totalDiff (pixels target : List Pixel) (n : Nat) (hp : n ≤ pixels.length)
    (ht : n ≤ target.length) (acc : ℚ) :
    (List.range n).foldlM
      (fun (totalDiff : ℚ) (i : Nat) =>
        (pixels[i]?).bind fun p => (target[i]?).bind fun t =>
          some (totalDiff + ((p.difference t : Int) : ℚ))) acc
      = some (acc + sumDiff pixels target n) := by
  induction n with
  | zero => simp [sumDiff]
  | succ n ih =>
    have hp1 : n < pixels.length := hp
    have ht1 : n < target.length := ht
    rw [List.range_succ, List.foldlM_append, ih (by omega) (by omega)]
    simp only [sumDiff, Finset.sum_range_succ, List.foldlM, Option.bind_eq_bind, Option.some_bind,
      List.getElem?_eq_getElem hp1, List.getElem?_eq_getElem ht1, List.getD_eq_getElem _ _ hp1,
      List.getD_eq_getElem _ _ ht1, Option.pure_def]
    congr 1
    ring

theorem calculateFitness_eq (c : Individual) (target : List Pixel)
    (h : c.pixels.length ≤ target.length) :
    c.calculateFitness target
      = some ⟨c.pixels,
          roundDouble (1 - roundDouble (sumDiff c.pixels target c.pixels.length / 783360))⟩ := by
  unfold Individual.calculateFitness
  have := foldlM_totalDiff c.pixels target c.pixels.length le_rfl h 0
  simp only [Option.bind_eq_bind, Option.pure_def, zero_add] at this ⊢
  rw [this]
  simp only [Option.some_bind, Option.some.injEq]
  norm_num

theorem sumDiff_nonneg (pixels target : List Pixel) (n : Nat) : 0 ≤ sumDiff pixels target n := by
  unfold sumDiff
  apply Finset.sum_nonneg
  intro i _
  exact_mod_cast Pixel.difference_nonneg _ _

theorem sumDiff_le (pixels target : List Pixel) (n : Nat) :
    sumDiff pixels target n ≤ 765 * n := by
  unfold sumDiff
  have h : ∀ i ∈ Finset.range n,
      (((pixels.getD i Pixel.new).difference (target.getD i Pixel.new) : Int) : ℚ) ≤ 765 := by
    intro i _
    exact_mod_cast Pixel.difference_le _ _
  have := Finset.sum_le_sum h
  simpa [mul_comm] using this

theorem sumDiff_eq_zero_iff (pixels target : List Pixel) (n : Nat) :
    sumDiff pixels target n = 0 ↔
      ∀ i, i < n → pixels.getD i Pixel.new = target.getD i Pixel.new := by
  unfold sumDiff
  rw [Finset.sum_eq_zero_iff_of_nonneg]
  · constructor
    · intro h i hi
      have := h i (Finset.mem_range.mpr hi)
      exact (Pixel.difference_eq_zero_iff _ _).mp (by exact_mod_cast this)
    · intro h i hi
      have := (Pixel.difference_eq_zero_iff _ _).mpr (h i (Finset.mem_range.mp hi))
      exact_mod_cast this
  · intro i _
    exact_mod_cast Pixel.difference_nonneg _ _

theorem getD_ext (l₁ l₂ : List Pixel) (h : l₁.length = l₂.length)
    (hi : ∀ i, i < l₁.length → l₁.getD i Pixel.new = l₂.getD i Pixel.new) : l₁ = l₂ := by
  apply List.ext_getElem h
  intro n h₁ h₂
  have := hi n h₁
  rwa [List.getD_eq_getElem _ _ h₁, List.getD_eq_getElem _ _ h₂] at this

theorem sumDiff_eq_zero_or_one_le (pixels target : List Pixel) (n : Nat) :
    sumDiff pixels target n = 0 ∨ 1 ≤ sumDiff pixels target n := by
  have hint : sumDiff pixels target n
      = ((∑ i ∈ Finset.range n,
          (pixels.getD i Pixel.new).difference (target.getD i Pixel.new) : Int) : ℚ) := by
    unfold sumDiff
    push_cast
    rfl
  have h0 := sumDiff_nonneg pixels target n
  rw [hint] at h0 ⊢
  have h0' : (0 : Int) ≤ ∑ i ∈ Finset.range n,
      (pixels.getD i Pixel.new).difference (target.getD i Pixel.new) := by exact_mod_cast h0
  rcases eq_or_lt_of_le h0' with h | h
  · left
    rw [← h]
    norm_num
  · right
    have : (1 : Int) ≤ ∑ i ∈ Finset.range n,
        (pixels.getD i Pixel.new).difference (target.getD i Pixel.new) := by omega
    exact_mod_cast this

theorem fitnessOf_le_one (pixels target : List Pixel) : fitnessOf pixels target ≤ 1 := by
  unfold fitnessOf
  apply roundDouble_le_one
  have h0 := sumDiff_nonneg pixels target pixels.length
  have : 0 ≤ roundDouble (sumDiff pixels target pixels.length / 783360) :=
    roundDouble_nonneg _ (by positivity)
  linarith

theorem fitnessOf_nonneg (pixels target : List Pixel) (h : pixels.length = 1024) :
    0 ≤ fitnessOf pixels target := by
  unfold fitnessOf
  apply roundDouble_nonneg
  have h1 := sumDiff_le pixels target pixels.length
  rw [h] at h1 ⊢
  have : sumDiff pixels target 1024 / 783360 ≤ 1 := by
    rw [div_le_one (by norm_num)]
    norm_num at h1
    linarith
  have := roundDouble_le_one _ this
  linarith

theorem fitnessOf_of_sumDiff_zero (pixels target : List Pixel)
    (h : sumDiff pixels target pixels.length = 0) : fitnessOf pixels target = 1 := by
  unfold fitnessOf
  rw [h, zero_div, roundDouble_zero, sub_zero, roundDouble_one]

theorem fitnessOf_lt_one (pixels target : List Pixel)
    (h : 1 ≤ sumDiff pixels target pixels.length) : fitnessOf pixels target < 1 := by
  unfold fitnessOf
  apply roundDouble_lt_one
  have hx : (2 : ℚ) ^ (-20 : ℤ) ≤ sumDiff pixels target pixels.length / 783360 := by
    rw [le_div_iff₀ (by norm_num)]
    norm_num
    linarith
  have hy := roundDouble_ge_zpow _ _ hx
  norm_num at hy ⊢
  linarith

theorem fitnessOf_eq_one_iff (pixels target : List Pixel) (h : pixels.length = target.length) :
    fitnessOf pixels target = 1 ↔ pixels = target := by
  constructor
  · intro h1
    rcases sumDiff_eq_zero_or_one_le pixels target pixels.length with h2 | h2
    · exact getD_ext _ _ h ((sumDiff_eq_zero_iff _ _ _).mp h2)
    · exact absurd h1 (ne_of_lt (fitnessOf_lt_one pixels target h2))
  · rintro rfl
    exact fitnessOf_of_sumDiff_zero _ _ ((sumDiff_eq_zero_iff _ _ _).mpr (fun _ _ => rfl))

theorem calculateFitness_fitnessOf (c : Individual) (target : List Pixel)
    (h : c.pixels.length ≤ target.length) :
    c.calculateFitness target = some ⟨c.pixels, fitnessOf c.pixels target⟩ :=
  calculateFitness_eq c target h

/-! ## The sort -/

theorem orderedInsert_perm {α : Type} (comp : α → α → Bool) (a : α) (l : List α) :
    (orderedInsert comp a l).Perm (a :: l) := by
  induction l with
  | nil => exact List.Perm.refl _
  | cons b l ih =>
    unfold orderedInsert
    split
    · exact List.Perm.refl _
    · exact (List.Perm.cons b ih).trans (List.Perm.swap a b l)

theorem sort_perm {α : Type} (comp : α → α → Bool) (l : List α) : (sort comp l).Perm l := by
  induction l with
  | nil => exact List.Perm.refl _
  | cons a l ih =>
    show (orderedInsert comp a (sort comp l)).Perm (a :: l)
    exact (orderedInsert_perm comp a _).trans (List.Perm.cons a ih)

theorem orderedInsert_pairwise {α : Type} (comp : α → α → Bool)
    (hasymm : ∀ a b, comp a b = true → comp b a = false)
    (htrans : ∀ a b c, comp a b = true → comp b c = true → comp a c = true)
    (a : α) (l : List α) (hl : l.Pairwise (fun x y => comp y x = false)) :
    (orderedInsert comp a l).Pairwise (fun x y => comp y x = false) := by
  induction l with
  | nil => simp [orderedInsert]
  | cons b l ih =>
    rw [List.pairwise_cons] at hl
    unfold orderedInsert
    split
    · rename_i hab
      rw [List.pairwise_cons]
      refine ⟨?_, List.pairwise_cons.mpr hl⟩
      intro x hx
      rcases List.mem_cons.mp hx with rfl | hx
      · exact hasymm _ _ hab
      · have hbx := hl.1 x hx
        by_contra hxa
        have hxa : comp x a = true := by simpa using hxa
        rw [htrans x a b hxa hab] at hbx
        exact Bool.noConfusion hbx
    · rename_i hab
      rw [List.pairwise_cons]
      refine ⟨?_, ih hl.2⟩
      intro x hx
      rcases List.mem_cons.mp ((orderedInsert_perm comp a l).subset hx) with rfl | hx
      · simpa using hab
      · exact hl.1 x hx

theorem sort_pairwise {α : Type} (comp : α → α → Bool)
    (hasymm : ∀ a b, comp a b = true → comp b a = false)
    (htrans : ∀ a b c, comp a b = true → comp b c = true → comp a c = true)
    (l : List α) : (sort comp l).Pairwise (fun x y => comp y x = false) := by
  induction l with
  | nil => exact List.Pairwise.nil
  | cons a l ih => exact orderedInsert_pairwise comp hasymm htrans a _ ih

theorem sort_fitness_descending (l : List Individual) :
    (sort (fun a b => decide (a.fitness > b.fitness)) l).Pairwise
      (fun a b => a.fitness ≥ b.fitness) := by
  have h := sort_pairwise (fun (a b : Individual) => decide (a.fitness > b.fitness))
    (fun a b hab => by
      simp only [gt_iff_lt, decide_eq_true_eq, decide_eq_false_iff_not, not_lt] at hab ⊢
      exact le_of_lt hab)
    (fun a b c hab hbc => by
      simp only [gt_iff_lt, decide_eq_true_eq] at hab hbc ⊢
      exact lt_trans hbc hab) l
  refine h.imp ?_
  intro a b hab
  simpa using hab

/-! ## Evaluation of a population -/

theorem mapM_calculateFitness (target : List Pixel) (l : List Individual)
    (h : ∀ c ∈ l, c.pixels.length ≤ target.length) :
    l.mapM (fun individual => individual.calculateFitness target)
      = some (l.map fun c => ⟨c.pixels, fitnessOf c.pixels target⟩) := by
  induction l with
  | nil => rfl
  | cons c l ih =>
    rw [List.mapM_cons, calculateFitness_fitnessOf c target (h c (List.mem_cons_self _ _)),
      ih (fun d hd => h d (List.mem_cons_of_mem _ hd))]
    rfl

theorem evaluateFitness_eq (s : GeneticAlgorithm)
    (h : ∀ c ∈ s.population, c.pixels.length ≤ s.targetImage.length) :
    s.evaluateFitness = some { s with
      population := sort (fun a b => decide (a.fitness > b.fitness))
        (s.population.map fun c => ⟨c.pixels, fitnessOf c.pixels s.targetImage⟩) } := by
  unfold GeneticAlgorithm.evaluateFitness
  rw [mapM_calculateFitness s.targetImage s.population h]
  rfl

theorem blackImage_length : blackImage.length = 1024 := List.length_replicate _ _

theorem whiteImage_length : whiteImage.length = 1024 := List.length_replicate _ _

/-! ## The random source -/

theorem uniform_int_distribution_some (a b : Int) (gen : mt19937) (h : a ≤ b) :
    ∃ v gen', uniform_int_distribution a b gen = some (v, gen') ∧ a ≤ v ∧ v ≤ b := by
  refine ⟨_, _, if_pos h, ?_, ?_⟩
  · omega
  · have hpos : 0 < (b - a + 1).toNat := by omega
    have := Nat.mod_lt gen.next.1 hpos
    omega

theorem uniform_real_distribution_nonneg (gen : mt19937) :
    0 ≤ (uniform_real_distribution gen).1 := by
  unfold uniform_real_distribution
  positivity

theorem uniform_real_distribution_lt_one (gen : mt19937) :
    (uniform_real_distribution gen).1 < 1 := by
  unfold uniform_real_distribution
  rw [div_lt_one (by norm_num)]
  have := Nat.mod_lt gen.next.1 (show 0 < 9007199254740992 by norm_num)
  exact_mod_cast this

theorem toSizeT_of_bounds (x : Int) (h0 : 0 ≤ x) (h1 : x ≤ 2147483647) :
    ((toSizeT x : Nat) : Int) = x := by
  unfold toSizeT
  omega

/-! ## Mutation -/

theorem pixel_mutate_some (p : Pixel) (gen : mt19937) (strength : Int) (h : 0 ≤ strength) :
    ∃ q gen', p.mutate gen strength = some (q, gen') := by
  obtain ⟨v, g1, h1, _, _⟩ := uniform_int_distribution_some 0 2 gen (by omega)
  obtain ⟨w, g2, h2, _, _⟩ := uniform_int_distribution_some (-strength) strength g1 (by omega)
  unfold Pixel.mutate
  rw [if_pos (by omega)]
  simp only [h1, h2, Option.bind_eq_bind, Option.some_bind, Option.pure_def]
  split <;> exact ⟨_, _, rfl⟩

theorem mutateLoop_some (rate : ℚ) (strength : Int) (h : rate ≤ 0 ∨ 0 ≤ strength)
    (pixels : List Pixel) (gen : mt19937) :
    ∃ pixels' gen', Individual.mutateLoop rate strength pixels gen = some (pixels', gen')
      ∧ pixels'.length = pixels.length ∧ (rate ≤ 0 → pixels' = pixels) := by
  induction pixels generalizing gen with
  | nil => exact ⟨[], gen, rfl, rfl, fun _ => rfl⟩
  | cons p rest ih =>
    unfold Individual.mutateLoop
    split
    · rename_i hlt
      have hs : 0 ≤ strength := by
        rcases h with h | h
        · exact absurd (lt_of_lt_of_le hlt h) (not_lt.mpr (uniform_real_distribution_nonneg gen))
        · exact h
      obtain ⟨q, g1, hq⟩ := pixel_mutate_some p (uniform_real_distribution gen).2 strength hs
      obtain ⟨rest', g2, hr, hlen, _⟩ := ih g1
      refine ⟨q :: rest', g2, ?_, ?_, ?_⟩
      · simp only [hq, hr, Option.bind_eq_bind, Option.some_bind, Option.pure_def]
      · simp [hlen]
      · intro h0
        exact absurd (lt_of_lt_of_le hlt h0) (not_lt.mpr (uniform_real_distribution_nonneg gen))
    · obtain ⟨rest', g2, hr, hlen, heq⟩ := ih (uniform_real_distribution gen).2
      refine ⟨p :: rest', g2, ?_, ?_, ?_⟩
      · simp only [hr, Option.bind_eq_bind, Option.some_bind, Option.pure_def]
      · simp [hlen]
      · intro h0
        rw [heq h0]

theorem individual_mutate_some (c : Individual) (gen : mt19937) (rate : ℚ) (strength : Int)
    (h : rate ≤ 0 ∨ 0 ≤ strength) :
    ∃ c' gen', c.mutate gen rate strength = some (c', gen')
      ∧ c'.pixels.length = c.pixels.length ∧ c'.fitness = c.fitness
      ∧ (rate ≤ 0 → c' = c) := by
  obtain ⟨pixels', g, hp, hlen, heq⟩ := mutateLoop_some rate strength h c.pixels gen
  refine ⟨{ c with pixels := pixels' }, g, ?_, hlen, rfl, ?_⟩
  · unfold Individual.mutate
    simp only [hp, Option.bind_eq_bind, Option.some_bind, Option.pure_def]
  · intro h0
    rw [heq h0]

/-! ## Crossover -/

theorem foldlM_invariant {σ : Type} (f : σ → Nat → Option σ) (P : σ → Prop) (Q : Nat → Prop)
    (hf : ∀ st i, P st → Q i → ∃ st', f st i = some st' ∧ P st')
    (l : List Nat) (hl : ∀ i ∈ l, Q i) (st : σ) (h : P st) :
    ∃ st', l.foldlM f st = some st' ∧ P st' := by
  induction l generalizing st with
  | nil => exact ⟨st, rfl, h⟩
  | cons i l ih =>
    obtain ⟨st1, h1, hP1⟩ := hf st i h (hl i (List.mem_cons_self _ _))
    obtain ⟨st2, h2, hP2⟩ := ih (fun j hj => hl j (List.mem_cons_of_mem _ hj)) st1 hP1
    refine ⟨st2, ?_, hP2⟩
    rw [List.foldlM_cons, h1]
    exact h2

theorem Individual.new_length : Individual.new.pixels.length = 1024 :=
  List.length_replicate _ _

theorem setPixel_some (child : Individual) (i : Nat) (p : Pixel) (h : i < child.pixels.length) :
    ∃ child', child.setPixel i p = some child'
      ∧ child'.pixels.length = child.pixels.length ∧ child'.fitness = child.fitness := by
  refine ⟨_, if_pos h, ?_, rfl⟩
  simp

theorem getElem?_some_of_lt {α : Type} (l : List α) (i : Nat) (h : i < l.length) :
    ∃ a, l[i]? = some a :=
  ⟨l[i], List.getElem?_eq_getElem h⟩

theorem crossoverUniform_some (parent1 parent2 child : Individual) (gen : mt19937)
    (h1 : 1024 ≤ parent1.pixels.length) (h2 : 1024 ≤ parent2.pixels.length)
    (hc : child.pixels.length = 1024) :
    ∃ child' gen', Individual.crossoverUniform parent1 parent2 child gen = some (child', gen')
      ∧ child'.pixels.length = 1024 ∧ child'.fitness = child.fitness := by
  unfold Individual.crossoverUniform
  obtain ⟨st, hst, hP⟩ := foldlM_invariant
    (fun (st : Individual × mt19937) (i : Nat) => do
      let (choice, gen) ← uniform_int_distribution 0 1 st.2
      if choice = 0 then
        let p ← parent1.pixels[i]?
        let child ← st.1.setPixel i p
        pure (child, gen)
      else
        let p ← parent2.pixels[i]?
        let child ← st.1.setPixel i p
        pure (child, gen))
    (fun st => st.1.pixels.length = 1024 ∧ st.1.fitness = child.fitness) (fun i => i < 1024)
    (by
      intro st i hst hi
      obtain ⟨v, g, hv, _, _⟩ := uniform_int_distribution_some 0 1 st.2 (by omega)
      obtain ⟨a1, ha1⟩ := getElem?_some_of_lt parent1.pixels i (by omega)
      obtain ⟨a2, ha2⟩ := getElem?_some_of_lt parent2.pixels i (by omega)
      obtain ⟨c1, hc1, hl1, hf1⟩ := setPixel_some st.1 i a1 (by omega)
      obtain ⟨c2, hc2, hl2, hf2⟩ := setPixel_some st.1 i a2 (by omega)
      simp only [hv, Option.bind_eq_bind, Option.some_bind, Option.pure_def]
      split
      · exact ⟨(c1, g), by simp [ha1, hc1], by rw [hl1]; exact hst.1, by rw [hf1]; exact hst.2⟩
      · exact ⟨(c2, g), by simp [ha2, hc2], by rw [hl2]; exact hst.1, by rw [hf2]; exact hst.2⟩)
    (List.range child.pixels.length)
    (by intro i hi; rw [hc] at hi; exact List.mem_range.mp hi)
    (child, gen) ⟨hc, rfl⟩
  exact ⟨st.1, st.2, hst, hP.1, hP.2⟩

theorem copyLoop_some (parent : Individual) (h : 1024 ≤ parent.pixels.length)
    (l : List Nat) (hl : ∀ i ∈ l, i < 1024) (child : Individual)
    (hc : child.pixels.length = 1024) :
    ∃ child', l.foldlM
        (fun (child : Individual) (i : Nat) => do
          let p ← parent.pixels[i]?
          child.setPixel i p) child = some child'
      ∧ child'.pixels.length = 1024 ∧ child'.fitness = child.fitness := by
  obtain ⟨st, hst, hP⟩ := foldlM_invariant
    (fun (child : Individual) (i : Nat) => do
      let p ← parent.pixels[i]?
      child.setPixel i p)
    (fun st => st.pixels.length = 1024 ∧ st.fitness = child.fitness) (fun i => i < 1024)
    (by
      intro st i hst hi
      obtain ⟨a, ha⟩ := getElem?_some_of_lt parent.pixels i (by omega)
      obtain ⟨c1, hc1, hl1, hf1⟩ := setPixel_some st i a (by omega)
      refine ⟨c1, by simp [ha, hc1], by rw [hl1]; exact hst.1, by rw [hf1]; exact hst.2⟩)
    l hl child ⟨hc, rfl⟩
  exact ⟨st, hst, hP.1, hP.2⟩

theorem crossoverSinglePoint_some (parent1 parent2 child : Individual) (splitPoint : Nat)
    (h1 : 1024 ≤ parent1.pixels.length) (h2 : 1024 ≤ parent2.pixels.length)
    (hc : child.pixels.length = 1024) (hs : splitPoint ≤ 1024) :
    ∃ child', Individual.crossoverSinglePoint parent1 parent2 child splitPoint = some child'
      ∧ child'.pixels.length = 1024 ∧ child'.fitness = child.fitness := by
  unfold Individual.crossoverSinglePoint
  obtain ⟨c1, hc1, hl1, hf1⟩ := copyLoop_some parent1 h1 (List.range splitPoint)
    (by intro i hi; have := List.mem_range.mp hi; omega) child hc
  obtain ⟨c2, hc2, hl2, hf2⟩ := copyLoop_some parent2 h2
    (List.range' splitPoint (c1.pixels.length - splitPoint))
    (by
      intro i hi
      obtain ⟨j, hj, rfl⟩ := List.mem_range'.mp hi
      omega) c1 hl1
  refine ⟨c2, ?_, hl2, hf2.trans hf1⟩
  simp only [Option.bind_eq_bind] at hc1 hc2 ⊢
  rw [hc1]
  exact hc2

theorem crossoverAverage_some (parent1 parent2 child : Individual)
    (h1 : 1024 ≤ parent1.pixels.length) (h2 : 1024 ≤ parent2.pixels.length)
    (hc : child.pixels.length = 1024) :
    ∃ child', Individual.crossoverAverage parent1 parent2 child = some child'
      ∧ child'.pixels.length = 1024 ∧ child'.fitness = child.fitness := by
  unfold Individual.crossoverAverage
  obtain ⟨st, hst, hP⟩ := foldlM_invariant
    (fun (child : Individual) (i : Nat) => do
      let p1 ← parent1.pixels[i]?
      let p2 ← parent2.pixels[i]?
      child.setPixel i
        ⟨toUChar ((((p1.r : Nat) : Int) + ((p2.r : Nat) : Int)) / 2),
         toUChar ((((p1.g : Nat) : Int) + ((p2.g : Nat) : Int)) / 2),
         toUChar ((((p1.b : Nat) : Int) + ((p2.b : Nat) : Int)) / 2)⟩)
    (fun st => st.pixels.length = 1024 ∧ st.fitness = child.fitness) (fun i => i < 1024)
    (by
      intro st i hst hi
      obtain ⟨a1, ha1⟩ := getElem?_some_of_lt parent1.pixels i (by omega)
      obtain ⟨a2, ha2⟩ := getElem?_some_of_lt parent2.pixels i (by omega)
      obtain ⟨c1, hc1, hl1, hf1⟩ := setPixel_some st i
        ⟨toUChar ((((a1.r : Nat) : Int) + ((a2.r : Nat) : Int)) / 2),
         toUChar ((((a1.g : Nat) : Int) + ((a2.g : Nat) : Int)) / 2),
         toUChar ((((a1.b : Nat) : Int) + ((a2.b : Nat) : Int)) / 2)⟩ (by omega)
      refine ⟨c1, by simp [ha1, ha2, hc1], by rw [hl1]; exact hst.1, by rw [hf1]; exact hst.2⟩)
    (List.range child.pixels.length)
    (by intro i hi; rw [hc] at hi; exact List.mem_range.mp hi)
    child ⟨hc, rfl⟩
  exact ⟨st, hst, hP.1, hP.2⟩

theorem crossover_some (parent1 parent2 : Individual) (gen : mt19937)
    (h1 : 1024 ≤ parent1.pixels.length) (h2 : 1024 ≤ parent2.pixels.length) :
    ∃ child gen', Individual.crossover parent1 parent2 gen = some (child, gen')
      ∧ child.pixels.length = 1024 ∧ child.fitness = 0 := by
  obtain ⟨m, g, hm, _, _⟩ := uniform_int_distribution_some 0 2 gen (by omega)
  unfold Individual.crossover
  simp only [hm, Option.bind_eq_bind, Option.some_bind, Option.pure_def]
  split
  · obtain ⟨c, g', hc, hl, hf⟩ :=
      crossoverUniform_some parent1 parent2 Individual.new g h1 h2 Individual.new_length
    exact ⟨c, g', hc, hl, hf⟩
  · obtain ⟨v, g', hv, hv0, hv1⟩ := uniform_int_distribution_some 0
      ((Individual.new.pixels.length : Int) - 1) g (by rw [Individual.new_length]; omega)
    rw [Individual.new_length] at hv1
    obtain ⟨c, hc, hl, hf⟩ := crossoverSinglePoint_some parent1 parent2 Individual.new
      (toSizeT v) h1 h2 Individual.new_length (by unfold toSizeT; omega)
    refine ⟨c, g', ?_, hl, hf⟩
    simp only [hv, hc, Option.some_bind]
  · obtain ⟨c, hc, hl, hf⟩ :=
      crossoverAverage_some parent1 parent2 Individual.new h1 h2 Individual.new_length
    refine ⟨c, g, ?_, hl, hf⟩
    simp only [hc, Option.some_bind]
  · exact ⟨Individual.new, g, rfl, Individual.new_length, rfl⟩

/-! ## Selection and reproduction -/

theorem selectParent_some (s : GeneticAlgorithm) (h : s.ready) :
    ∃ p gen', s.selectParent = some (p, gen') ∧ p ∈ s.population := by
  obtain ⟨⟨hlen, hmax, _, _⟩, hpos, _⟩ := h
  have hidx : ∀ v : Int, 0 ≤ v → v ≤ s.populationSize - 1 →
      ∃ a, s.population[toSizeT v]? = some a ∧ a ∈ s.population := by
    intro v hv0 hv1
    have hlt : toSizeT v < s.population.length := by
      have := toSizeT_of_bounds v hv0 (by omega)
      omega
    exact ⟨_, List.getElem?_eq_getElem hlt, List.getElem_mem _⟩
  obtain ⟨v, g, hv, hv0, hv1⟩ :=
    uniform_int_distribution_some 0 (s.populationSize - 1) s.gen (by omega)
  obtain ⟨best, hbest, hmem⟩ := hidx v hv0 hv1
  obtain ⟨st, hst, hP⟩ := foldlM_invariant
    (fun (st : Individual × mt19937) (_ : Nat) => do
      let (index, gen) ← uniform_int_distribution 0 (s.populationSize - 1) st.2
      let contender ← s.population[toSizeT index]?
      if contender.fitness > st.1.fitness then pure (contender, gen) else pure (st.1, gen))
    (fun st => st.1 ∈ s.population) (fun _ => True)
    (by
      intro st i hst _
      obtain ⟨w, g', hw, hw0, hw1⟩ :=
        uniform_int_distribution_some 0 (s.populationSize - 1) st.2 (by omega)
      obtain ⟨c, hc, hcmem⟩ := hidx w hw0 hw1
      simp only [hw, hc, Option.bind_eq_bind, Option.some_bind, Option.pure_def]
      split
      · exact ⟨_, rfl, hcmem⟩
      · exact ⟨_, rfl, hst⟩)
    (List.range' 1 (3 - 1)) (fun _ _ => trivial) (best, g) hmem
  refine ⟨st.1, st.2, ?_, hP⟩
  unfold GeneticAlgorithm.selectParent
  simp only [hv, hbest, Option.bind_eq_bind, Option.some_bind]
  exact hst

theorem ready_gen (s : GeneticAlgorithm) (h : s.ready) (gen : mt19937) :
    GeneticAlgorithm.ready { s with gen := gen } := h

theorem reproduce_some (s : GeneticAlgorithm) (h : s.ready) :
    ∃ child gen', s.reproduce = some (child, gen') ∧ child.pixels.length = 1024
      ∧ (s.crossoverRate ≤ 0 → s.mutationRate ≤ 0 → child ∈ s.population) := by
  have hpix := h.1.2.2.1
  unfold GeneticAlgorithm.reproduce
  split
  · rename_i hlt
    obtain ⟨p1, g1, hp1, hm1⟩ := selectParent_some _ (ready_gen s h (uniform_real_distribution s.gen).2)
    obtain ⟨p2, g2, hp2, hm2⟩ := selectParent_some _ (ready_gen s h g1)
    obtain ⟨c, g3, hc, hl, _⟩ := crossover_some p1 p2 g2
      (le_of_eq (hpix p1 hm1).symm) (le_of_eq (hpix p2 hm2).symm)
    obtain ⟨c', g4, hc', hl', _, _⟩ := individual_mutate_some c g3 s.mutationRate s.mutationStrength h.2.2
    refine ⟨c', g4, ?_, by rw [hl', hl], ?_⟩
    · simp only [hp1, hp2, hc, Option.bind_eq_bind, Option.some_bind]
      exact hc'
    · intro h0
      exact absurd (lt_of_lt_of_le hlt h0)
        (not_lt.mpr (uniform_real_distribution_nonneg s.gen))
  · obtain ⟨p, g1, hp, hm⟩ := selectParent_some _ (ready_gen s h (uniform_real_distribution s.gen).2)
    obtain ⟨c', g2, hc', hl', _, heq⟩ := individual_mutate_some p g1 s.mutationRate s.mutationStrength h.2.2
    refine ⟨c', g2, ?_, by rw [hl']; exact hpix p hm, ?_⟩
    · simp only [hp, Option.bind_eq_bind, Option.some_bind]
      exact hc'
    · intro _ h0
      rw [heq h0]
      exact hm

/-! ## One generation -/

theorem createLoop_some (k : Nat) :
    ∀ (s : GeneticAlgorithm) (newPopulation : List Individual), s.ready →
      toSizeT s.populationSize - newPopulation.length = k →
      ∃ extra gen', s.createLoop newPopulation = some (newPopulation ++ extra, gen')
        ∧ extra.length = toSizeT s.populationSize - newPopulation.length
        ∧ ∀ c ∈ extra, c.pixels.length = 1024
          ∧ (s.crossoverRate ≤ 0 → s.mutationRate ≤ 0 → c ∈ s.population) := by
  induction k with
  | zero =>
    intro s np _ hk
    refine ⟨[], s.gen, ?_, by simp [hk], by simp⟩
    rw [GeneticAlgorithm.createLoop, if_neg (by omega), List.append_nil]
  | succ k ih =>
    intro s np h hk
    obtain ⟨child, g, hchild, hl, hmem⟩ := reproduce_some s h
    obtain ⟨extra, g', hrec, hlen, hall⟩ := ih { s with gen := g } (np ++ [child])
      (ready_gen s h g) (by simp only [List.length_append, List.length_singleton]; omega)
    refine ⟨child :: extra, g', ?_, ?_, ?_⟩
    · rw [GeneticAlgorithm.createLoop, if_pos (by omega)]
      simp only [hchild]
      rw [hrec, List.append_assoc, List.singleton_append]
    · simp only [List.length_append, List.length_singleton] at hlen
      simp only [List.length_cons, hlen]
      omega
    · intro c hc
      rcases List.mem_cons.mp hc with rfl | hc
      · exact ⟨hl, hmem⟩
      · exact hall c hc

theorem createNewGeneration_some (s : GeneticAlgorithm) (h : s.ready) :
    ∃ elite rest gen',
      s.population[0]? = some elite
      ∧ s.createNewGeneration
          = some { s with population := elite :: rest, gen := gen',
                          generation := s.generation + 1 }
      ∧ ((elite :: rest).length : Int) = s.populationSize
      ∧ ∀ c ∈ rest, c.pixels.length = 1024
          ∧ (s.crossoverRate ≤ 0 → s.mutationRate ≤ 0 → c ∈ s.population) := by
  obtain ⟨⟨hlen, hmax, _, _⟩, hpos, _⟩ := id h
  obtain ⟨elite, helite⟩ := getElem?_some_of_lt s.population 0 (by omega)
  obtain ⟨extra, g', hloop, hl, hall⟩ := createLoop_some _ s [elite] h rfl
  refine ⟨elite, extra, g', helite, ?_, ?_, hall⟩
  · unfold GeneticAlgorithm.createNewGeneration
    simp only [helite, hloop, Option.bind_eq_bind, Option.some_bind, Option.pure_def,
      List.singleton_append]
  · have := toSizeT_of_bounds s.populationSize (by omega) hmax
    have hl1 : extra.length = toSizeT s.populationSize - 1 := hl
    simp only [List.length_cons, hl1]
    omega

/-! ## Evaluation and ranking of a well-formed engine -/

theorem head_fitness_ge (l : List Individual) (hl : l.Pairwise (fun a b => a.fitness ≥ b.fitness))
    (best c : Individual) (hb : l[0]? = some best) (hc : c ∈ l) : best.fitness ≥ c.fitness := by
  cases l with
  | nil => simp at hb
  | cons x l =>
    simp only [List.getElem?_cons_zero, Option.some.injEq] at hb
    subst hb
    rcases List.mem_cons.mp hc with rfl | hc
    · exact le_refl _
    · exact (List.pairwise_cons.mp hl).1 c hc

theorem evaluateFitness_spec (s : GeneticAlgorithm) (h : s.wf) :
    ∃ l, s.evaluateFitness = some { s with population := l }
      ∧ l.Perm (s.population.map fun c => (⟨c.pixels, fitnessOf c.pixels s.targetImage⟩ : Individual))
      ∧ GeneticAlgorithm.wf { s with population := l }
      ∧ GeneticAlgorithm.evaluated { s with population := l } := by
  obtain ⟨hlen, hmax, hpix, htgt⟩ := h
  have hperm := sort_perm (fun (a b : Individual) => decide (a.fitness > b.fitness))
    (s.population.map fun c => (⟨c.pixels, fitnessOf c.pixels s.targetImage⟩ : Individual))
  have hmem : ∀ c ∈ sort (fun (a b : Individual) => decide (a.fitness > b.fitness))
      (s.population.map fun c => (⟨c.pixels, fitnessOf c.pixels s.targetImage⟩ : Individual)),
      ∃ d ∈ s.population, c = ⟨d.pixels, fitnessOf d.pixels s.targetImage⟩ := by
    intro c hc
    obtain ⟨d, hd, rfl⟩ := List.mem_map.mp (hperm.subset hc)
    exact ⟨d, hd, rfl⟩
  refine ⟨_, evaluateFitness_eq s (fun c hc => by rw [hpix c hc, htgt]), hperm, ?_, ?_⟩
  · refine ⟨?_, hmax, ?_, htgt⟩
    · show ((sort _ _).length : Int) = s.populationSize
      rw [hperm.length_eq, List.length_map]
      exact hlen
    · intro c hc
      obtain ⟨d, hd, rfl⟩ := hmem c hc
      exact hpix d hd
  · refine ⟨?_, sort_fitness_descending _⟩
    intro c hc
    obtain ⟨d, _, rfl⟩ := hmem c hc
    rfl

theorem evaluateFitness_ready (s : GeneticAlgorithm) (h : s.ready) :
    ∃ l, s.evaluateFitness = some { s with population := l }
      ∧ l.Perm (s.population.map fun c => (⟨c.pixels, fitnessOf c.pixels s.targetImage⟩ : Individual))
      ∧ GeneticAlgorithm.ready { s with population := l }
      ∧ GeneticAlgorithm.evaluated { s with population := l } := by
  obtain ⟨l, h1, h2, h3, h4⟩ := evaluateFitness_spec s h.1
  exact ⟨l, h1, h2, ⟨h3, h.2.1, h.2.2⟩, h4⟩

theorem ready_head (s : GeneticAlgorithm) (h : s.ready) : ∃ best, s.population[0]? = some best := by
  obtain ⟨⟨hlen, _, _, _⟩, hpos, _⟩ := h
  exact getElem?_some_of_lt s.population 0 (by omega)

/-! ## One generation followed by its evaluation -/

theorem generation_step (s : GeneticAlgorithm) (h : s.ready) (he : s.evaluated) :
    ∃ s1 s2 best best',
      s.createNewGeneration = some s1 ∧ s1.evaluateFitness = some s2
      ∧ s.population[0]? = some best ∧ s1.population[0]? = some best
      ∧ s2.population[0]? = some best'
      ∧ best'.fitness ≥ best.fitness
      ∧ (s.crossoverRate ≤ 0 → s.mutationRate ≤ 0 → best'.fitness = best.fitness)
      ∧ s2.ready ∧ s2.evaluated ∧ s2.generation = s.generation + 1 := by
  obtain ⟨elite, rest, g, helite, hcreate, hlen, hrest⟩ := createNewGeneration_some s h
  have hwf := h.1
  have hready1 : GeneticAlgorithm.ready
      { s with population := elite :: rest, gen := g, generation := s.generation + 1 } := by
    refine ⟨⟨hlen, hwf.2.1, ?_, hwf.2.2.2⟩, h.2.1, h.2.2⟩
    intro c hc
    rcases List.mem_cons.mp hc with rfl | hc
    · exact hwf.2.2.1 _ (List.getElem?_mem helite)
    · exact (hrest c hc).1
  obtain ⟨l, heval, hperm, hready2, hev2⟩ := evaluateFitness_ready _ hready1
  obtain ⟨best', hbest'⟩ := ready_head _ hready2
  have helite_mem : elite ∈ s.population := List.getElem?_mem helite
  have helite_fit : elite.fitness = fitnessOf elite.pixels s.targetImage := he.1 elite helite_mem
  have helite_in : elite ∈ l := by
    apply hperm.symm.subset
    refine List.mem_map.mpr ⟨elite, List.mem_cons_self _ _, ?_⟩
    show (⟨elite.pixels, fitnessOf elite.pixels s.targetImage⟩ : Individual) = elite
    rw [← helite_fit]
  refine ⟨_, _, elite, best', hcreate, heval, helite, List.getElem?_cons_zero, hbest', ?_, ?_, hready2, hev2,
    rfl⟩
  · exact head_fitness_ge l hev2.2 best' elite hbest' helite_in
  · intro hc hm
    apply le_antisymm
    · have hb'mem : best' ∈ l := List.getElem?_mem hbest'
      obtain ⟨d, hd, hbd⟩ := List.mem_map.mp (hperm.subset hb'mem)
      have hds : d ∈ s.population := by
        rcases List.mem_cons.mp hd with rfl | hd
        · exact helite_mem
        · exact (hrest d hd).2 hc hm
      have hdfit : d.fitness = fitnessOf d.pixels s.targetImage := he.1 d hds
      have : best'.fitness = d.fitness := by
        rw [← hbd, hdfit]
      rw [this]
      exact head_fitness_ge s.population he.2 elite d helite hds
    · exact head_fitness_ge l hev2.2 best' elite hbest' helite_in

/-! ## The loop of `run` -/

theorem runLoop_stop_generation (maxGenerations : Int) (targetFitness : ℚ) (fuel : Nat)
    (s : GeneticAlgorithm) (h : maxGenerations ≤ s.generation) :
    GeneticAlgorithm.runLoop maxGenerations targetFitness fuel s = some (s, []) := by
  cases fuel <;> (unfold GeneticAlgorithm.runLoop; rw [if_neg (by omega)])

theorem runLoop_stop_fitness (maxGenerations : Int) (targetFitness : ℚ) (fuel : Nat)
    (s : GeneticAlgorithm) (best : Individual) (hb : s.population[0]? = some best)
    (h : targetFitness ≤ best.fitness) :
    GeneticAlgorithm.runLoop maxGenerations targetFitness fuel s = some (s, []) := by
  cases fuel <;>
    (unfold GeneticAlgorithm.runLoop
     split
     · simp only [hb]
       rw [if_neg (not_lt.mpr h)]
     · rfl)

theorem runLoop_step (maxGenerations : Int) (targetFitness : ℚ) (fuel : Nat)
    (s s1 s2 : GeneticAlgorithm) (best : Individual) (hg : s.generation < maxGenerations)
    (hb : s.population[0]? = some best) (h : best.fitness < targetFitness)
    (h1 : s.createNewGeneration = some s1) (h2 : s1.evaluateFitness = some s2) :
    GeneticAlgorithm.runLoop maxGenerations targetFitness (fuel + 1) s
      = (GeneticAlgorithm.runLoop maxGenerations targetFitness fuel s2).map
          fun r => (r.1, Call.createNewGeneration :: Call.evaluateFitness :: r.2) := by
  rw [GeneticAlgorithm.runLoop, if_pos hg]
  simp only [hb, if_pos h, h1, h2, Option.bind_eq_bind, Option.some_bind, Option.pure_def]
  cases GeneticAlgorithm.runLoop maxGenerations targetFitness fuel s2 <;> rfl

theorem runLoop_spec (maxGenerations : Int) (targetFitness : ℚ) (fuel : Nat) :
    ∀ s : GeneticAlgorithm, s.ready → s.evaluated →
      (maxGenerations - s.generation).toNat ≤ fuel →
      ∃ final n best best',
        GeneticAlgorithm.runLoop maxGenerations targetFitness fuel s = some (final, loopCalls n)
        ∧ final.generation = s.generation + n
        ∧ (n : Int) ≤ max 0 (maxGenerations - s.generation)
        ∧ s.population[0]? = some best ∧ final.population[0]? = some best'
        ∧ best'.fitness ≥ best.fitness
        ∧ (final.generation ≥ maxGenerations ∨ best'.fitness ≥ targetFitness)
        ∧ ((maxGenerations ≤ s.generation ∨ targetFitness ≤ best.fitness) → final = s ∧ n = 0)
        ∧ (n = 0 → maxGenerations ≤ s.generation ∨ targetFitness ≤ best.fitness) := by
  induction fuel with
  | zero =>
    intro s hr _ hf
    obtain ⟨best, hb⟩ := ready_head s hr
    have hg : maxGenerations ≤ s.generation := by omega
    exact ⟨s, 0, best, best, runLoop_stop_generation _ _ _ s hg, by simp, by simp, hb, hb,
      le_refl _, Or.inl hg, fun _ => ⟨rfl, rfl⟩, fun _ => Or.inl hg⟩
  | succ fuel ih =>
    intro s hr he hf
    obtain ⟨best, hb⟩ := ready_head s hr
    by_cases hg : maxGenerations ≤ s.generation
    · exact ⟨s, 0, best, best, runLoop_stop_generation _ _ _ s hg, by simp, by simp, hb, hb,
        le_refl _, Or.inl hg, fun _ => ⟨rfl, rfl⟩, fun _ => Or.inl hg⟩
    · by_cases hfit : targetFitness ≤ best.fitness
      · exact ⟨s, 0, best, best, runLoop_stop_fitness _ _ _ s best hb hfit, by simp, by simp,
          hb, hb, le_refl _, Or.inr hfit, fun _ => ⟨rfl, rfl⟩, fun _ => Or.inr hfit⟩
      · obtain ⟨s1, s2, b, b2, h1, h2, hb0, _, hb2, hge, _, hr2, he2, hgen⟩ :=
          generation_step s hr he
        rw [hb] at hb0
        cases hb0
        obtain ⟨final, n, c, c', hrun, hfgen, hn, hc, hc', hcge, hstop, _, _⟩ :=
          ih s2 hr2 he2 (by omega)
        rw [hb2] at hc
        cases hc
        refine ⟨final, n + 1, best, c', ?_, ?_, ?_, hb, hc', le_trans hge hcge, hstop, ?_,
          fun h0 => absurd h0 (Nat.succ_ne_zero n)⟩
        · rw [runLoop_step _ _ fuel s s1 s2 best (by omega) hb (not_le.mp hfit) h1 h2, hrun]
          rfl
        · rw [hfgen, hgen]
          push_cast
          ring
        · rw [hgen] at hn
          push_cast
          omega
        · rintro (h | h)
          · exact absurd h hg
          · exact absurd h hfit

/-! ## Sample engines -/

theorem sampleEngine_wf : sampleEngine.wf := by
  refine ⟨rfl, by decide, ?_, blackImage_length⟩
  intro c hc
  simp only [sampleEngine, List.mem_cons, List.mem_singleton, List.not_mem_nil, or_false] at hc
  rcases hc with rfl | rfl
  · exact whiteImage_length
  · exact blackImage_length

theorem sampleEngine_ready : sampleEngine.ready :=
  ⟨sampleEngine_wf, by decide, Or.inr (by decide)⟩

theorem scenarioEngine_wf : scenarioEngine.wf := by
  refine ⟨rfl, by decide, ?_, blackImage_length⟩
  intro c hc
  obtain ⟨k, _, rfl⟩ := List.mem_map.mp hc
  exact List.length_replicate _ _

theorem loopCalls_count (n : Nat) : (loopCalls n).count Call.createNewGeneration = n := by
  induction n with
  | zero => rfl
  | succ n ih => simp [loopCalls, ih]

theorem run_eq (s s1 : GeneticAlgorithm) (best : Individual) (maxGenerations : Int)
    (targetFitness : ℚ) (h1 : s.evaluateFitness = some s1) (hb : s1.population[0]? = some best) :
    s.run maxGenerations targetFitness
      = (GeneticAlgorithm.runLoop maxGenerations targetFitness
            (maxGenerations - s1.generation).toNat s1).map
          fun r => (r.1, Call.evaluateFitness :: r.2) := by
  unfold GeneticAlgorithm.run
  simp only [h1, hb, Option.bind_eq_bind, Option.some_bind, Option.pure_def]
  cases GeneticAlgorithm.runLoop maxGenerations targetFitness
    (maxGenerations - s1.generation).toNat s1 <;> rfl

theorem run_spec (s : GeneticAlgorithm) (h : s.ready) (maxGenerations : Int)
    (targetFitness : ℚ) :
    ∃ s1 final n best best',
      s.evaluateFitness = some s1 ∧ s1.population[0]? = some best
      ∧ s.run maxGenerations targetFitness = some (final, Call.evaluateFitness :: loopCalls n)
      ∧ final.generation = s.generation + n
      ∧ (n : Int) ≤ max 0 (maxGenerations - s.generation)
      ∧ final.population[0]? = some best'
      ∧ best'.fitness ≥ best.fitness
      ∧ (final.generation ≥ maxGenerations ∨ best'.fitness ≥ targetFitness)
      ∧ (n = 0 ↔ maxGenerations ≤ s.generation ∨ targetFitness ≤ best.fitness) := by
  obtain ⟨l, h1, _, hr1, he1⟩ := evaluateFitness_ready s h
  obtain ⟨final, n, best, best', hrun, hgen, hn, hb, hb', hge, hstop, hz, hz'⟩ :=
    runLoop_spec maxGenerations targetFitness _ _ hr1 he1 (le_refl _)
  refine ⟨_, final, n, best, best', h1, hb, ?_, hgen, hn, hb', hge, hstop,
    ⟨hz', fun hc => (hz hc).2⟩⟩
  rw [run_eq s _ best maxGenerations targetFitness h1 hb, hrun]
  rfl

/-! ## The constructor establishes the class invariant -/

theorem randomizeLoop_some (pixels : List Pixel) (gen : mt19937) :
    ∃ pixels' gen', Individual.randomizeLoop pixels gen = some (pixels', gen')
      ∧ pixels'.length = pixels.length := by
  induction pixels generalizing gen with
  | nil => exact ⟨[], gen, rfl, rfl⟩
  | cons p rest ih =>
    obtain ⟨r, g1, hr, _, _⟩ := uniform_int_distribution_some 0 255 gen (by omega)
    obtain ⟨g, g2, hg, _, _⟩ := uniform_int_distribution_some 0 255 g1 (by omega)
    obtain ⟨b, g3, hb, _, _⟩ := uniform_int_distribution_some 0 255 g2 (by omega)
    obtain ⟨rest', g4, hrest, hlen⟩ := ih g3
    refine ⟨⟨toUChar r, toUChar g, toUChar b⟩ :: rest', g4, ?_, by simp [hlen]⟩
    unfold Individual.randomizeLoop
    simp only [hr, hg, hb, hrest, Option.bind_eq_bind, Option.some_bind, Option.pure_def]

theorem initializeLoop_some (population : List Individual) (gen : mt19937)
    (h : ∀ c ∈ population, c.pixels.length = 1024) :
    ∃ population' gen', GeneticAlgorithm.initializeLoop population gen = some (population', gen')
      ∧ population'.length = population.length
      ∧ ∀ c ∈ population', c.pixels.length = 1024 := by
  induction population generalizing gen with
  | nil => exact ⟨[], gen, rfl, rfl, by simp⟩
  | cons c rest ih =>
    obtain ⟨pixels', g1, hp, hlen⟩ := randomizeLoop_some c.pixels gen
    obtain ⟨rest', g2, hrest, hlen', hall⟩ :=
      ih g1 (fun d hd => h d (List.mem_cons_of_mem _ hd))
    refine ⟨{ c with pixels := pixels' } :: rest', g2, ?_, by simp [hlen'], ?_⟩
    · unfold GeneticAlgorithm.initializeLoop Individual.randomize
      simp only [hp, hrest, Option.bind_eq_bind, Option.some_bind, Option.pure_def]
    · intro d hd
      rcases List.mem_cons.mp hd with rfl | hd
      · exact hlen.trans (h c (List.mem_cons_self _ _))
      · exact hall d hd

theorem new_wf (popSize : Int) (mutRate : ℚ) (mutStrength : Int) (crossRate : ℚ)
    (seed : mt19937) (h0 : 0 ≤ popSize) (h1 : popSize ≤ 2147483647) :
    ∃ s, GeneticAlgorithm.new popSize mutRate mutStrength crossRate seed = some s ∧ s.wf
      ∧ s.populationSize = popSize ∧ s.mutationRate = mutRate
      ∧ s.mutationStrength = mutStrength ∧ s.crossoverRate = crossRate ∧ s.generation = 0 := by
  obtain ⟨population, gen, hinit, hlen, hall⟩ := initializeLoop_some
    (List.replicate (toSizeT popSize) Individual.new) seed
    (by
      intro c hc
      rw [(List.mem_replicate.mp hc).2]
      exact Individual.new_length)
  have hnew : GeneticAlgorithm.new popSize mutRate mutStrength crossRate seed
      = some { population := population, targetImage := List.replicate (32 * 32) Pixel.new,
               gen := gen, populationSize := popSize, mutationRate := mutRate,
               mutationStrength := mutStrength, crossoverRate := crossRate, generation := 0,
               targetName := "" } := by
    unfold GeneticAlgorithm.new GeneticAlgorithm.initializePopulation
    rw [if_neg (not_lt.mpr h0)]
    simp only [hinit, Option.bind_eq_bind, Option.some_bind, Option.pure_def]
  refine ⟨_, hnew, ⟨?_, h1, hall, List.length_replicate _ _⟩, rfl, rfl, rfl, rfl, rfl⟩
  · show ((population.length : Nat) : Int) = popSize
    rw [hlen, List.length_replicate]
    exact toSizeT_of_bounds popSize h0 h1

/-! ## Claims on the fitness and the ranking -/

/-! ### The rounded fitness at a concrete input -/

theorem sumDiff_cons (p t : Pixel) (ps ts : List Pixel) (n : Nat) :
    sumDiff (p :: ps) (t :: ts) (n + 1) = ((p.difference t : Int) : ℚ) + sumDiff ps ts n := by
  unfold sumDiff
  rw [Finset.sum_range_succ', add_comm]
  simp only [List.getD_cons_zero, List.getD_cons_succ]

theorem oneOffImage_length : oneOffImage.length = 1024 := by
  unfold oneOffImage
  rw [List.length_cons, List.length_replicate]

theorem sumDiff_oneOffImage : sumDiff oneOffImage blackImage 1024 = 1 := by
  have hb : blackImage = Pixel.new :: List.replicate 1023 Pixel.new := rfl
  have hz : sumDiff (List.replicate 1023 Pixel.new) (List.replicate 1023 Pixel.new) 1023 = 0 :=
    (sumDiff_eq_zero_iff _ _ _).mpr (fun _ _ => rfl)
  have hd : (⟨1, 0, 0⟩ : Pixel).difference Pixel.new = 1 := by decide
  rw [hb]
  unfold oneOffImage
  rw [sumDiff_cons, hz, hd]
  norm_num

theorem roundDouble_quotient_one : roundDouble (1 / 783360)
    = 6028347736506389 / 4722366482869645213696 := by
  rw [roundDouble_eq (1 / 783360) (-20) 6028347736506389 (by norm_num) (by norm_num)
    (by rw [abs_lt]; constructor <;> norm_num)]
  norm_num

theorem roundDouble_difference_one :
    roundDouble (1 - 6028347736506389 / 4722366482869645213696)
      = 9007187756580179 / 9007199254740992 := by
  rw [roundDouble_eq (1 - 6028347736506389 / 4722366482869645213696) (-1) 9007187756580179
    (by norm_num) (by norm_num) (by rw [abs_lt]; constructor <;> norm_num)]
  norm_num

theorem fitnessOf_error (pixels target : List Pixel) (h : pixels.length = 1024) :
    |fitnessOf pixels target - (1 - sumDiff pixels target pixels.length / 783360)|
      ≤ 1 / 9007199254740992 := by
  have h0 := sumDiff_nonneg pixels target pixels.length
  have h1 := sumDiff_le pixels target pixels.length
  have hn : ((pixels.length : Nat) : ℚ) = 1024 := by rw [h]; norm_num
  rw [hn] at h1
  have hx0 : 0 ≤ sumDiff pixels target pixels.length / 783360 := by positivity
  have hx1 : sumDiff pixels target pixels.length / 783360 ≤ 1 := by
    rw [div_le_one (by norm_num)]
    norm_num at h1
    linarith
  have hy0 := roundDouble_nonneg _ hx0
  have hy1 := roundDouble_le_one _ hx1
  have e1 := roundDouble_error _ hx0 hx1
  have e2 := roundDouble_error (1 - roundDouble (sumDiff pixels target pixels.length / 783360))
    (by linarith) (by linarith)
  unfold fitnessOf
  rw [abs_le] at e1 e2 ⊢
  constructor <;> linarith

/-- C1 (as amended): for a candidate of 1024 pixels and a target of 1024 pixels,
`calculateFitness` returns the candidate with the same pixel sequence and, as fitness, the double
nearest to `1 - q`, where `q` is the double nearest to `totalDiff / (1024 * 765)` and `totalDiff`
is the exact sum over the positions `i < 1024` of `difference(pixels[i], target[i])`; that double
lies within `2 ^ (-53)` of `1 - totalDiff / (1024 * 765)`. -/
theorem calculateFitness_formula (c : Individual) (target : List Pixel)
    (hc : c.pixels.length = 1024) (ht : target.length = 1024) :
    c.calculateFitness target
        = some
            { pixels := c.pixels
              fitness := roundDouble (1 - roundDouble ((∑ i ∈ Finset.range 1024,
                  (((c.pixels.getD i Pixel.new).difference (target.getD i Pixel.new) : Int) : ℚ))
                / (1024 * 765))) }
      ∧ |roundDouble (1 - roundDouble ((∑ i ∈ Finset.range 1024,
              (((c.pixels.getD i Pixel.new).difference (target.getD i Pixel.new) : Int) : ℚ))
            / (1024 * 765)))
          - (1 - (∑ i ∈ Finset.range 1024,
              (((c.pixels.getD i Pixel.new).difference (target.getD i Pixel.new) : Int) : ℚ))
            / (1024 * 765))| ≤ 1 / 9007199254740992 := by
  have hm : (1024 * 765 : ℚ) = 783360 := by norm_num
  have herr := fitnessOf_error c.pixels target hc
  unfold fitnessOf at herr
  rw [hc] at herr
  rw [calculateFitness_eq c target (by omega), hc, hm]
  exact ⟨rfl, herr⟩

theorem calculateFitness_formula_witness :
    (⟨whiteImage, 0⟩ : Individual).calculateFitness blackImage
        = some
            { pixels := whiteImage
              fitness := roundDouble (1 - roundDouble ((∑ i ∈ Finset.range 1024,
                  (((whiteImage.getD i Pixel.new).difference (blackImage.getD i Pixel.new)
                    : Int) : ℚ))
                / (1024 * 765))) }
      ∧ |roundDouble (1 - roundDouble ((∑ i ∈ Finset.range 1024,
              (((whiteImage.getD i Pixel.new).difference (blackImage.getD i Pixel.new)
                : Int) : ℚ))
            / (1024 * 765)))
          - (1 - (∑ i ∈ Finset.range 1024,
              (((whiteImage.getD i Pixel.new).difference (blackImage.getD i Pixel.new)
                : Int) : ℚ))
            / (1024 * 765))| ≤ 1 / 9007199254740992 :=
  calculateFitness_formula ⟨whiteImage, 0⟩ blackImage whiteImage_length blackImage_length

/-- C1 (counterexample): the candidate that differs from the all-black target in one channel of
one pixel by 1 has `totalDiff = 1`; `calculateFitness` gives it the fitness
`9007187756580179 / 2 ^ 53`, which is not `1 - 1 / (1024 * 765)`. -/
theorem calculateFitness_exact_counterexample :
    (⟨oneOffImage, 0⟩ : Individual).pixels.length = 1024 ∧ blackImage.length = 1024
      ∧ (∑ i ∈ Finset.range 1024,
          (((oneOffImage.getD i Pixel.new).difference (blackImage.getD i Pixel.new) : Int) : ℚ))
          = 1
      ∧ (⟨oneOffImage, 0⟩ : Individual).calculateFitness blackImage
          = some ⟨oneOffImage, 9007187756580179 / 9007199254740992⟩
      ∧ (9007187756580179 / 9007199254740992 : ℚ) ≠ 1 - 1 / (1024 * 765) := by
  refine ⟨oneOffImage_length, blackImage_length, sumDiff_oneOffImage, ?_, by norm_num⟩
  have hlen : (⟨oneOffImage, 0⟩ : Individual).pixels.length ≤ blackImage.length :=
    le_of_eq (oneOffImage_length.trans blackImage_length.symm)
  rw [calculateFitness_eq _ _ hlen]
  show some (⟨oneOffImage, roundDouble (1 - roundDouble
    (sumDiff oneOffImage blackImage oneOffImage.length / 783360))⟩ : Individual) = _
  rw [oneOffImage_length, sumDiff_oneOffImage, roundDouble_quotient_one,
    roundDouble_difference_one]

/-- C2: for a candidate and a target of 1024 pixels each, `calculateFitness` returns a candidate
whose fitness lies in `[0, 1]`, and the fitness is `1` exactly when every pixel of the candidate
equals the pixel of the target at the same position in all three channels. -/
theorem calculateFitness_range (c : Individual) (target : List Pixel)
    (hc : c.pixels.length = 1024) (ht : target.length = 1024) :
    ∃ c', c.calculateFitness target = some c' ∧ 0 ≤ c'.fitness ∧ c'.fitness ≤ 1
      ∧ (c'.fitness = 1 ↔ ∀ i, i < 1024 →
          (c.pixels.getD i Pixel.new).r = (target.getD i Pixel.new).r
          ∧ (c.pixels.getD i Pixel.new).g = (target.getD i Pixel.new).g
          ∧ (c.pixels.getD i Pixel.new).b = (target.getD i Pixel.new).b) := by
  refine ⟨_, calculateFitness_fitnessOf c target (by omega), fitnessOf_nonneg _ _ hc,
    fitnessOf_le_one _ _, ?_⟩
  show fitnessOf c.pixels target = 1 ↔ _
  rw [fitnessOf_eq_one_iff _ _ (by omega)]
  constructor
  · intro h i _
    rw [h]
    exact ⟨rfl, rfl, rfl⟩
  · intro h
    apply getD_ext _ _ (by omega)
    intro i hi
    obtain ⟨h1, h2, h3⟩ := h i (by omega)
    generalize c.pixels.getD i Pixel.new = p at h1 h2 h3 ⊢
    generalize target.getD i Pixel.new = q at h1 h2 h3 ⊢
    cases p
    cases q
    simp only at h1 h2 h3
    rw [h1, h2, h3]

theorem calculateFitness_range_witness :
    ∃ c', (⟨whiteImage, 0⟩ : Individual).calculateFitness blackImage = some c'
      ∧ 0 ≤ c'.fitness ∧ c'.fitness ≤ 1
      ∧ (c'.fitness = 1 ↔ ∀ i, i < 1024 →
          (whiteImage.getD i Pixel.new).r = (blackImage.getD i Pixel.new).r
          ∧ (whiteImage.getD i Pixel.new).g = (blackImage.getD i Pixel.new).g
          ∧ (whiteImage.getD i Pixel.new).b = (blackImage.getD i Pixel.new).b) :=
  calculateFitness_range ⟨whiteImage, 0⟩ blackImage whiteImage_length blackImage_length

/-- C3: whenever no candidate has more pixels than the target (so that every read of
`evaluateFitness` is in bounds), `evaluateFitness` returns, and the population it leaves is sorted
by fitness in descending order; in particular the fitness of `population[0]` is at least the
fitness of `population[i]` for every index `i`. -/
theorem evaluateFitness_sorted (s : GeneticAlgorithm)
    (h : ∀ c ∈ s.population, c.pixels.length ≤ s.targetImage.length) :
    ∃ s', s.evaluateFitness = some s'
      ∧ s'.population.Pairwise (fun a b => a.fitness ≥ b.fitness)
      ∧ ∀ (i : Nat) (best c : Individual), s'.population[0]? = some best →
          s'.population[i]? = some c → best.fitness ≥ c.fitness := by
  refine ⟨_, evaluateFitness_eq s h, sort_fitness_descending _, ?_⟩
  intro i best c h0 hi
  have hs := sort_fitness_descending
    (s.population.map fun c => (⟨c.pixels, fitnessOf c.pixels s.targetImage⟩ : Individual))
  simp only at h0 hi
  generalize sort (fun a b => decide (a.fitness > b.fitness))
    (s.population.map fun c => (⟨c.pixels, fitnessOf c.pixels s.targetImage⟩ : Individual)) = l
    at hs h0 hi
  cases l with
  | nil => simp at h0
  | cons x l =>
    simp only [List.getElem?_cons_zero, Option.some.injEq] at h0
    subst h0
    cases i with
    | zero =>
      simp only [List.getElem?_cons_zero, Option.some.injEq] at hi
      subst hi
      exact le_refl _
    | succ i =>
      simp only [List.getElem?_cons_succ] at hi
      exact (List.pairwise_cons.mp hs).1 c (List.getElem?_mem hi)

theorem evaluateFitness_sorted_witness :
    ∃ s', sampleEngine.evaluateFitness = some s'
      ∧ s'.population.Pairwise (fun a b => a.fitness ≥ b.fitness)
      ∧ ∀ (i : Nat) (best c : Individual), s'.population[0]? = some best →
          s'.population[i]? = some c → best.fitness ≥ c.fitness :=
  evaluateFitness_sorted sampleEngine (by
    intro c hc
    simp only [sampleEngine, List.mem_cons, List.mem_singleton, List.not_mem_nil, or_false] at hc
    rcases hc with rfl | rfl
    · exact le_of_eq (whiteImage_length.trans blackImage_length.symm)
    · exact le_refl _)

/-! ## Claims on the generation step and on `run` -/

/-- C4 (elitism): for an engine that satisfies the class invariant, has at least one member and a
mutation strength that `Pixel::mutate` accepts, take the state left by `evaluateFitness`; then
`createNewGeneration` followed by `evaluateFitness` returns, and the fitness of the new
`population[0]` is at least the fitness of the former `population[0]`. The same bound holds for
the state that `run` returns, for every `maxGenerations` and `targetFitness`. -/
theorem elitism (s0 : GeneticAlgorithm) (h : s0.ready) :
    ∃ s s1 s2 best best',
      s0.evaluateFitness = some s ∧ s.createNewGeneration = some s1
      ∧ s1.evaluateFitness = some s2
      ∧ s.population[0]? = some best ∧ s2.population[0]? = some best'
      ∧ best'.fitness ≥ best.fitness
      ∧ ∀ (maxGenerations : Int) (targetFitness : ℚ), ∃ final calls bestFinal,
          s0.run maxGenerations targetFitness = some (final, calls)
          ∧ final.population[0]? = some bestFinal ∧ bestFinal.fitness ≥ best.fitness := by
  obtain ⟨l, h1, _, hr1, he1⟩ := evaluateFitness_ready s0 h
  obtain ⟨s1, s2, best, best', hc, he, hb, _, hb', hge, _, _, _, _⟩ := generation_step _ hr1 he1
  refine ⟨_, s1, s2, best, best', h1, hc, he, hb, hb', hge, ?_⟩
  intro maxGenerations targetFitness
  obtain ⟨t1, final, n, b, bF, ht1, hb1, hrun, _, _, hbF, hgeF, _, _⟩ :=
    run_spec s0 h maxGenerations targetFitness
  rw [h1] at ht1
  cases ht1
  rw [hb] at hb1
  cases hb1
  exact ⟨final, _, bF, hrun, hbF, hgeF⟩

theorem elitism_witness :
    ∃ s s1 s2 best best',
      sampleEngine.evaluateFitness = some s ∧ s.createNewGeneration = some s1
      ∧ s1.evaluateFitness = some s2
      ∧ s.population[0]? = some best ∧ s2.population[0]? = some best'
      ∧ best'.fitness ≥ best.fitness
      ∧ ∀ (maxGenerations : Int) (targetFitness : ℚ), ∃ final calls bestFinal,
          sampleEngine.run maxGenerations targetFitness = some (final, calls)
          ∧ final.population[0]? = some bestFinal ∧ bestFinal.fitness ≥ best.fitness :=
  elitism sampleEngine sampleEngine_ready

/-- C5: for an engine that satisfies the class invariant (so the population has `populationSize`
members), has `populationSize ≥ 1` and a mutation strength that `Pixel::mutate` accepts, and for
every state of the random source, `createNewGeneration` returns a state whose population has
exactly `populationSize` members, whose slot 0 is the former `population[0]` (same pixels, same
fitness), whose generation counter is one more, and whose target and configuration are those of
before. -/
theorem createNewGeneration_frame (s : GeneticAlgorithm) (h : s.ready) :
    ∃ s' elite,
      s.createNewGeneration = some s'
      ∧ s.population[0]? = some elite ∧ s'.population[0]? = some elite
      ∧ (s'.population.length : Int) = s.populationSize
      ∧ s'.generation = s.generation + 1
      ∧ s'.targetImage = s.targetImage ∧ s'.targetName = s.targetName
      ∧ s'.populationSize = s.populationSize ∧ s'.mutationRate = s.mutationRate
      ∧ s'.mutationStrength = s.mutationStrength ∧ s'.crossoverRate = s.crossoverRate := by
  obtain ⟨elite, rest, g, helite, hcreate, hlen, _⟩ := createNewGeneration_some s h
  exact ⟨_, elite, hcreate, helite, List.getElem?_cons_zero, hlen, rfl, rfl, rfl, rfl, rfl, rfl,
    rfl⟩

theorem createNewGeneration_frame_witness :
    ∃ s' elite,
      sampleEngine.createNewGeneration = some s'
      ∧ sampleEngine.population[0]? = some elite ∧ s'.population[0]? = some elite
      ∧ (s'.population.length : Int) = sampleEngine.populationSize
      ∧ s'.generation = sampleEngine.generation + 1
      ∧ s'.targetImage = sampleEngine.targetImage ∧ s'.targetName = sampleEngine.targetName
      ∧ s'.populationSize = sampleEngine.populationSize
      ∧ s'.mutationRate = sampleEngine.mutationRate
      ∧ s'.mutationStrength = sampleEngine.mutationStrength
      ∧ s'.crossoverRate = sampleEngine.crossoverRate :=
  createNewGeneration_frame sampleEngine sampleEngine_ready

/-! ## The states that the loop of `run` goes through -/

theorem runLoop_trace (maxGenerations : Int) (targetFitness : ℚ) (fuel : Nat) :
    ∀ s : GeneticAlgorithm, s.ready → s.evaluated →
      (maxGenerations - s.generation).toNat ≤ fuel →
      ∃ (n : Nat) (states : List GeneticAlgorithm) (final : GeneticAlgorithm)
        (best : Individual),
        GeneticAlgorithm.runLoop maxGenerations targetFitness fuel s = some (final, loopCalls n)
        ∧ states.length = n + 1 ∧ states[0]? = some s ∧ states[n]? = some final
        ∧ (∀ k, k < n → ∃ a mid b top, states[k]? = some a ∧ states[k + 1]? = some b
            ∧ a.generation = s.generation + k ∧ a.generation < maxGenerations
            ∧ a.population[0]? = some top ∧ top.fitness < targetFitness
            ∧ a.createNewGeneration = some mid ∧ mid.evaluateFitness = some b)
        ∧ final.generation = s.generation + n
        ∧ final.population[0]? = some best
        ∧ (final.generation ≥ maxGenerations ∨ best.fitness ≥ targetFitness) := by
  induction fuel with
  | zero =>
    intro s hr _ hf
    obtain ⟨best, hb⟩ := ready_head s hr
    have hg : maxGenerations ≤ s.generation := by omega
    exact ⟨0, [s], s, best, runLoop_stop_generation _ _ _ s hg, rfl, rfl, rfl,
      fun k hk => absurd hk (Nat.not_lt_zero k), by simp, hb, Or.inl hg⟩
  | succ fuel ih =>
    intro s hr he hf
    obtain ⟨best, hb⟩ := ready_head s hr
    by_cases hg : maxGenerations ≤ s.generation
    · exact ⟨0, [s], s, best, runLoop_stop_generation _ _ _ s hg, rfl, rfl, rfl,
        fun k hk => absurd hk (Nat.not_lt_zero k), by simp, hb, Or.inl hg⟩
    · by_cases hfit : targetFitness ≤ best.fitness
      · exact ⟨0, [s], s, best, runLoop_stop_fitness _ _ _ s best hb hfit, rfl, rfl, rfl,
          fun k hk => absurd hk (Nat.not_lt_zero k), by simp, hb, Or.inr hfit⟩
      · obtain ⟨s1, s2, b, b2, h1, h2, hb0, _, hb2, _, _, hr2, he2, hgen⟩ :=
          generation_step s hr he
        obtain ⟨n, states, final, bestF, hrun, hlen, h0, hn, hsteps, hfgen, hbF, hstop⟩ :=
          ih s2 hr2 he2 (by omega)
        refine ⟨n + 1, s :: states, final, bestF, ?_, ?_, List.getElem?_cons_zero, ?_, ?_, ?_, hbF,
          hstop⟩
        · rw [runLoop_step _ _ fuel s s1 s2 best (by omega) hb (not_le.mp hfit) h1 h2, hrun]
          rfl
        · rw [List.length_cons, hlen]
        · rw [List.getElem?_cons_succ]
          exact hn
        · intro k hk
          cases k with
          | zero =>
            refine ⟨s, s1, s2, best, List.getElem?_cons_zero, ?_, by simp, by omega, hb,
              not_le.mp hfit, h1, h2⟩
            rw [List.getElem?_cons_succ]
            exact h0
          | succ k =>
            obtain ⟨a, mid, c, top, ha, hc, hagen, halt, htop, hfitk, hcr, hev⟩ :=
              hsteps k (by omega)
            refine ⟨a, mid, c, top, ?_, ?_, ?_, halt, htop, hfitk, hcr, hev⟩
            · rw [List.getElem?_cons_succ]
              exact ha
            · rw [List.getElem?_cons_succ]
              exact hc
            · rw [hagen, hgen]
              push_cast
              ring
        · rw [hfgen, hgen]
          push_cast
          ring

theorem run_trace (s : GeneticAlgorithm) (h : s.ready) (maxGenerations : Int)
    (targetFitness : ℚ) :
    ∃ (s1 : GeneticAlgorithm) (first : Individual) (n : Nat) (states : List GeneticAlgorithm)
      (final : GeneticAlgorithm) (best : Individual),
      s.evaluateFitness = some s1 ∧ s1.population[0]? = some first
      ∧ s1.generation = s.generation
      ∧ s.run maxGenerations targetFitness = some (final, Call.evaluateFitness :: loopCalls n)
      ∧ states.length = n + 1 ∧ states[0]? = some s1 ∧ states[n]? = some final
      ∧ (∀ k, k < n → ∃ a mid b top, states[k]? = some a ∧ states[k + 1]? = some b
          ∧ a.generation = s.generation + k ∧ a.generation < maxGenerations
          ∧ a.population[0]? = some top ∧ top.fitness < targetFitness
          ∧ a.createNewGeneration = some mid ∧ mid.evaluateFitness = some b)
      ∧ final.generation = s.generation + n
      ∧ final.population[0]? = some best
      ∧ (final.generation ≥ maxGenerations ∨ best.fitness ≥ targetFitness) := by
  obtain ⟨l, h1, _, hr1, he1⟩ := evaluateFitness_ready s h
  obtain ⟨first, hfirst⟩ := ready_head _ hr1
  obtain ⟨n, states, final, best, hrun, hlen, h0, hn, hsteps, hgen, hb, hstop⟩ :=
    runLoop_trace maxGenerations targetFitness _ _ hr1 he1 (le_refl _)
  refine ⟨_, first, n, states, final, best, h1, hfirst, rfl, ?_, hlen, h0, hn, hsteps, hgen,
    hb, hstop⟩
  rw [run_eq s _ first maxGenerations targetFitness h1 hfirst, hrun]
  rfl

/-- C6: for an engine at generation 0 that satisfies the class invariant, has at least one member
and a mutation strength that `Pixel::mutate` accepts, `run` returns for every `maxGenerations` and
`targetFitness`. After the first `evaluateFitness` it goes through the states
`states[0], ..., states[n]`: for every `k < n` the state `states[k]` is at generation `k` and
satisfies the loop condition (`generation < maxGenerations` and
`population[0].fitness < targetFitness`), and `states[k + 1]` is the result of
`createNewGeneration` followed by `evaluateFitness` on it; the last state `states[n]` is the one
returned, is at generation `n`, and fails the loop condition. Hence `n ≤ max(0, maxGenerations)`
calls of `createNewGeneration` are made, and none exactly when the condition fails at the
start. -/
theorem run_terminates (s : GeneticAlgorithm) (h : s.ready) (hg : s.generation = 0)
    (maxGenerations : Int) (targetFitness : ℚ) :
    ∃ (s1 : GeneticAlgorithm) (first : Individual) (final : GeneticAlgorithm) (n : Nat)
      (best : Individual) (states : List GeneticAlgorithm),
      s.evaluateFitness = some s1 ∧ s1.population[0]? = some first
      ∧ s.run maxGenerations targetFitness = some (final, Call.evaluateFitness :: loopCalls n)
      ∧ (loopCalls n).count Call.createNewGeneration = n
      ∧ (n : Int) ≤ max 0 maxGenerations
      ∧ (n = 0 ↔ maxGenerations ≤ 0 ∨ targetFitness ≤ first.fitness)
      ∧ final.generation = n
      ∧ final.population[0]? = some best
      ∧ (final.generation ≥ maxGenerations ∨ best.fitness ≥ targetFitness)
      ∧ states.length = n + 1 ∧ states[0]? = some s1 ∧ states[n]? = some final
      ∧ ∀ k, k < n → ∃ a mid b top, states[k]? = some a ∧ states[k + 1]? = some b
          ∧ a.generation = k ∧ a.generation < maxGenerations
          ∧ a.population[0]? = some top ∧ top.fitness < targetFitness
          ∧ a.createNewGeneration = some mid ∧ mid.evaluateFitness = some b := by
  obtain ⟨s1, first, n, states, final, best, h1, hfirst, _, hrun, hlen, h0, hn, hsteps, hgen,
    hb, hstop⟩ := run_trace s h maxGenerations targetFitness
  rw [hg] at hgen
  refine ⟨s1, first, final, n, best, states, h1, hfirst, hrun, loopCalls_count n, ?_, ?_,
    by simpa using hgen, hb, hstop, hlen, h0, hn, ?_⟩
  · cases n with
    | zero => simp
    | succ m =>
      obtain ⟨a, _, _, _, _, _, hagen, halt, _, _, _, _⟩ := hsteps m (by omega)
      rw [hagen, hg] at halt
      have : ((m : Nat) : Int) + 1 ≤ maxGenerations := by omega
      rw [le_max_iff]
      right
      push_cast
      exact this
  · constructor
    · intro hn0
      subst hn0
      rw [h0] at hn
      have hfs : s1 = final := Option.some.inj hn
      subst hfs
      rw [hfirst] at hb
      have hbf : first = best := Option.some.inj hb
      subst hbf
      rcases hstop with hs | hs
      · left
        rw [hgen] at hs
        simpa using hs
      · right
        exact hs
    · intro hc
      by_contra hne
      obtain ⟨a, _, _, top, ha, _, hagen, halt, htop, hfit, _, _⟩ :=
        hsteps 0 (Nat.pos_of_ne_zero hne)
      rw [h0] at ha
      have has : s1 = a := Option.some.inj ha
      subst has
      rw [hfirst] at htop
      have hft : first = top := Option.some.inj htop
      subst hft
      rw [hagen, hg] at halt
      rcases hc with hc | hc
      · simp only [Nat.cast_zero, add_zero] at halt
        exact absurd hc (not_le.mpr halt)
      · exact absurd hc (not_le.mpr hfit)
  · intro k hk
    obtain ⟨a, mid, b, top, ha, hb', hagen, halt, htop, hfit, hcr, hev⟩ := hsteps k hk
    rw [hg] at hagen
    exact ⟨a, mid, b, top, ha, hb', by simpa using hagen, halt, htop, hfit, hcr, hev⟩

theorem run_terminates_witness :
    ∃ (s1 : GeneticAlgorithm) (first : Individual) (final : GeneticAlgorithm) (n : Nat)
      (best : Individual) (states : List GeneticAlgorithm),
      sampleEngine.evaluateFitness = some s1 ∧ s1.population[0]? = some first
      ∧ sampleEngine.run 5000 (96 / 100)
          = some (final, Call.evaluateFitness :: loopCalls n)
      ∧ (loopCalls n).count Call.createNewGeneration = n
      ∧ (n : Int) ≤ max 0 5000
      ∧ (n = 0 ↔ (5000 : Int) ≤ 0 ∨ (96 / 100 : ℚ) ≤ first.fitness)
      ∧ final.generation = n
      ∧ final.population[0]? = some best
      ∧ (final.generation ≥ 5000 ∨ best.fitness ≥ 96 / 100)
      ∧ states.length = n + 1 ∧ states[0]? = some s1 ∧ states[n]? = some final
      ∧ ∀ k, k < n → ∃ a mid b top, states[k]? = some a ∧ states[k + 1]? = some b
          ∧ a.generation = k ∧ a.generation < 5000
          ∧ a.population[0]? = some top ∧ top.fitness < 96 / 100
          ∧ a.createNewGeneration = some mid ∧ mid.evaluateFitness = some b :=
  run_terminates sampleEngine sampleEngine_ready rfl 5000 (96 / 100)

/-- C7 (scenario A): for an engine that satisfies the class invariant, with `populationSize ≥ 1`,
`mutationRate = 0` and `crossoverRate = 0`, and for every target and every state of the random
source, the first `evaluateFitness`, one `createNewGeneration` and one more `evaluateFitness` all
return, and the fitness of `population[0]` at the end equals the fitness of `population[0]` after
the first evaluation, which is the greatest fitness that `calculateFitness` gives to a member of
the initial population. -/
theorem scenario_A (s0 : GeneticAlgorithm) (h : s0.wf) (hpos : 1 ≤ s0.populationSize)
    (hm : s0.mutationRate = 0) (hc : s0.crossoverRate = 0) :
    ∃ s s1 s2 best best',
      s0.evaluateFitness = some s ∧ s.createNewGeneration = some s1
      ∧ s1.evaluateFitness = some s2
      ∧ s.population[0]? = some best ∧ s2.population[0]? = some best'
      ∧ best'.fitness = best.fitness
      ∧ (∃ c ∈ s0.population, ∃ c', c.calculateFitness s0.targetImage = some c'
          ∧ c'.fitness = best'.fitness)
      ∧ (∀ c ∈ s0.population, ∀ c', c.calculateFitness s0.targetImage = some c' →
          c'.fitness ≤ best'.fitness) := by
  have hr : s0.ready := ⟨h, hpos, Or.inl (le_of_eq hm)⟩
  have hsize : ∀ c ∈ s0.population, c.pixels.length ≤ s0.targetImage.length := by
    intro c hc
    rw [h.2.2.1 c hc, h.2.2.2]
  obtain ⟨l, h1, hperm, hr1, he1⟩ := evaluateFitness_ready s0 hr
  obtain ⟨s1, s2, best, best', hcr, he, hb, _, hb', _, heq, _, _, _⟩ := generation_step _ hr1 he1
  have heq' : best'.fitness = best.fitness := heq (le_of_eq hc) (le_of_eq hm)
  refine ⟨_, s1, s2, best, best', h1, hcr, he, hb, hb', heq', ?_, ?_⟩
  · obtain ⟨d, hd, hbd⟩ := List.mem_map.mp (hperm.subset (List.getElem?_mem hb))
    refine ⟨d, hd, _, calculateFitness_fitnessOf d s0.targetImage (hsize d hd), ?_⟩
    rw [heq', ← hbd]
  · intro c hcm c' hc'
    rw [calculateFitness_fitnessOf c s0.targetImage (hsize c hcm)] at hc'
    cases hc'
    rw [heq']
    exact head_fitness_ge l he1.2 best _ hb
      (hperm.symm.subset (List.mem_map.mpr ⟨c, hcm, rfl⟩))

theorem scenario_A_witness :
    ∃ s s1 s2 best best',
      scenarioEngine.evaluateFitness = some s ∧ s.createNewGeneration = some s1
      ∧ s1.evaluateFitness = some s2
      ∧ s.population[0]? = some best ∧ s2.population[0]? = some best'
      ∧ best'.fitness = best.fitness
      ∧ (∃ c ∈ scenarioEngine.population, ∃ c',
          c.calculateFitness scenarioEngine.targetImage = some c' ∧ c'.fitness = best'.fitness)
      ∧ (∀ c ∈ scenarioEngine.population, ∀ c',
          c.calculateFitness scenarioEngine.targetImage = some c' →
          c'.fitness ≤ best'.fitness) :=
  scenario_A scenarioEngine scenarioEngine_wf (by decide) rfl rfl

/-- C8 (scenario C): for an engine at generation 0 that satisfies the class invariant and has at
least one member, and for every `targetFitness`, `run` with `maxGenerations = 0` returns after
exactly one `evaluateFitness` and no `createNewGeneration`, with the generation counter still
0. -/
theorem run_zero_generations (s : GeneticAlgorithm) (h : s.wf) (hpos : 1 ≤ s.populationSize)
    (hg : s.generation = 0) (targetFitness : ℚ) :
    ∃ final, s.run 0 targetFitness = some (final, [Call.evaluateFitness])
      ∧ s.evaluateFitness = some final ∧ final.generation = 0 := by
  obtain ⟨l, h1, hperm, hwf1, _⟩ := evaluateFitness_spec s h
  have hlen : 0 < l.length := by
    have := hwf1.1
    have e : ((l.length : Nat) : Int) = s.populationSize := this
    omega
  obtain ⟨best, hb⟩ := getElem?_some_of_lt l 0 hlen
  refine ⟨_, ?_, h1, hg⟩
  have hstop := runLoop_stop_generation 0 targetFitness
    (0 - GeneticAlgorithm.generation { s with population := l }).toNat
    { s with population := l } (le_of_eq hg.symm)
  rw [run_eq s _ best 0 targetFitness h1 hb, hstop]
  rfl

theorem run_zero_generations_witness :
    ∃ final, sampleEngine.run 0 (96 / 100) = some (final, [Call.evaluateFitness])
      ∧ sampleEngine.evaluateFitness = some final ∧ final.generation = 0 :=
  run_zero_generations sampleEngine sampleEngine_wf (by decide) rfl (96 / 100)

/-- C9 (scenario B): for an engine at generation 0 that satisfies the class invariant, if a member
of the population has the pixel sequence of the target, then `calculateFitness` gives that member
fitness exactly 1, `evaluateFitness` leaves in slot 0 a member with the pixels of the target and
fitness 1, and for every `targetFitness ≤ 1` and every `maxGenerations`, `run` returns after the
first `evaluateFitness` without any `createNewGeneration`, at generation 0. -/
theorem scenario_B (s : GeneticAlgorithm) (h : s.wf) (hg : s.generation = 0) (c : Individual)
    (hc : c ∈ s.population) (hpix : c.pixels = s.targetImage) :
    (∃ c', c.calculateFitness s.targetImage = some c' ∧ c'.fitness = 1)
      ∧ ∃ s1 best, s.evaluateFitness = some s1 ∧ s1.population[0]? = some best
          ∧ best.pixels = s.targetImage ∧ best.fitness = 1
          ∧ ∀ (maxGenerations : Int) (targetFitness : ℚ), targetFitness ≤ 1 →
              s.run maxGenerations targetFitness = some (s1, [Call.evaluateFitness])
              ∧ s1.generation = 0 := by
  have hlenc : c.pixels.length = s.targetImage.length := by rw [hpix]
  have hone : fitnessOf c.pixels s.targetImage = 1 := (fitnessOf_eq_one_iff _ _ hlenc).mpr hpix
  obtain ⟨l, h1, hperm, hwf1, he1⟩ := evaluateFitness_spec s h
  have hcl : (⟨c.pixels, fitnessOf c.pixels s.targetImage⟩ : Individual) ∈ l :=
    hperm.symm.subset (List.mem_map.mpr ⟨c, hc, rfl⟩)
  obtain ⟨best, hb⟩ := getElem?_some_of_lt l 0 (List.length_pos_of_mem hcl)
  have hbmem : best ∈ l := List.getElem?_mem hb
  have hbfit : best.fitness = fitnessOf best.pixels s.targetImage := he1.1 best hbmem
  have hbone : best.fitness = 1 := by
    apply le_antisymm
    · rw [hbfit]
      exact fitnessOf_le_one _ _
    · have := head_fitness_ge l he1.2 best _ hb hcl
      rw [hone] at this
      exact this
  have hbpix : best.pixels = s.targetImage := by
    apply (fitnessOf_eq_one_iff _ _ ?_).mp (hbfit ▸ hbone)
    rw [hwf1.2.2.1 best hbmem, h.2.2.2]
  refine ⟨⟨_, calculateFitness_fitnessOf c s.targetImage (le_of_eq hlenc), hone⟩,
    _, best, h1, hb, hbpix, hbone, ?_⟩
  intro maxGenerations targetFitness htf
  refine ⟨?_, hg⟩
  have hstop := runLoop_stop_fitness maxGenerations targetFitness
    (maxGenerations - GeneticAlgorithm.generation { s with population := l }).toNat
    { s with population := l } best hb (by rw [hbone]; exact htf)
  rw [run_eq s _ best maxGenerations targetFitness h1 hb, hstop]
  rfl

theorem scenario_B_witness :
    (∃ c', (⟨blackImage, 0⟩ : Individual).calculateFitness sampleEngine.targetImage = some c'
        ∧ c'.fitness = 1)
      ∧ ∃ s1 best, sampleEngine.evaluateFitness = some s1 ∧ s1.population[0]? = some best
          ∧ best.pixels = sampleEngine.targetImage ∧ best.fitness = 1
          ∧ ∀ (maxGenerations : Int) (targetFitness : ℚ), targetFitness ≤ 1 →
              sampleEngine.run maxGenerations targetFitness = some (s1, [Call.evaluateFitness])
              ∧ s1.generation = 0 :=
  scenario_B sampleEngine sampleEngine_wf rfl ⟨blackImage, 0⟩
    (List.mem_cons_of_mem _ (List.mem_singleton_self _)) rfl

/-! ## Claims on the pixel difference -/

/-- C10: `Pixel::difference` is the sum of the absolute per-channel differences; it is symmetric,
zero on equal arguments, lies in `[0, 765]`, and is zero exactly when the two pixels agree in all
three channels. -/
theorem Pixel.difference_spec (a b : Pixel) :
    a.difference b
        = ((Int.natAbs (((a.r : Nat) : Int) - ((b.r : Nat) : Int))
            + Int.natAbs (((a.g : Nat) : Int) - ((b.g : Nat) : Int))
            + Int.natAbs (((a.b : Nat) : Int) - ((b.b : Nat) : Int)) : Nat) : Int)
      ∧ a.difference b = b.difference a
      ∧ a.difference a = 0
      ∧ 0 ≤ a.difference b ∧ a.difference b ≤ 765
      ∧ (a.difference b = 0 ↔ a.r = b.r ∧ a.g = b.g ∧ a.b = b.b) := by
  refine ⟨?_, ?_, ?_, Pixel.difference_nonneg a b, Pixel.difference_le a b, ?_⟩
  · unfold Pixel.difference
    push_cast
    simp only [Int.natCast_natAbs]
  · unfold Pixel.difference
    rw [abs_sub_comm, abs_sub_comm ((a.g : Nat) : Int), abs_sub_comm ((a.b : Nat) : Int)]
  · exact (Pixel.difference_eq_zero_iff a a).mpr rfl
  · rw [Pixel.difference_eq_zero_iff]
    constructor
    · rintro rfl
      exact ⟨rfl, rfl, rfl⟩
    · rintro ⟨h1, h2, h3⟩
      cases a
      cases b
      simp only at h1 h2 h3
      rw [h1, h2, h3]

/-! ## The draws of a mutation -/

theorem uniform_int_distribution_eq (a b : Int) (gen : mt19937) (h : a ≤ b) :
    uniform_int_distribution a b gen
      = some (a + ((gen.stream gen.index % (b - a + 1).toNat : Nat) : Int),
          ⟨gen.stream, gen.index + 1⟩) :=
  if_pos h

theorem uniform_int_distribution_onto (a b v : Int) (ha : a ≤ v) (hb : v ≤ b) (gen : mt19937)
    (hg : gen.stream gen.index = (v - a).toNat) :
    uniform_int_distribution a b gen = some (v, ⟨gen.stream, gen.index + 1⟩) := by
  rw [uniform_int_distribution_eq a b gen (by omega), hg,
    Nat.mod_eq_of_lt (by omega)]
  congr 2
  omega

theorem toUChar_clamp (x : Int) :
    (((toUChar (max 0 (min 255 x)) : Fin 256) : Nat) : Int) = min 255 (max 0 x) := by
  unfold toUChar
  simp only [Fin.val_mk]
  omega

theorem pixel_mutate_draws (p : Pixel) (gen : mt19937) (s : Int) (hs : 0 ≤ s) :
    ∃ c d q,
      uniform_int_distribution 0 2 gen = some (c, ⟨gen.stream, gen.index + 1⟩)
      ∧ uniform_int_distribution (-s) s ⟨gen.stream, gen.index + 1⟩
          = some (d, ⟨gen.stream, gen.index + 2⟩)
      ∧ (c = 0 ∨ c = 1 ∨ c = 2) ∧ -s ≤ d ∧ d ≤ s
      ∧ p.mutate gen s = some (q, ⟨gen.stream, gen.index + 2⟩)
      ∧ ((q.r : Nat) : Int)
          = (if c = 0 then min 255 (max 0 (toInt32 (((p.r : Nat) : Int) + d)))
              else ((p.r : Nat) : Int))
      ∧ ((q.g : Nat) : Int)
          = (if c = 1 then min 255 (max 0 (toInt32 (((p.g : Nat) : Int) + d)))
              else ((p.g : Nat) : Int))
      ∧ ((q.b : Nat) : Int)
          = (if c = 2 then min 255 (max 0 (toInt32 (((p.b : Nat) : Int) + d)))
              else ((p.b : Nat) : Int)) := by
  have h1 := uniform_int_distribution_eq 0 2 gen (by omega)
  have h2 := uniform_int_distribution_eq (-s) s ⟨gen.stream, gen.index + 1⟩ (by omega)
  obtain ⟨c, g1, h1', hc0, hc2⟩ := uniform_int_distribution_some 0 2 gen (by omega)
  obtain ⟨d, g2, h2', hd0, hd1⟩ :=
    uniform_int_distribution_some (-s) s ⟨gen.stream, gen.index + 1⟩ (by omega)
  rw [h1] at h1'
  rw [h2] at h2'
  simp only [Option.some.injEq, Prod.mk.injEq] at h1' h2'
  obtain ⟨hc, rfl⟩ := h1'
  obtain ⟨hd, rfl⟩ := h2'
  rw [hc] at h1
  rw [hd] at h2
  have hmut : ∀ q : Pixel,
      (match c with
        | 0 => some (({ p with
              r := toUChar (max 0 (min 255 (toInt32 (((p.r : Nat) : Int) + d)))) } : Pixel),
            (⟨gen.stream, gen.index + 1 + 1⟩ : mt19937))
        | 1 => some (({ p with
              g := toUChar (max 0 (min 255 (toInt32 (((p.g : Nat) : Int) + d)))) } : Pixel),
            (⟨gen.stream, gen.index + 1 + 1⟩ : mt19937))
        | 2 => some (({ p with
              b := toUChar (max 0 (min 255 (toInt32 (((p.b : Nat) : Int) + d)))) } : Pixel),
            (⟨gen.stream, gen.index + 1 + 1⟩ : mt19937))
        | _ => some (p, (⟨gen.stream, gen.index + 1 + 1⟩ : mt19937)))
        = some (q, ⟨gen.stream, gen.index + 2⟩) →
      p.mutate gen s = some (q, ⟨gen.stream, gen.index + 2⟩) := by
    intro q hq
    unfold Pixel.mutate
    rw [if_pos (by omega)]
    simp only [h1, h2, Option.bind_eq_bind, Option.some_bind, Option.pure_def]
    exact hq
  have hcases : c = 0 ∨ c = 1 ∨ c = 2 := by omega
  rcases hcases with rfl | rfl | rfl
  · exact ⟨0, d, _, h1, h2, Or.inl rfl, hd0, hd1, hmut _ rfl, by simp [toUChar_clamp],
      by simp, by simp⟩
  · exact ⟨1, d, _, h1, h2, Or.inr (Or.inl rfl), hd0, hd1, hmut _ rfl, by simp,
      by simp [toUChar_clamp], by simp⟩
  · exact ⟨2, d, _, h1, h2, Or.inr (Or.inr rfl), hd0, hd1, hmut _ rfl, by simp, by simp,
      by simp [toUChar_clamp]⟩

theorem uniform_real_distribution_snd (gen : mt19937) :
    (uniform_real_distribution gen).2 = ⟨gen.stream, gen.index + 1⟩ := rfl

theorem pixel_mutate_change (p : Pixel) (gen : mt19937) (s : Int) (hs : 0 ≤ s) :
    ∃ q, p.mutate gen s = some (q, ⟨gen.stream, gen.index + 2⟩)
      ∧ ((q.g = p.g ∧ q.b = p.b ∧ |((q.r : Nat) : Int) - ((p.r : Nat) : Int)| ≤ s)
        ∨ (q.r = p.r ∧ q.b = p.b ∧ |((q.g : Nat) : Int) - ((p.g : Nat) : Int)| ≤ s)
        ∨ (q.r = p.r ∧ q.g = p.g ∧ |((q.b : Nat) : Int) - ((p.b : Nat) : Int)| ≤ s)) := by
  obtain ⟨c, d, q, _, _, hc, hd0, hd1, hq, hr, hg, hb⟩ := pixel_mutate_draws p gen s hs
  refine ⟨q, hq, ?_⟩
  unfold toInt32 at hr hg hb
  have hpr := p.r.isLt
  have hpg := p.g.isLt
  have hpb := p.b.isLt
  rcases hc with rfl | rfl | rfl
  · left
    simp only [if_true, if_false, show ¬ ((0 : Int) = 1) by decide,
      show ¬ ((0 : Int) = 2) by decide] at hr hg hb
    refine ⟨Fin.ext (by exact_mod_cast hg), Fin.ext (by exact_mod_cast hb), ?_⟩
    rw [hr, abs_le]
    omega
  · right; left
    simp only [if_true, if_false, show ¬ ((1 : Int) = 0) by decide,
      show ¬ ((1 : Int) = 2) by decide] at hr hg hb
    refine ⟨Fin.ext (by exact_mod_cast hr), Fin.ext (by exact_mod_cast hb), ?_⟩
    rw [hg, abs_le]
    omega
  · right; right
    simp only [if_true, if_false, show ¬ ((2 : Int) = 0) by decide,
      show ¬ ((2 : Int) = 1) by decide] at hr hg hb
    refine ⟨Fin.ext (by exact_mod_cast hr), Fin.ext (by exact_mod_cast hg), ?_⟩
    rw [hb, abs_le]
    omega

theorem mutateLoop_rate_one (s : Int) (hs : 0 ≤ s) (pixels : List Pixel) :
    ∀ gen : mt19937, ∃ pixels',
      Individual.mutateLoop 1 s pixels gen
        = some (pixels', ⟨gen.stream, gen.index + 3 * pixels.length⟩)
      ∧ pixels'.length = pixels.length
      ∧ ∀ (i : Nat) (p : Pixel), pixels[i]? = some p →
          ∃ q, pixels'[i]? = some q
            ∧ p.mutate ⟨gen.stream, gen.index + 3 * i + 1⟩ s
                = some (q, ⟨gen.stream, gen.index + 3 * i + 3⟩) := by
  induction pixels with
  | nil =>
    intro gen
    exact ⟨[], rfl, rfl, by simp⟩
  | cons p rest ih =>
    intro gen
    obtain ⟨q, hq, _⟩ := pixel_mutate_change p ⟨gen.stream, gen.index + 1⟩ s hs
    obtain ⟨rest', hrest, hlen, hall⟩ := ih ⟨gen.stream, gen.index + 1 + 2⟩
    refine ⟨q :: rest', ?_, by simp [hlen], ?_⟩
    · unfold Individual.mutateLoop
      rw [if_pos (uniform_real_distribution_lt_one gen), uniform_real_distribution_snd]
      simp only [hq, hrest, Option.bind_eq_bind, Option.some_bind, Option.pure_def,
        List.length_cons]
      congr 3
      ring
    · intro i a hi
      cases i with
      | zero =>
        simp only [List.getElem?_cons_zero, Option.some.injEq] at hi
        subst hi
        exact ⟨q, List.getElem?_cons_zero, hq⟩
      | succ i =>
        simp only [List.getElem?_cons_succ] at hi
        obtain ⟨b, hb, hm⟩ := hall i a hi
        refine ⟨b, by simpa using hb, ?_⟩
        have e1 : gen.index + 3 * (i + 1) + 1 = gen.index + 1 + 2 + 3 * i + 1 := by ring
        have e2 : gen.index + 3 * (i + 1) + 3 = gen.index + 1 + 2 + 3 * i + 3 := by ring
        rw [e1, e2]
        exact hm

theorem mutateLoop_rate_zero (s : Int) (pixels : List Pixel) :
    ∀ gen : mt19937, Individual.mutateLoop 0 s pixels gen
      = some (pixels, ⟨gen.stream, gen.index + pixels.length⟩) := by
  induction pixels with
  | nil => intro gen; rfl
  | cons p rest ih =>
    intro gen
    unfold Individual.mutateLoop
    rw [if_neg (not_lt.mpr (uniform_real_distribution_nonneg gen)), uniform_real_distribution_snd,
      ih]
    simp only [Option.bind_eq_bind, Option.some_bind, Option.pure_def, List.length_cons]
    congr 3
    ring

/-! ## Claims on mutation -/

/-- C13: for every candidate, every mutation strength and every state of the random source,
`Individual::mutate` with `mutationRate = 0` returns the candidate unchanged (same pixel sequence,
same fitness) after one probability draw for each pixel; every probability drawn lies in
`[0, 1)`, so none is below the rate. -/
theorem mutate_rate_zero (c : Individual) (gen : mt19937) (mutationStrength : Int) :
    c.mutate gen 0 mutationStrength
        = some (c, ⟨gen.stream, gen.index + c.pixels.length⟩)
      ∧ ∀ g : mt19937, 0 ≤ (uniform_real_distribution g).1
          ∧ (uniform_real_distribution g).1 < 1 := by
  refine ⟨?_, fun g => ⟨uniform_real_distribution_nonneg g, uniform_real_distribution_lt_one g⟩⟩
  unfold Individual.mutate
  rw [mutateLoop_rate_zero]
  rfl

/-- C14: for every candidate, every strength `s ≥ 0` and every state of the random source,
`Individual::mutate` with `mutationRate = 1` returns a candidate of the same length and fitness
in which the pixel at every position `i` is the result of one call of `Pixel::mutate` on the
original pixel at `i`, the calls being made in sequence order (the call for position `i` starts
after the `3 * i + 1` draws used before it, and `3 * n` draws are used in all); every resulting
pixel differs from the original in at most one channel, and there by at most `s`. -/
theorem mutate_rate_one (c : Individual) (gen : mt19937) (s : Int) (hs : 0 ≤ s) :
    ∃ c', c.mutate gen 1 s = some (c', ⟨gen.stream, gen.index + 3 * c.pixels.length⟩)
      ∧ c'.fitness = c.fitness ∧ c'.pixels.length = c.pixels.length
      ∧ ∀ (i : Nat) (p : Pixel), c.pixels[i]? = some p →
          ∃ q, c'.pixels[i]? = some q
            ∧ p.mutate ⟨gen.stream, gen.index + 3 * i + 1⟩ s
                = some (q, ⟨gen.stream, gen.index + 3 * i + 3⟩)
            ∧ ((q.g = p.g ∧ q.b = p.b ∧ |((q.r : Nat) : Int) - ((p.r : Nat) : Int)| ≤ s)
              ∨ (q.r = p.r ∧ q.b = p.b ∧ |((q.g : Nat) : Int) - ((p.g : Nat) : Int)| ≤ s)
              ∨ (q.r = p.r ∧ q.g = p.g ∧ |((q.b : Nat) : Int) - ((p.b : Nat) : Int)| ≤ s)) := by
  obtain ⟨pixels', hloop, hlen, hall⟩ := mutateLoop_rate_one s hs c.pixels gen
  refine ⟨{ c with pixels := pixels' }, ?_, rfl, hlen, ?_⟩
  · unfold Individual.mutate
    rw [hloop]
    rfl
  · intro i p hp
    obtain ⟨q, hq, hm⟩ := hall i p hp
    obtain ⟨q', hm', hch⟩ := pixel_mutate_change p ⟨gen.stream, gen.index + 3 * i + 1⟩ s hs
    rw [hm] at hm'
    simp only [Option.some.injEq, Prod.mk.injEq] at hm'
    obtain ⟨rfl, _⟩ := hm'
    exact ⟨q, hq, hm, hch⟩

theorem mutate_rate_one_witness :
    ∃ c', (⟨blackImage, 0⟩ : Individual).mutate countingGen 1 25
        = some (c', ⟨countingGen.stream,
            countingGen.index + 3 * (⟨blackImage, 0⟩ : Individual).pixels.length⟩)
      ∧ c'.fitness = (⟨blackImage, 0⟩ : Individual).fitness
      ∧ c'.pixels.length = (⟨blackImage, 0⟩ : Individual).pixels.length
      ∧ ∀ (i : Nat) (p : Pixel), (⟨blackImage, 0⟩ : Individual).pixels[i]? = some p →
          ∃ q, c'.pixels[i]? = some q
            ∧ p.mutate ⟨countingGen.stream, countingGen.index + 3 * i + 1⟩ 25
                = some (q, ⟨countingGen.stream, countingGen.index + 3 * i + 3⟩)
            ∧ ((q.g = p.g ∧ q.b = p.b ∧ |((q.r : Nat) : Int) - ((p.r : Nat) : Int)| ≤ 25)
              ∨ (q.r = p.r ∧ q.b = p.b ∧ |((q.g : Nat) : Int) - ((p.g : Nat) : Int)| ≤ 25)
              ∨ (q.r = p.r ∧ q.g = p.g ∧ |((q.b : Nat) : Int) - ((p.b : Nat) : Int)| ≤ 25)) :=
  mutate_rate_one ⟨blackImage, 0⟩ countingGen 25 (by decide)

theorem toInt32_of_bounds (x : Int) (h0 : -2147483648 ≤ x) (h1 : x ≤ 2147483647) :
    toInt32 x = x := by
  unfold toInt32
  omega

/-- C15 (as amended): for every pixel and every strength `s` with `0 ≤ s ≤ INT_MAX`,
`Pixel::mutate` draws a channel `c` of `{0, 1, 2}` and a change `d` of `[-s, s]` and leaves the two
channels other than `c` as they were; whenever `old + d` does not exceed `INT_MAX` (as for every
`d` when `s ≤ INT_MAX - 255`) it sets channel `c` to `min(255, max(0, old + d))` computed on
integers, the stored byte being that value without reduction modulo 256. Every channel `c` of
`{0, 1, 2}` and every `d` of `[-s, s]` is drawn from some state of the random source. -/
theorem pixel_mutate_clamped (p : Pixel) (s : Int) (hs : 0 ≤ s) (hmax : s ≤ 2147483647) :
    (∀ gen : mt19937, ∃ c d q g1 g2,
      uniform_int_distribution 0 2 gen = some (c, g1)
      ∧ uniform_int_distribution (-s) s g1 = some (d, g2)
      ∧ (c = 0 ∨ c = 1 ∨ c = 2) ∧ -s ≤ d ∧ d ≤ s
      ∧ p.mutate gen s = some (q, g2)
      ∧ (c ≠ 0 → q.r = p.r) ∧ (c ≠ 1 → q.g = p.g) ∧ (c ≠ 2 → q.b = p.b)
      ∧ (c = 0 → ((p.r : Nat) : Int) + d ≤ 2147483647 →
          ((q.r : Nat) : Int) = min 255 (max 0 (((p.r : Nat) : Int) + d)))
      ∧ (c = 1 → ((p.g : Nat) : Int) + d ≤ 2147483647 →
          ((q.g : Nat) : Int) = min 255 (max 0 (((p.g : Nat) : Int) + d)))
      ∧ (c = 2 → ((p.b : Nat) : Int) + d ≤ 2147483647 →
          ((q.b : Nat) : Int) = min 255 (max 0 (((p.b : Nat) : Int) + d))))
    ∧ (s ≤ 2147483647 - 255 → ∀ d : Int, -s ≤ d → d ≤ s →
        ((p.r : Nat) : Int) + d ≤ 2147483647 ∧ ((p.g : Nat) : Int) + d ≤ 2147483647
          ∧ ((p.b : Nat) : Int) + d ≤ 2147483647)
    ∧ ∀ c d : Int, (c = 0 ∨ c = 1 ∨ c = 2) → -s ≤ d → d ≤ s →
        ∃ (gen g1 g2 : mt19937),
          uniform_int_distribution 0 2 gen = some (c, g1)
          ∧ uniform_int_distribution (-s) s g1 = some (d, g2) := by
  refine ⟨?_, ?_, ?_⟩
  · intro gen
    obtain ⟨c, d, q, h1, h2, hc, hd0, hd1, hq, hr, hg, hb⟩ := pixel_mutate_draws p gen s hs
    have hpr := p.r.isLt
    have hpg := p.g.isLt
    have hpb := p.b.isLt
    refine ⟨c, d, q, _, _, h1, h2, hc, hd0, hd1, hq, ?_, ?_, ?_, ?_, ?_, ?_⟩
    · intro h
      rw [if_neg h] at hr
      exact Fin.ext (by exact_mod_cast hr)
    · intro h
      rw [if_neg h] at hg
      exact Fin.ext (by exact_mod_cast hg)
    · intro h
      rw [if_neg h] at hb
      exact Fin.ext (by exact_mod_cast hb)
    · intro h hle
      rw [if_pos h, toInt32_of_bounds _ (by omega) hle] at hr
      exact hr
    · intro h hle
      rw [if_pos h, toInt32_of_bounds _ (by omega) hle] at hg
      exact hg
    · intro h hle
      rw [if_pos h, toInt32_of_bounds _ (by omega) hle] at hb
      exact hb
  · intro hs' d _ hd
    have hpr := p.r.isLt
    have hpg := p.g.isLt
    have hpb := p.b.isLt
    omega
  · intro c d hc hd0 hd1
    exact ⟨⟨fun n => if n = 0 then c.toNat else (d + s).toNat, 0⟩, _, _,
      uniform_int_distribution_onto 0 2 c (by omega) (by omega) _ (by simp),
      uniform_int_distribution_onto (-s) s d hd0 hd1
        ⟨fun n => if n = 0 then c.toNat else (d + s).toNat, 0 + 1⟩ (by simp)⟩

theorem pixel_mutate_clamped_witness :
    (∀ gen : mt19937, ∃ c d q g1 g2,
      uniform_int_distribution 0 2 gen = some (c, g1)
      ∧ uniform_int_distribution (-25) 25 g1 = some (d, g2)
      ∧ (c = 0 ∨ c = 1 ∨ c = 2) ∧ -25 ≤ d ∧ d ≤ 25
      ∧ (⟨250, 3, 100⟩ : Pixel).mutate gen 25 = some (q, g2)
      ∧ (c ≠ 0 → q.r = (⟨250, 3, 100⟩ : Pixel).r) ∧ (c ≠ 1 → q.g = (⟨250, 3, 100⟩ : Pixel).g)
      ∧ (c ≠ 2 → q.b = (⟨250, 3, 100⟩ : Pixel).b)
      ∧ (c = 0 → (((⟨250, 3, 100⟩ : Pixel).r : Nat) : Int) + d ≤ 2147483647 →
          ((q.r : Nat) : Int) = min 255 (max 0 ((((⟨250, 3, 100⟩ : Pixel).r : Nat) : Int) + d)))
      ∧ (c = 1 → (((⟨250, 3, 100⟩ : Pixel).g : Nat) : Int) + d ≤ 2147483647 →
          ((q.g : Nat) : Int) = min 255 (max 0 ((((⟨250, 3, 100⟩ : Pixel).g : Nat) : Int) + d)))
      ∧ (c = 2 → (((⟨250, 3, 100⟩ : Pixel).b : Nat) : Int) + d ≤ 2147483647 →
          ((q.b : Nat) : Int) = min 255 (max 0 ((((⟨250, 3, 100⟩ : Pixel).b : Nat) : Int) + d))))
    ∧ ((25 : Int) ≤ 2147483647 - 255 → ∀ d : Int, -25 ≤ d → d ≤ 25 →
        (((⟨250, 3, 100⟩ : Pixel).r : Nat) : Int) + d ≤ 2147483647
          ∧ (((⟨250, 3, 100⟩ : Pixel).g : Nat) : Int) + d ≤ 2147483647
          ∧ (((⟨250, 3, 100⟩ : Pixel).b : Nat) : Int) + d ≤ 2147483647)
    ∧ ∀ c d : Int, (c = 0 ∨ c = 1 ∨ c = 2) → -25 ≤ d → d ≤ 25 →
        ∃ (gen g1 g2 : mt19937),
          uniform_int_distribution 0 2 gen = some (c, g1)
          ∧ uniform_int_distribution (-25) 25 g1 = some (d, g2) :=
  pixel_mutate_clamped ⟨250, 3, 100⟩ 25 (by decide) (by decide)

/-- C15 (counterexample): strength `s = INT_MAX`, drawn channel 0 and drawn change
`d = 2147483646` of `[-s, s]`, on the pixel `(250, 3, 100)`: `min(255, max(0, 250 + d))` is 255,
but the `int` sum `250 + d` overflows and `Pixel::mutate` stores 0 in the red channel. -/
theorem pixel_mutate_overflow_counterexample :
    (0 : Int) ≤ 2147483647
      ∧ uniform_int_distribution 0 2 ⟨fun n => if n = 0 then 0 else 4294967293, 0⟩
          = some (0, ⟨fun n => if n = 0 then 0 else 4294967293, 1⟩)
      ∧ uniform_int_distribution (-2147483647) 2147483647
            ⟨fun n => if n = 0 then 0 else 4294967293, 1⟩
          = some (2147483646, ⟨fun n => if n = 0 then 0 else 4294967293, 2⟩)
      ∧ (⟨250, 3, 100⟩ : Pixel).mutate ⟨fun n => if n = 0 then 0 else 4294967293, 0⟩ 2147483647
          = some (⟨0, 3, 100⟩, ⟨fun n => if n = 0 then 0 else 4294967293, 2⟩)
      ∧ min (255 : Int) (max 0 ((((⟨250, 3, 100⟩ : Pixel).r : Nat) : Int) + 2147483646)) = 255 := by
  refine ⟨by decide, ?_, ?_, ?_, by decide⟩
  · rfl
  · rfl
  · rfl

/-! ## The tournament -/

theorem toSizeT_eq_toNat (x : Int) (h0 : 0 ≤ x) (h1 : x ≤ 2147483647) : toSizeT x = x.toNat := by
  unfold toSizeT
  omega

theorem selectParent_eq (s : GeneticAlgorithm) (i1 i2 i3 : Int) (g1 g2 g3 : mt19937)
    (a1 a2 a3 : Individual)
    (h1 : uniform_int_distribution 0 (s.populationSize - 1) s.gen = some (i1, g1))
    (h2 : uniform_int_distribution 0 (s.populationSize - 1) g1 = some (i2, g2))
    (h3 : uniform_int_distribution 0 (s.populationSize - 1) g2 = some (i3, g3))
    (ha1 : s.population[toSizeT i1]? = some a1) (ha2 : s.population[toSizeT i2]? = some a2)
    (ha3 : s.population[toSizeT i3]? = some a3) :
    s.selectParent
      = some (if a3.fitness > (if a2.fitness > a1.fitness then a2 else a1).fitness then a3
              else if a2.fitness > a1.fitness then a2 else a1, g3) := by
  unfold GeneticAlgorithm.selectParent
  simp only [h1, ha1, Option.bind_eq_bind, Option.some_bind, Option.pure_def]
  have hr : List.range' 1 (3 - 1) = [1, 2] := rfl
  rw [hr, List.foldlM_cons]
  simp only [h2, ha2, Option.bind_eq_bind, Option.some_bind]
  by_cases h21 : a2.fitness > a1.fitness
  · rw [if_pos h21, Option.some_bind, List.foldlM_cons]
    simp only [h3, ha3, Option.bind_eq_bind, Option.some_bind, if_pos h21]
    by_cases h32 : a3.fitness > a2.fitness
    · rw [if_pos h32, Option.some_bind, if_pos h32]
      rfl
    · rw [if_neg h32, Option.some_bind, if_neg h32]
      rfl
  · rw [if_neg h21, Option.some_bind, List.foldlM_cons]
    simp only [h3, ha3, Option.bind_eq_bind, Option.some_bind, if_neg h21]
    by_cases h31 : a3.fitness > a1.fitness
    · rw [if_pos h31, Option.some_bind, if_pos h31]
      rfl
    · rw [if_neg h31, Option.some_bind, if_neg h31]
      rfl

theorem tournament_winner (a1 a2 a3 : Individual) :
    let best := if a3.fitness > (if a2.fitness > a1.fitness then a2 else a1).fitness then a3
      else if a2.fitness > a1.fitness then a2 else a1
    (best = a1 ∨ best = a2 ∨ best = a3)
      ∧ best.fitness = max a1.fitness (max a2.fitness a3.fitness)
      ∧ (a2.fitness ≤ a1.fitness → a3.fitness ≤ a1.fitness → best = a1)
      ∧ (a1.fitness < a2.fitness → a3.fitness ≤ a2.fitness → best = a2)
      ∧ (a1.fitness < a3.fitness → a2.fitness < a3.fitness → best = a3) := by
  intro best
  by_cases h21 : a2.fitness > a1.fitness
  · by_cases h32 : a3.fitness > a2.fitness
    · have hb : best = a3 := by simp only [best, if_pos h21, if_pos h32]
      rw [hb]
      refine ⟨Or.inr (Or.inr rfl), ?_, ?_, ?_, fun _ _ => rfl⟩
      · rw [max_eq_right (le_of_lt h32), max_eq_right (le_of_lt (lt_trans h21 h32))]
      · intro h; exact absurd h21 (not_lt.mpr h)
      · intro _ h; exact absurd h32 (not_lt.mpr h)
    · have hb : best = a2 := by simp only [best, if_pos h21, if_neg h32]
      rw [hb]
      refine ⟨Or.inr (Or.inl rfl), ?_, ?_, fun _ _ => rfl, ?_⟩
      · rw [max_eq_left (not_lt.mp h32), max_eq_right (le_of_lt h21)]
      · intro h; exact absurd h21 (not_lt.mpr h)
      · intro _ h; exact absurd h h32
  · by_cases h31 : a3.fitness > a1.fitness
    · have hb : best = a3 := by simp only [best, if_neg h21, if_pos h31]
      rw [hb]
      refine ⟨Or.inr (Or.inr rfl), ?_, ?_, ?_, fun _ _ => rfl⟩
      · rw [max_eq_right (le_trans (not_lt.mp h21) (le_of_lt h31)), max_eq_right (le_of_lt h31)]
      · intro _ h; exact absurd h31 (not_lt.mpr h)
      · intro h; exact absurd h h21
    · have hb : best = a1 := by simp only [best, if_neg h21, if_neg h31]
      rw [hb]
      refine ⟨Or.inl rfl, ?_, fun _ _ => rfl, ?_, ?_⟩
      · rw [max_eq_left (max_le (not_lt.mp h21) (not_lt.mp h31))]
      · intro h; exact absurd h h21
      · intro h; exact absurd h h31

theorem population_lookup (s : GeneticAlgorithm)
    (hlen : (s.population.length : Int) = s.populationSize) (hmax : s.populationSize ≤ 2147483647)
    (i : Int) (h0 : 0 ≤ i) (h1 : i ≤ s.populationSize - 1) :
    ∃ a, s.population[toSizeT i]? = some a ∧ s.population[i.toNat]? = some a := by
  have e := toSizeT_eq_toNat i h0 (by omega)
  have hlt : i.toNat < s.population.length := by omega
  exact ⟨_, by rw [e]; exact List.getElem?_eq_getElem hlt, List.getElem?_eq_getElem hlt⟩

/-- C16: for every engine whose population has `populationSize ≥ 1` members and every state of
the random source, `selectParent` draws three indices `i1, i2, i3` of `[0, populationSize - 1]`
and returns a copy of one of `population[i1]`, `population[i2]`, `population[i3]` whose fitness
is the maximum of the three, the earliest drawn among those of maximal fitness; the only member
it changes is the generator. Every triple of indices of the range is drawn from some state of
the random source. -/
theorem selectParent_tournament (s : GeneticAlgorithm)
    (hlen : (s.population.length : Int) = s.populationSize) (hpos : 1 ≤ s.populationSize)
    (hmax : s.populationSize ≤ 2147483647) :
    (∃ i1 i2 i3 g1 g2 g3 a1 a2 a3 best,
      uniform_int_distribution 0 (s.populationSize - 1) s.gen = some (i1, g1)
      ∧ uniform_int_distribution 0 (s.populationSize - 1) g1 = some (i2, g2)
      ∧ uniform_int_distribution 0 (s.populationSize - 1) g2 = some (i3, g3)
      ∧ s.population[i1.toNat]? = some a1 ∧ s.population[i2.toNat]? = some a2
      ∧ s.population[i3.toNat]? = some a3
      ∧ s.selectParent = some (best, g3)
      ∧ (best = a1 ∨ best = a2 ∨ best = a3)
      ∧ best.fitness = max a1.fitness (max a2.fitness a3.fitness)
      ∧ (a2.fitness ≤ a1.fitness → a3.fitness ≤ a1.fitness → best = a1)
      ∧ (a1.fitness < a2.fitness → a3.fitness ≤ a2.fitness → best = a2)
      ∧ (a1.fitness < a3.fitness → a2.fitness < a3.fitness → best = a3))
    ∧ ∀ j1 j2 j3 : Nat, j1 < s.population.length → j2 < s.population.length →
        j3 < s.population.length →
        ∃ (gen g1 g2 g3 : mt19937),
          uniform_int_distribution 0 (s.populationSize - 1) gen = some ((j1 : Int), g1)
          ∧ uniform_int_distribution 0 (s.populationSize - 1) g1 = some ((j2 : Int), g2)
          ∧ uniform_int_distribution 0 (s.populationSize - 1) g2 = some ((j3 : Int), g3) := by
  constructor
  · obtain ⟨i1, g1, h1, h10, h11⟩ :=
      uniform_int_distribution_some 0 (s.populationSize - 1) s.gen (by omega)
    obtain ⟨i2, g2, h2, h20, h21⟩ :=
      uniform_int_distribution_some 0 (s.populationSize - 1) g1 (by omega)
    obtain ⟨i3, g3, h3, h30, h31⟩ :=
      uniform_int_distribution_some 0 (s.populationSize - 1) g2 (by omega)
    obtain ⟨a1, ha1, ha1'⟩ := population_lookup s hlen hmax i1 h10 h11
    obtain ⟨a2, ha2, ha2'⟩ := population_lookup s hlen hmax i2 h20 h21
    obtain ⟨a3, ha3, ha3'⟩ := population_lookup s hlen hmax i3 h30 h31
    obtain ⟨hw1, hw2, hw3, hw4, hw5⟩ := tournament_winner a1 a2 a3
    exact ⟨i1, i2, i3, g1, g2, g3, a1, a2, a3, _, h1, h2, h3, ha1', ha2', ha3',
      selectParent_eq s i1 i2 i3 g1 g2 g3 a1 a2 a3 h1 h2 h3 ha1 ha2 ha3, hw1, hw2, hw3, hw4, hw5⟩
  · intro j1 j2 j3 hj1 hj2 hj3
    refine ⟨⟨fun n => if n = 0 then j1 else if n = 1 then j2 else j3, 0⟩, _, _, _,
      uniform_int_distribution_onto 0 (s.populationSize - 1) j1 (by omega) (by omega) _ (by simp),
      uniform_int_distribution_onto 0 (s.populationSize - 1) j2 (by omega) (by omega) _ (by simp),
      uniform_int_distribution_onto 0 (s.populationSize - 1) j3 (by omega) (by omega) _ (by simp)⟩

theorem selectParent_tournament_witness :
    (∃ i1 i2 i3 g1 g2 g3 a1 a2 a3 best,
      uniform_int_distribution 0 (sampleEngine.populationSize - 1) sampleEngine.gen = some (i1, g1)
      ∧ uniform_int_distribution 0 (sampleEngine.populationSize - 1) g1 = some (i2, g2)
      ∧ uniform_int_distribution 0 (sampleEngine.populationSize - 1) g2 = some (i3, g3)
      ∧ sampleEngine.population[i1.toNat]? = some a1
      ∧ sampleEngine.population[i2.toNat]? = some a2
      ∧ sampleEngine.population[i3.toNat]? = some a3
      ∧ sampleEngine.selectParent = some (best, g3)
      ∧ (best = a1 ∨ best = a2 ∨ best = a3)
      ∧ best.fitness = max a1.fitness (max a2.fitness a3.fitness)
      ∧ (a2.fitness ≤ a1.fitness → a3.fitness ≤ a1.fitness → best = a1)
      ∧ (a1.fitness < a2.fitness → a3.fitness ≤ a2.fitness → best = a2)
      ∧ (a1.fitness < a3.fitness → a2.fitness < a3.fitness → best = a3))
    ∧ ∀ j1 j2 j3 : Nat, j1 < sampleEngine.population.length →
        j2 < sampleEngine.population.length → j3 < sampleEngine.population.length →
        ∃ (gen g1 g2 g3 : mt19937),
          uniform_int_distribution 0 (sampleEngine.populationSize - 1) gen = some ((j1 : Int), g1)
          ∧ uniform_int_distribution 0 (sampleEngine.populationSize - 1) g1
              = some ((j2 : Int), g2)
          ∧ uniform_int_distribution 0 (sampleEngine.populationSize - 1) g2
              = some ((j3 : Int), g3) :=
  selectParent_tournament sampleEngine rfl (by decide) (by decide)

/-! ## Loops that write one pixel for each index -/

theorem setPixel_eq (child : Individual) (i : Nat) (p : Pixel) (h : i < child.pixels.length) :
    child.setPixel i p = some { child with pixels := child.pixels.set i p } :=
  if_pos h

theorem foldlM_range'_set {σ : Type} (proj : σ → Individual) (step : σ → Nat → Option σ)
    (R : Nat → Pixel → Prop)
    (hstep : ∀ st i, i < 1024 → (proj st).pixels.length = 1024 →
      ∃ st1 v, step st i = some st1 ∧ (proj st1).pixels = (proj st).pixels.set i v
        ∧ (proj st1).fitness = (proj st).fitness ∧ R i v)
    (k : Nat) :
    ∀ (a : Nat) (st : σ), a + k ≤ 1024 → (proj st).pixels.length = 1024 →
      ∃ st', (List.range' a k).foldlM step st = some st'
        ∧ (proj st').pixels.length = 1024 ∧ (proj st').fitness = (proj st).fitness
        ∧ (∀ i, a ≤ i → i < a + k → ∃ v, (proj st').pixels[i]? = some v ∧ R i v)
        ∧ (∀ i, i < a ∨ a + k ≤ i → (proj st').pixels[i]? = (proj st).pixels[i]?) := by
  induction k with
  | zero =>
    intro a st _ hlen
    exact ⟨st, rfl, hlen, rfl, fun i h1 h2 => absurd h2 (by omega), fun _ _ => rfl⟩
  | succ k ih =>
    intro a st ha hlen
    obtain ⟨st1, v, hs1, hpix, hfit, hR⟩ := hstep st a (by omega) hlen
    have hlen1 : (proj st1).pixels.length = 1024 := by rw [hpix, List.length_set]; exact hlen
    obtain ⟨st', hfold, hlen', hfit', hin, hout⟩ := ih (a + 1) st1 (by omega) hlen1
    refine ⟨st', ?_, hlen', hfit'.trans hfit, ?_, ?_⟩
    · rw [List.range'_succ, List.foldlM_cons, hs1]
      exact hfold
    · intro i hi1 hi2
      by_cases hia : i = a
      · subst hia
        refine ⟨v, ?_, hR⟩
        rw [hout i (Or.inl (by omega)), hpix]
        exact List.getElem?_set_self (by omega)
      · exact hin i (by omega) (by omega)
    · intro i hi
      rw [hout i (by omega), hpix]
      exact List.getElem?_set_ne (by omega)

theorem foldlM_range_set {σ : Type} (proj : σ → Individual) (step : σ → Nat → Option σ)
    (R : Nat → Pixel → Prop)
    (hstep : ∀ st i, i < 1024 → (proj st).pixels.length = 1024 →
      ∃ st1 v, step st i = some st1 ∧ (proj st1).pixels = (proj st).pixels.set i v
        ∧ (proj st1).fitness = (proj st).fitness ∧ R i v)
    (st : σ) (hlen : (proj st).pixels.length = 1024) :
    ∃ st', (List.range 1024).foldlM step st = some st'
      ∧ (proj st').pixels.length = 1024 ∧ (proj st').fitness = (proj st).fitness
      ∧ ∀ i, i < 1024 → ∃ v, (proj st').pixels[i]? = some v ∧ R i v := by
  obtain ⟨st', hfold, hlen', hfit, hin, _⟩ :=
    foldlM_range'_set proj step R hstep 1024 0 st (by omega) hlen
  refine ⟨st', ?_, hlen', hfit, fun i hi => hin i (by omega) (by omega)⟩
  rw [List.range_eq_range']
  exact hfold

/-! ## The three strategies of `crossover`, position by position -/

theorem crossoverUniform_spec (parent1 parent2 child : Individual) (gen : mt19937)
    (h1 : parent1.pixels.length = 1024) (h2 : parent2.pixels.length = 1024)
    (hc : child.pixels.length = 1024) :
    ∃ child' gen', Individual.crossoverUniform parent1 parent2 child gen = some (child', gen')
      ∧ child'.pixels.length = 1024 ∧ child'.fitness = child.fitness
      ∧ ∀ i, i < 1024 → ∃ v, child'.pixels[i]? = some v
          ∧ (parent1.pixels[i]? = some v ∨ parent2.pixels[i]? = some v) := by
  unfold Individual.crossoverUniform
  rw [hc]
  obtain ⟨st, hst, hlen, hfit, hall⟩ := foldlM_range_set (fun st : Individual × mt19937 => st.1)
    (fun (st : Individual × mt19937) (i : Nat) => do
      let (choice, gen) ← uniform_int_distribution 0 1 st.2
      if choice = 0 then
        let p ← parent1.pixels[i]?
        let child ← st.1.setPixel i p
        pure (child, gen)
      else
        let p ← parent2.pixels[i]?
        let child ← st.1.setPixel i p
        pure (child, gen))
    (fun i v => parent1.pixels[i]? = some v ∨ parent2.pixels[i]? = some v)
    (by
      intro st i hi hlen
      have hlen' : st.1.pixels.length = 1024 := hlen
      obtain ⟨v, g, hv, _, _⟩ := uniform_int_distribution_some 0 1 st.2 (by omega)
      obtain ⟨a1, ha1⟩ := getElem?_some_of_lt parent1.pixels i (by omega)
      obtain ⟨a2, ha2⟩ := getElem?_some_of_lt parent2.pixels i (by omega)
      simp only [hv, Option.bind_eq_bind, Option.some_bind, Option.pure_def]
      split
      · exact ⟨({ st.1 with pixels := st.1.pixels.set i a1 }, g), a1,
          by simp [ha1, setPixel_eq st.1 i a1 (by omega)], rfl, rfl, Or.inl ha1⟩
      · exact ⟨({ st.1 with pixels := st.1.pixels.set i a2 }, g), a2,
          by simp [ha2, setPixel_eq st.1 i a2 (by omega)], rfl, rfl, Or.inr ha2⟩)
    (child, gen) hc
  exact ⟨st.1, st.2, hst, hlen, hfit, hall⟩

theorem copyLoop_spec (parent : Individual) (h : parent.pixels.length = 1024) (a k : Nat)
    (hk : a + k ≤ 1024) (child : Individual) (hc : child.pixels.length = 1024) :
    ∃ child', (List.range' a k).foldlM
        (fun (child : Individual) (i : Nat) => do
          let p ← parent.pixels[i]?
          child.setPixel i p) child = some child'
      ∧ child'.pixels.length = 1024 ∧ child'.fitness = child.fitness
      ∧ (∀ i, a ≤ i → i < a + k → child'.pixels[i]? = parent.pixels[i]?)
      ∧ (∀ i, i < a ∨ a + k ≤ i → child'.pixels[i]? = child.pixels[i]?) := by
  obtain ⟨st, hst, hlen, hfit, hin, hout⟩ := foldlM_range'_set (fun st : Individual => st)
    (fun (child : Individual) (i : Nat) => do
      let p ← parent.pixels[i]?
      child.setPixel i p)
    (fun i v => parent.pixels[i]? = some v)
    (by
      intro st i hi hlen
      have hlen' : st.pixels.length = 1024 := hlen
      obtain ⟨p, hp⟩ := getElem?_some_of_lt parent.pixels i (by omega)
      exact ⟨{ st with pixels := st.pixels.set i p }, p,
        by simp [hp, setPixel_eq st i p (by omega)], rfl, rfl, hp⟩)
    k a child hk hc
  refine ⟨st, hst, hlen, hfit, ?_, hout⟩
  intro i hi1 hi2
  obtain ⟨v, hv, hR⟩ := hin i hi1 hi2
  rw [hv, hR]

theorem crossoverSinglePoint_spec (parent1 parent2 child : Individual) (splitPoint : Nat)
    (h1 : parent1.pixels.length = 1024) (h2 : parent2.pixels.length = 1024)
    (hc : child.pixels.length = 1024) (hs : splitPoint ≤ 1024) :
    ∃ child', Individual.crossoverSinglePoint parent1 parent2 child splitPoint = some child'
      ∧ child'.pixels = parent1.pixels.take splitPoint ++ parent2.pixels.drop splitPoint
      ∧ child'.fitness = child.fitness := by
  obtain ⟨c1, hc1, hl1, hf1, hin1, hout1⟩ :=
    copyLoop_spec parent1 h1 0 splitPoint (by omega) child hc
  obtain ⟨c2, hc2, hl2, hf2, hin2, hout2⟩ :=
    copyLoop_spec parent2 h2 splitPoint (1024 - splitPoint) (by omega) c1 hl1
  refine ⟨c2, ?_, ?_, hf2.trans hf1⟩
  · unfold Individual.crossoverSinglePoint
    rw [List.range_eq_range']
    simp only [Option.bind_eq_bind] at hc1 hc2 ⊢
    rw [hc1, Option.some_bind, hl1]
    exact hc2
  · apply List.ext_getElem?
    intro n
    have htake : (parent1.pixels.take splitPoint).length = splitPoint := by
      rw [List.length_take]
      omega
    by_cases hn : n < splitPoint
    · rw [hout2 n (Or.inl hn), hin1 n (by omega) (by omega),
        List.getElem?_append_left (by omega), List.getElem?_take_of_lt hn]
    · by_cases hn2 : n < 1024
      · rw [hin2 n (by omega) (by omega), List.getElem?_append_right (by omega), htake,
          List.getElem?_drop]
        congr 1
        omega
      · rw [List.getElem?_eq_none (by omega), List.getElem?_eq_none]
        rw [List.length_append, htake, List.length_drop]
        omega

theorem toUChar_average (x y : Nat) (hx : x < 256) (hy : y < 256) :
    ((toUChar (((x : Int) + (y : Int)) / 2) : Fin 256) : Nat) = (x + y) / 2 := by
  unfold toUChar
  simp only [Fin.val_mk]
  omega

theorem crossoverAverage_spec (parent1 parent2 child : Individual)
    (h1 : parent1.pixels.length = 1024) (h2 : parent2.pixels.length = 1024)
    (hc : child.pixels.length = 1024) :
    ∃ child', Individual.crossoverAverage parent1 parent2 child = some child'
      ∧ child'.pixels.length = 1024 ∧ child'.fitness = child.fitness
      ∧ ∀ i, i < 1024 → ∃ a b v, parent1.pixels[i]? = some a ∧ parent2.pixels[i]? = some b
          ∧ child'.pixels[i]? = some v
          ∧ (v.r : Nat) = ((a.r : Nat) + (b.r : Nat)) / 2
          ∧ (v.g : Nat) = ((a.g : Nat) + (b.g : Nat)) / 2
          ∧ (v.b : Nat) = ((a.b : Nat) + (b.b : Nat)) / 2 := by
  unfold Individual.crossoverAverage
  rw [hc]
  obtain ⟨st, hst, hlen, hfit, hall⟩ := foldlM_range_set (fun st : Individual => st)
    (fun (child : Individual) (i : Nat) => do
      let p1 ← parent1.pixels[i]?
      let p2 ← parent2.pixels[i]?
      child.setPixel i
        ⟨toUChar ((((p1.r : Nat) : Int) + ((p2.r : Nat) : Int)) / 2),
         toUChar ((((p1.g : Nat) : Int) + ((p2.g : Nat) : Int)) / 2),
         toUChar ((((p1.b : Nat) : Int) + ((p2.b : Nat) : Int)) / 2)⟩)
    (fun i v => ∃ a b, parent1.pixels[i]? = some a ∧ parent2.pixels[i]? = some b
      ∧ (v.r : Nat) = ((a.r : Nat) + (b.r : Nat)) / 2
      ∧ (v.g : Nat) = ((a.g : Nat) + (b.g : Nat)) / 2
      ∧ (v.b : Nat) = ((a.b : Nat) + (b.b : Nat)) / 2)
    (by
      intro st i hi hlen
      have hlen' : st.pixels.length = 1024 := hlen
      obtain ⟨a, ha⟩ := getElem?_some_of_lt parent1.pixels i (by omega)
      obtain ⟨b, hb⟩ := getElem?_some_of_lt parent2.pixels i (by omega)
      refine ⟨Individual.mk (st.pixels.set i
          (Pixel.mk (toUChar ((((a.r : Nat) : Int) + ((b.r : Nat) : Int)) / 2))
           (toUChar ((((a.g : Nat) : Int) + ((b.g : Nat) : Int)) / 2))
           (toUChar ((((a.b : Nat) : Int) + ((b.b : Nat) : Int)) / 2)))) st.fitness, _, ?_,
        rfl, rfl,
        a, b, ha, hb, toUChar_average _ _ a.r.isLt b.r.isLt,
        toUChar_average _ _ a.g.isLt b.g.isLt, toUChar_average _ _ a.b.isLt b.b.isLt⟩
      simp only [ha, hb, Option.bind_eq_bind, Option.some_bind]
      exact setPixel_eq st i _ (by omega))
    child hc
  refine ⟨st, hst, hlen, hfit, ?_⟩
  intro i hi
  obtain ⟨v, hv, a, b, ha, hb, hr, hg, hbb⟩ := hall i hi
  exact ⟨a, b, v, ha, hb, hv, hr, hg, hbb⟩

theorem crossover_method (parent1 parent2 : Individual) (gen : mt19937) :
    ∃ method g1, uniform_int_distribution 0 2 gen = some (method, g1)
      ∧ ((method = 0 ∧ Individual.crossover parent1 parent2 gen
            = Individual.crossoverUniform parent1 parent2 Individual.new g1)
        ∨ (method = 1 ∧ ∃ split g2,
            uniform_int_distribution 0 1023 g1 = some (split, g2) ∧ toSizeT split ≤ 1023
            ∧ Individual.crossover parent1 parent2 gen
              = (Individual.crossoverSinglePoint parent1 parent2 Individual.new
                  (toSizeT split)).map fun child => (child, g2))
        ∨ (method = 2 ∧ Individual.crossover parent1 parent2 gen
            = (Individual.crossoverAverage parent1 parent2 Individual.new).map
                fun child => (child, g1))) := by
  obtain ⟨m, g1, hm, hm0, hm2⟩ := uniform_int_distribution_some 0 2 gen (by omega)
  refine ⟨m, g1, hm, ?_⟩
  have hcases : m = 0 ∨ m = 1 ∨ m = 2 := by omega
  rcases hcases with rfl | rfl | rfl
  · left
    refine ⟨rfl, ?_⟩
    unfold Individual.crossover
    simp only [hm, Option.bind_eq_bind, Option.some_bind]
  · right; left
    obtain ⟨v, g2, hv, hv0, hv1⟩ := uniform_int_distribution_some 0 1023 g1 (by omega)
    refine ⟨rfl, v, g2, hv, by unfold toSizeT; omega, ?_⟩
    unfold Individual.crossover
    have e : ((Individual.new.pixels.length : Nat) : Int) - 1 = 1023 := by
      rw [Individual.new_length]
      rfl
    simp only [hm, e, hv, Option.bind_eq_bind, Option.some_bind, Option.pure_def]
    cases Individual.crossoverSinglePoint parent1 parent2 Individual.new (toSizeT v) <;> rfl
  · right; right
    refine ⟨rfl, ?_⟩
    unfold Individual.crossover
    simp only [hm, Option.bind_eq_bind, Option.some_bind, Option.pure_def]
    cases Individual.crossoverAverage parent1 parent2 Individual.new <;> rfl

theorem individual_eta (c : Individual) (pixels : List Pixel) (fitness : ℚ)
    (hp : c.pixels = pixels) (hf : c.fitness = fitness) : c = ⟨pixels, fitness⟩ := by
  cases c
  simp only at hp hf
  rw [hp, hf]

/-! ## Claims on crossover -/

/-- C11: for parents of 1024 pixels each, the single-point strategy of `crossover` (the two loops
of case 1, copying `parent1` below the split index and `parent2` from the split index on) gives,
for every split index up to 1024, the first `split` pixels of `parent1` followed by the pixels of
`parent2` from position `split`; with split index 0 the child has the pixel sequence of `parent2`,
with split index 1024 that of `parent1`. -/
theorem crossoverSinglePoint_extremes (parent1 parent2 : Individual)
    (h1 : parent1.pixels.length = 1024) (h2 : parent2.pixels.length = 1024) :
    Individual.crossoverSinglePoint parent1 parent2 Individual.new 0 = some ⟨parent2.pixels, 0⟩
      ∧ Individual.crossoverSinglePoint parent1 parent2 Individual.new 1024
          = some ⟨parent1.pixels, 0⟩
      ∧ ∀ split, split ≤ 1024 →
          Individual.crossoverSinglePoint parent1 parent2 Individual.new split
            = some ⟨parent1.pixels.take split ++ parent2.pixels.drop split, 0⟩ := by
  have hgen : ∀ split, split ≤ 1024 →
      Individual.crossoverSinglePoint parent1 parent2 Individual.new split
        = some ⟨parent1.pixels.take split ++ parent2.pixels.drop split, 0⟩ := by
    intro split hs
    obtain ⟨c, hc, hpix, hfit⟩ := crossoverSinglePoint_spec parent1 parent2 Individual.new split
      h1 h2 Individual.new_length hs
    rw [hc, individual_eta c _ 0 hpix hfit]
  refine ⟨?_, ?_, hgen⟩
  · rw [hgen 0 (by omega), List.take_zero, List.drop_zero, List.nil_append]
  · rw [hgen 1024 (by omega), List.take_of_length_le (by omega),
      List.drop_of_length_le (by omega), List.append_nil]

theorem crossoverSinglePoint_extremes_witness :
    Individual.crossoverSinglePoint ⟨whiteImage, 0⟩ ⟨blackImage, 0⟩ Individual.new 0
        = some ⟨(⟨blackImage, 0⟩ : Individual).pixels, 0⟩
      ∧ Individual.crossoverSinglePoint ⟨whiteImage, 0⟩ ⟨blackImage, 0⟩ Individual.new 1024
          = some ⟨(⟨whiteImage, 0⟩ : Individual).pixels, 0⟩
      ∧ ∀ split, split ≤ 1024 →
          Individual.crossoverSinglePoint ⟨whiteImage, 0⟩ ⟨blackImage, 0⟩ Individual.new split
            = some ⟨(⟨whiteImage, 0⟩ : Individual).pixels.take split
                ++ (⟨blackImage, 0⟩ : Individual).pixels.drop split, 0⟩ :=
  crossoverSinglePoint_extremes ⟨whiteImage, 0⟩ ⟨blackImage, 0⟩ whiteImage_length
    blackImage_length

theorem pixels_eq_of_getElem? (l₁ l₂ : List Pixel) (h1 : l₁.length = 1024)
    (h2 : l₂.length = 1024) (h : ∀ i, i < 1024 → l₁[i]? = l₂[i]?) : l₁ = l₂ := by
  apply List.ext_getElem?
  intro n
  by_cases hn : n < 1024
  · exact h n hn
  · rw [List.getElem?_eq_none (by omega), List.getElem?_eq_none (by omega)]

theorem pixel_eq_of_channels (v a : Pixel) (hr : (v.r : Nat) = (a.r : Nat))
    (hg : (v.g : Nat) = (a.g : Nat)) (hb : (v.b : Nat) = (a.b : Nat)) : v = a := by
  cases v
  cases a
  simp only at hr hg hb
  rw [Fin.ext hr, Fin.ext hg, Fin.ext hb]

/-- C12: for parents of 1024 pixels each, the average strategy of `crossover` (the loop of case 2)
gives a child of 1024 pixels in which every channel of every pixel is `(a + b) / 2`, rounded down,
of the two parents' channels at that position, computed on integers and stored without reduction
modulo 256; applied to `(x, x)` it gives the pixel sequence of `x`. -/
theorem crossoverAverage_channels (parent1 parent2 : Individual)
    (h1 : parent1.pixels.length = 1024) (h2 : parent2.pixels.length = 1024) :
    ∃ child, Individual.crossoverAverage parent1 parent2 Individual.new = some child
      ∧ child.pixels.length = 1024 ∧ child.fitness = 0
      ∧ (∀ i, i < 1024 → ∃ a b v, parent1.pixels[i]? = some a ∧ parent2.pixels[i]? = some b
          ∧ child.pixels[i]? = some v
          ∧ (v.r : Nat) = ((a.r : Nat) + (b.r : Nat)) / 2
          ∧ (v.g : Nat) = ((a.g : Nat) + (b.g : Nat)) / 2
          ∧ (v.b : Nat) = ((a.b : Nat) + (b.b : Nat)) / 2)
      ∧ (parent1.pixels = parent2.pixels → child.pixels = parent1.pixels) := by
  obtain ⟨child, hc, hlen, hfit, hall⟩ :=
    crossoverAverage_spec parent1 parent2 Individual.new h1 h2 Individual.new_length
  refine ⟨child, hc, hlen, hfit, hall, ?_⟩
  intro heq
  apply pixels_eq_of_getElem? _ _ hlen h1
  intro i hi
  obtain ⟨a, b, v, ha, hb, hv, hr, hg, hbb⟩ := hall i hi
  rw [← heq, ha] at hb
  cases hb
  rw [hv, ha]
  exact congrArg some (pixel_eq_of_channels v a (by omega) (by omega) (by omega))

theorem crossoverAverage_channels_witness :
    ∃ child, Individual.crossoverAverage ⟨whiteImage, 0⟩ ⟨blackImage, 0⟩ Individual.new
        = some child
      ∧ child.pixels.length = 1024 ∧ child.fitness = 0
      ∧ (∀ i, i < 1024 → ∃ a b v, (⟨whiteImage, 0⟩ : Individual).pixels[i]? = some a
          ∧ (⟨blackImage, 0⟩ : Individual).pixels[i]? = some b
          ∧ child.pixels[i]? = some v
          ∧ (v.r : Nat) = ((a.r : Nat) + (b.r : Nat)) / 2
          ∧ (v.g : Nat) = ((a.g : Nat) + (b.g : Nat)) / 2
          ∧ (v.b : Nat) = ((a.b : Nat) + (b.b : Nat)) / 2)
      ∧ ((⟨whiteImage, 0⟩ : Individual).pixels = (⟨blackImage, 0⟩ : Individual).pixels →
          child.pixels = (⟨whiteImage, 0⟩ : Individual).pixels) :=
  crossoverAverage_channels ⟨whiteImage, 0⟩ ⟨blackImage, 0⟩ whiteImage_length blackImage_length

/-- C19: for parents of 1024 pixels each and every state of the random source (hence every
strategy drawn), `crossover` returns a child of exactly 1024 pixels and fitness `0.0`, in which
every channel of every pixel lies between the two parents' channels at that position; when the
two parents have the same pixel sequence the child has it too. Each of the three strategies is
drawn from some state of the random source. -/
theorem crossover_between (parent1 parent2 : Individual)
    (h1 : parent1.pixels.length = 1024) (h2 : parent2.pixels.length = 1024) :
    (∀ gen : mt19937, ∃ child gen',
      Individual.crossover parent1 parent2 gen = some (child, gen')
      ∧ child.pixels.length = 1024 ∧ child.fitness = 0
      ∧ (∀ i, i < 1024 → ∃ a b v, parent1.pixels[i]? = some a ∧ parent2.pixels[i]? = some b
          ∧ child.pixels[i]? = some v
          ∧ min (a.r : Nat) (b.r : Nat) ≤ (v.r : Nat) ∧ (v.r : Nat) ≤ max (a.r : Nat) (b.r : Nat)
          ∧ min (a.g : Nat) (b.g : Nat) ≤ (v.g : Nat) ∧ (v.g : Nat) ≤ max (a.g : Nat) (b.g : Nat)
          ∧ min (a.b : Nat) (b.b : Nat) ≤ (v.b : Nat) ∧ (v.b : Nat) ≤ max (a.b : Nat) (b.b : Nat))
      ∧ (parent1.pixels = parent2.pixels → child.pixels = parent1.pixels))
    ∧ ∀ method : Int, method = 0 ∨ method = 1 ∨ method = 2 →
        ∃ gen g1, uniform_int_distribution 0 2 gen = some (method, g1) := by
  constructor
  · intro gen
    have hkey : ∃ child gen', Individual.crossover parent1 parent2 gen = some (child, gen')
        ∧ child.pixels.length = 1024 ∧ child.fitness = 0
        ∧ ∀ i, i < 1024 → ∃ a b v, parent1.pixels[i]? = some a ∧ parent2.pixels[i]? = some b
          ∧ child.pixels[i]? = some v
          ∧ min (a.r : Nat) (b.r : Nat) ≤ (v.r : Nat) ∧ (v.r : Nat) ≤ max (a.r : Nat) (b.r : Nat)
          ∧ min (a.g : Nat) (b.g : Nat) ≤ (v.g : Nat) ∧ (v.g : Nat) ≤ max (a.g : Nat) (b.g : Nat)
          ∧ min (a.b : Nat) (b.b : Nat) ≤ (v.b : Nat)
          ∧ (v.b : Nat) ≤ max (a.b : Nat) (b.b : Nat) := by
      have hcopy : ∀ (a b v : Pixel), v = a ∨ v = b →
          min (a.r : Nat) (b.r : Nat) ≤ (v.r : Nat) ∧ (v.r : Nat) ≤ max (a.r : Nat) (b.r : Nat)
          ∧ min (a.g : Nat) (b.g : Nat) ≤ (v.g : Nat) ∧ (v.g : Nat) ≤ max (a.g : Nat) (b.g : Nat)
          ∧ min (a.b : Nat) (b.b : Nat) ≤ (v.b : Nat)
          ∧ (v.b : Nat) ≤ max (a.b : Nat) (b.b : Nat) := by
        intro a b v hv
        rcases hv with rfl | rfl <;> simp
      obtain ⟨m, g1, _, hm⟩ := crossover_method parent1 parent2 gen
      rcases hm with ⟨_, hcross⟩ | ⟨_, split, g2, _, hsplit, hcross⟩ | ⟨_, hcross⟩
      · obtain ⟨child, gen', hc, hlen, hfit, hall⟩ :=
          crossoverUniform_spec parent1 parent2 Individual.new g1 h1 h2 Individual.new_length
        refine ⟨child, gen', hcross.trans hc, hlen, hfit, ?_⟩
        intro i hi
        obtain ⟨v, hv, hor⟩ := hall i hi
        obtain ⟨a, ha⟩ := getElem?_some_of_lt parent1.pixels i (by omega)
        obtain ⟨b, hb⟩ := getElem?_some_of_lt parent2.pixels i (by omega)
        refine ⟨a, b, v, ha, hb, hv, hcopy a b v ?_⟩
        rcases hor with h | h
        · rw [ha] at h
          exact Or.inl (Option.some.inj h).symm
        · rw [hb] at h
          exact Or.inr (Option.some.inj h).symm
      · obtain ⟨child, hc, hpix, hfit⟩ := crossoverSinglePoint_spec parent1 parent2
          Individual.new (toSizeT split) h1 h2 Individual.new_length (by omega)
        have hlen : child.pixels.length = 1024 := by
          rw [hpix, List.length_append, List.length_take, List.length_drop]
          omega
        refine ⟨child, g2, by rw [hcross, hc]; rfl, hlen, hfit, ?_⟩
        intro i hi
        obtain ⟨a, ha⟩ := getElem?_some_of_lt parent1.pixels i (by omega)
        obtain ⟨b, hb⟩ := getElem?_some_of_lt parent2.pixels i (by omega)
        have htake : (parent1.pixels.take (toSizeT split)).length = toSizeT split := by
          rw [List.length_take]
          omega
        by_cases his : i < toSizeT split
        · refine ⟨a, b, a, ha, hb, ?_, hcopy a b a (Or.inl rfl)⟩
          rw [hpix, List.getElem?_append_left (by omega), List.getElem?_take_of_lt his, ha]
        · refine ⟨a, b, b, ha, hb, ?_, hcopy a b b (Or.inr rfl)⟩
          rw [hpix, List.getElem?_append_right (by omega), htake, List.getElem?_drop, ← hb]
          congr 1
          omega
      · obtain ⟨child, hc, hlen, hfit, hall⟩ :=
          crossoverAverage_spec parent1 parent2 Individual.new h1 h2 Individual.new_length
        refine ⟨child, g1, by rw [hcross, hc]; rfl, hlen, hfit, ?_⟩
        intro i hi
        obtain ⟨a, b, v, ha, hb, hv, hr, hg, hbb⟩ := hall i hi
        refine ⟨a, b, v, ha, hb, hv, ?_⟩
        simp only [Nat.min_def, Nat.max_def]
        refine ⟨?_, ?_, ?_, ?_, ?_, ?_⟩ <;> split <;> omega
    obtain ⟨child, gen', hc, hlen, hfit, hall⟩ := hkey
    refine ⟨child, gen', hc, hlen, hfit, hall, ?_⟩
    intro heq
    apply pixels_eq_of_getElem? _ _ hlen h1
    intro i hi
    obtain ⟨a, b, v, ha, hb, hv, hr1, hr2, hg1, hg2, hb1, hb2⟩ := hall i hi
    rw [← heq, ha] at hb
    have hab : a = b := Option.some.inj hb
    subst hab
    rw [hv, ha]
    simp only [min_self, max_self] at hr1 hr2 hg1 hg2 hb1 hb2
    exact congrArg some (pixel_eq_of_channels v a (by omega) (by omega) (by omega))
  · intro method hm
    exact ⟨⟨fun _ => method.toNat, 0⟩, _,
      uniform_int_distribution_onto 0 2 method (by omega) (by omega) _ (by simp)⟩

theorem crossover_between_witness :
    (∀ gen : mt19937, ∃ child gen',
      Individual.crossover ⟨whiteImage, 0⟩ ⟨blackImage, 0⟩ gen = some (child, gen')
      ∧ child.pixels.length = 1024 ∧ child.fitness = 0
      ∧ (∀ i, i < 1024 → ∃ a b v, (⟨whiteImage, 0⟩ : Individual).pixels[i]? = some a
          ∧ (⟨blackImage, 0⟩ : Individual).pixels[i]? = some b
          ∧ child.pixels[i]? = some v
          ∧ min (a.r : Nat) (b.r : Nat) ≤ (v.r : Nat) ∧ (v.r : Nat) ≤ max (a.r : Nat) (b.r : Nat)
          ∧ min (a.g : Nat) (b.g : Nat) ≤ (v.g : Nat) ∧ (v.g : Nat) ≤ max (a.g : Nat) (b.g : Nat)
          ∧ min (a.b : Nat) (b.b : Nat) ≤ (v.b : Nat) ∧ (v.b : Nat) ≤ max (a.b : Nat) (b.b : Nat))
      ∧ ((⟨whiteImage, 0⟩ : Individual).pixels = (⟨blackImage, 0⟩ : Individual).pixels →
          child.pixels = (⟨whiteImage, 0⟩ : Individual).pixels))
    ∧ ∀ method : Int, method = 0 ∨ method = 1 ∨ method = 2 →
        ∃ gen g1, uniform_int_distribution 0 2 gen = some (method, g1) :=
  crossover_between ⟨whiteImage, 0⟩ ⟨blackImage, 0⟩ whiteImage_length blackImage_length

/-! ## Evaluation against a target of another length -/

theorem sumDiff_take (pixels target : List Pixel) (n : Nat) :
    sumDiff pixels (target.take n) n = sumDiff pixels target n := by
  unfold sumDiff
  apply Finset.sum_congr rfl
  intro i hi
  have hi' : i < n := Finset.mem_range.mp hi
  have e : (target.take n).getD i Pixel.new = target.getD i Pixel.new := by
    simp only [List.getD_eq_getElem?_getD, List.getElem?_take_of_lt hi']
  rw [e]

theorem length_le_append (l₁ l₂ : List Pixel) : l₁.length ≤ (l₁ ++ l₂).length := by
  rw [List.length_append]
  exact Nat.le_add_right _ _

/-- C17 (as amended): `calculateFitness` makes no check of the length of the target. Against a
target at least as long as the candidate it returns, with the candidate's pixels and the fitness
of the comparison with the first `pixels.size()` units of the target only; so when those first
units equal the candidate's pixels the fitness is exactly 1, whatever follows in the target. -/
theorem calculateFitness_truncates (c : Individual) (target : List Pixel)
    (h : c.pixels.length ≤ target.length) :
    ∃ c', c.calculateFitness target = some c'
      ∧ c.calculateFitness (target.take c.pixels.length) = some c'
      ∧ c'.pixels = c.pixels
      ∧ (target.take c.pixels.length = c.pixels → c'.fitness = 1) := by
  have hlen : (target.take c.pixels.length).length = c.pixels.length := by
    rw [List.length_take]
    omega
  refine ⟨_, calculateFitness_eq c target h, ?_, rfl, ?_⟩
  · rw [calculateFitness_eq c _ (le_of_eq hlen.symm), sumDiff_take]
  · intro heq
    show roundDouble (1 - roundDouble (sumDiff c.pixels target c.pixels.length / 783360)) = 1
    rw [← sumDiff_take]
    exact (fitnessOf_eq_one_iff c.pixels _ hlen.symm).mpr heq.symm

theorem calculateFitness_truncates_witness :
    ∃ c', (⟨blackImage, 0⟩ : Individual).calculateFitness (blackImage ++ whiteImage) = some c'
      ∧ (⟨blackImage, 0⟩ : Individual).calculateFitness
          ((blackImage ++ whiteImage).take (⟨blackImage, 0⟩ : Individual).pixels.length) = some c'
      ∧ c'.pixels = (⟨blackImage, 0⟩ : Individual).pixels
      ∧ ((blackImage ++ whiteImage).take (⟨blackImage, 0⟩ : Individual).pixels.length
            = (⟨blackImage, 0⟩ : Individual).pixels → c'.fitness = 1) :=
  calculateFitness_truncates ⟨blackImage, 0⟩ (blackImage ++ whiteImage)
    (length_le_append blackImage whiteImage)

/-- C17 (counterexample): the all-black candidate of 1024 pixels against a target of 2048 pixels,
1024 black ones followed by 1024 white ones: the lengths differ, yet `calculateFitness` returns a
result, with fitness exactly 1. -/
theorem calculateFitness_fail_fast_counterexample :
    (⟨blackImage, 0⟩ : Individual).pixels.length = 1024
      ∧ (blackImage ++ whiteImage).length = 2048
      ∧ (⟨blackImage, 0⟩ : Individual).calculateFitness (blackImage ++ whiteImage)
          = some ⟨blackImage, 1⟩ := by
  refine ⟨blackImage_length, ?_, ?_⟩
  · exact (List.length_append _ _).trans
      (congrArg₂ (fun a b : Nat => a + b) blackImage_length whiteImage_length)
  · have hle : (⟨blackImage, 0⟩ : Individual).pixels.length
        ≤ (blackImage ++ whiteImage).length := length_le_append blackImage whiteImage
    have htake : (blackImage ++ whiteImage).take blackImage.length = blackImage :=
      List.take_left' rfl
    rw [calculateFitness_eq _ _ hle]
    show some (⟨blackImage, roundDouble (1 - roundDouble
      (sumDiff blackImage (blackImage ++ whiteImage) blackImage.length / 783360))⟩ : Individual)
      = some ⟨blackImage, 1⟩
    rw [← sumDiff_take, htake]
    have : fitnessOf blackImage blackImage = 1 := (fitnessOf_eq_one_iff _ _ rfl).mpr rfl
    unfold fitnessOf at this
    rw [this]

/-! ## The raster of a candidate -/

theorem setByte_eq (rgb : List (Fin 256)) (i : Nat) (v : Fin 256) (h : i < rgb.length) :
    Individual.setByte rgb i v = some (rgb.set i v) :=
  if_pos h

theorem toRGB_loop (pixels : List Pixel) (init : List (Fin 256)) (hinit : init.length = 3072)
    (n : Nat) (hn : n ≤ pixels.length) (hmax : n ≤ 1024) :
    ∃ rgb, (List.range n).foldlM
        (fun (rgb : List (Fin 256)) (i : Nat) => do
          let p ← pixels[i]?
          let rgb ← Individual.setByte rgb (i * 3) p.r
          let rgb ← Individual.setByte rgb (i * 3 + 1) p.g
          Individual.setByte rgb (i * 3 + 2) p.b) init = some rgb
      ∧ rgb.length = 3072
      ∧ ∀ (j : Nat) (p : Pixel), j < n → pixels[j]? = some p →
          rgb[j * 3]? = some p.r ∧ rgb[j * 3 + 1]? = some p.g ∧ rgb[j * 3 + 2]? = some p.b := by
  induction n with
  | zero => exact ⟨init, rfl, hinit, fun j p hj => absurd hj (by omega)⟩
  | succ n ih =>
    obtain ⟨rgb, hfold, hlen, hall⟩ := ih (by omega) (by omega)
    obtain ⟨q, hq⟩ := getElem?_some_of_lt pixels n (by omega)
    refine ⟨((rgb.set (n * 3) q.r).set (n * 3 + 1) q.g).set (n * 3 + 2) q.b, ?_, ?_, ?_⟩
    · rw [List.range_succ, List.foldlM_append, hfold]
      simp only [Option.bind_eq_bind, Option.some_bind, List.foldlM_cons, List.foldlM_nil, hq,
        Option.pure_def]
      rw [setByte_eq _ _ _ (by omega), Option.some_bind,
        setByte_eq _ _ _ (by rw [List.length_set]; omega), Option.some_bind,
        setByte_eq _ _ _ (by rw [List.length_set, List.length_set]; omega), Option.some_bind]
    · rw [List.length_set, List.length_set, List.length_set]
      exact hlen
    · intro j p hj hp
      by_cases hjn : j = n
      · subst hjn
        rw [hq] at hp
        have hpq : q = p := Option.some.inj hp
        subst hpq
        refine ⟨?_, ?_, ?_⟩
        · rw [List.getElem?_set_ne (by omega), List.getElem?_set_ne (by omega)]
          exact List.getElem?_set_self (by omega)
        · rw [List.getElem?_set_ne (by omega)]
          exact List.getElem?_set_self (by rw [List.length_set]; omega)
        · exact List.getElem?_set_self (by rw [List.length_set, List.length_set]; omega)
      · obtain ⟨hr, hg, hb⟩ := hall j p (by omega) hp
        refine ⟨?_, ?_, ?_⟩
        · rw [List.getElem?_set_ne (by omega), List.getElem?_set_ne (by omega),
            List.getElem?_set_ne (by omega)]
          exact hr
        · rw [List.getElem?_set_ne (by omega), List.getElem?_set_ne (by omega),
            List.getElem?_set_ne (by omega)]
          exact hg
        · rw [List.getElem?_set_ne (by omega), List.getElem?_set_ne (by omega),
            List.getElem?_set_ne (by omega)]
          exact hb

/-! ## Claims on the raster and on the ranking as a reordering -/

/-- C18: for a candidate of 1024 pixels, `toRGBArray` returns a byte sequence of length
`3 * 1024` in which, for every position `i`, the bytes `3i`, `3i + 1` and `3i + 2` are the `r`,
`g` and `b` channels of `pixels[i]`; the pixel sequence is read back from the result, three bytes
for each pixel. The function only reads the candidate. -/
theorem toRGBArray_interleaved (c : Individual) (hc : c.pixels.length = 1024) :
    ∃ rgb, c.toRGBArray = some rgb ∧ rgb.length = 3 * 1024
      ∧ (∀ (i : Nat) (p : Pixel), c.pixels[i]? = some p →
          rgb[i * 3]? = some p.r ∧ rgb[i * 3 + 1]? = some p.g ∧ rgb[i * 3 + 2]? = some p.b)
      ∧ c.pixels = (List.range 1024).map fun i =>
          (⟨rgb.getD (i * 3) 0, rgb.getD (i * 3 + 1) 0, rgb.getD (i * 3 + 2) 0⟩ : Pixel) := by
  obtain ⟨rgb, hfold, hlen, hall⟩ := toRGB_loop c.pixels (List.replicate (32 * 32 * 3) 0)
    (List.length_replicate _ _) c.pixels.length (le_refl _) (le_of_eq hc)
  have hidx : ∀ (i : Nat) (p : Pixel), c.pixels[i]? = some p →
      rgb[i * 3]? = some p.r ∧ rgb[i * 3 + 1]? = some p.g ∧ rgb[i * 3 + 2]? = some p.b := by
    intro i p hp
    have hi : i < c.pixels.length := by
      by_contra hcon
      rw [List.getElem?_eq_none (by omega)] at hp
      exact Option.noConfusion hp
    exact hall i p hi hp
  refine ⟨rgb, hfold, hlen, hidx, ?_⟩
  apply List.ext_getElem?
  intro n
  by_cases hn : n < 1024
  · obtain ⟨p, hp⟩ := getElem?_some_of_lt c.pixels n (by omega)
    obtain ⟨hr, hg, hb⟩ := hidx n p hp
    rw [hp, List.getElem?_map, List.getElem?_range hn]
    simp only [Option.map_some', List.getD_eq_getElem?_getD, hr, hg, hb, Option.getD_some]
  · rw [List.getElem?_eq_none (by omega), List.getElem?_eq_none]
    rw [List.length_map, List.length_range]
    omega

theorem toRGBArray_interleaved_witness :
    ∃ rgb, (⟨whiteImage, 0⟩ : Individual).toRGBArray = some rgb ∧ rgb.length = 3 * 1024
      ∧ (∀ (i : Nat) (p : Pixel), (⟨whiteImage, 0⟩ : Individual).pixels[i]? = some p →
          rgb[i * 3]? = some p.r ∧ rgb[i * 3 + 1]? = some p.g ∧ rgb[i * 3 + 2]? = some p.b)
      ∧ (⟨whiteImage, 0⟩ : Individual).pixels = (List.range 1024).map fun i =>
          (⟨rgb.getD (i * 3) 0, rgb.getD (i * 3 + 1) 0, rgb.getD (i * 3 + 2) 0⟩ : Pixel) :=
  toRGBArray_interleaved ⟨whiteImage, 0⟩ whiteImage_length

/-- C20: whenever every read of `evaluateFitness` is in bounds (no candidate has more pixels than
the target), `evaluateFitness` returns a state that differs from the former one in the population
only; the pixel sequences of the new population are a permutation of those of the former one
(equal as multisets, so none is lost, duplicated or altered, and the size is the same), and every
member of the new population has the fitness that `calculateFitness` computes from its own pixels
against the target. -/
theorem evaluateFitness_reorders (s : GeneticAlgorithm)
    (h : ∀ c ∈ s.population, c.pixels.length ≤ s.targetImage.length) :
    ∃ population, s.evaluateFitness = some { s with population := population }
      ∧ (population.map fun c => c.pixels).Perm (s.population.map fun c => c.pixels)
      ∧ Multiset.ofList (population.map fun c => c.pixels)
          = Multiset.ofList (s.population.map fun c => c.pixels)
      ∧ population.length = s.population.length
      ∧ ∀ c ∈ population, c.calculateFitness s.targetImage = some c := by
  have hperm := sort_perm (fun (a b : Individual) => decide (a.fitness > b.fitness))
    (s.population.map fun c => (⟨c.pixels, fitnessOf c.pixels s.targetImage⟩ : Individual))
  have hpix : (List.map (fun c : Individual => c.pixels)
      (sort (fun (a b : Individual) => decide (a.fitness > b.fitness))
        (s.population.map fun c => (⟨c.pixels, fitnessOf c.pixels s.targetImage⟩ : Individual)))).Perm
      (s.population.map fun c => c.pixels) := by
    have := hperm.map (fun c : Individual => c.pixels)
    rw [List.map_map] at this
    exact this
  refine ⟨_, evaluateFitness_eq s h, hpix, Multiset.coe_eq_coe.mpr hpix, ?_, ?_⟩
  · rw [hperm.length_eq, List.length_map]
  · intro c hc
    obtain ⟨d, hd, rfl⟩ := List.mem_map.mp (hperm.subset hc)
    exact calculateFitness_fitnessOf _ _ (h d hd)

theorem evaluateFitness_reorders_witness :
    ∃ population, sampleEngine.evaluateFitness = some { sampleEngine with population := population }
      ∧ (population.map fun c => c.pixels).Perm (sampleEngine.population.map fun c => c.pixels)
      ∧ Multiset.ofList (population.map fun c => c.pixels)
          = Multiset.ofList (sampleEngine.population.map fun c => c.pixels)
      ∧ population.length = sampleEngine.population.length
      ∧ ∀ c ∈ population, c.calculateFitness sampleEngine.targetImage = some c :=
  evaluateFitness_reorders sampleEngine (fun c hc =>
    le_of_eq ((sampleEngine_wf.2.2.1 c hc).trans sampleEngine_wf.2.2.2.symm))

end GeneticAlgorithmPNG
